import Mathlib

/-!
Shallow embedding of the M4RI packed GF(2) matrix core
(src/packedmatrix.h, src/grayflex.c, src/misc.h) and proofs of the
specification claims about it.

A machine word is modelled as a `Nat` together with explicit `% 2 ^ 64`
truncation wherever the C code can overflow a 64-bit register.  A matrix
(`mzd_t`) is its header data plus the list of rows, each row being the
list of storage words that `M->rows[i]` points at.
-/

set_option maxHeartbeats 1000000

namespace M4ri

/-- The number of bits in a word (`m4ri_radix`). -/
def m4ri_radix : Nat := 64

/-- A word with all 64 bits set (`m4ri_ffff`). -/
def m4ri_ffff : Nat := 2 ^ 64 - 1

/-- 64-bit truncation: what storing a `Nat` into a C `word` keeps. -/
def trunc (x : Nat) : Nat := x % 2 ^ 64

/-- 64-bit bitwise complement `~x` of a word. -/
def wnot (x : Nat) : Nat := m4ri_ffff ^^^ x

/-- `__M4RI_LEFT_BITMASK(n)`: the `(n - 1) % 64 + 1` lowest bits set
(all 64 for `n = 0`). -/
def left_bitmask (n : Nat) : Nat := m4ri_ffff >>> ((64 - n) % 64)

/-- `__M4RI_RIGHT_BITMASK(n)`: the `n` highest bits set (`0 < n ≤ 64`). -/
def right_bitmask (n : Nat) : Nat := trunc (m4ri_ffff <<< (64 - n))

/-- Dense GF(2) matrix: header plus storage rows (`mzd_t`).  `offset` is
the column offset of logical column 0 inside the first storage word. -/
structure mzd_t where
  nrows : Nat
  ncols : Nat
  offset : Nat
  rows : List (List Nat)
deriving DecidableEq, Repr

/-- Number of storage words per row: `ceil((ncols + offset) / 64)`. -/
def Mwidth (M : mzd_t) : Nat := (M.ncols + M.offset + 63) / 64

/-- Read storage word `b` of row `r` (`M->rows[r][b]`), 0 outside. -/
def getw (M : mzd_t) (r b : Nat) : Nat := (M.rows.getD r []).getD b 0

/-- Store value `v` into storage word `b` of row `r`. -/
def setw (M : mzd_t) (r b v : Nat) : mzd_t :=
  ⟨M.nrows, M.ncols, M.offset, M.rows.set r ((M.rows.getD r []).set b v)⟩

/-- Well-formedness: offset fits in a word, at least one column, the row
list has `nrows` rows, every row has `Mwidth` words and every word fits
in 64 bits. -/
def Mwf (M : mzd_t) : Prop :=
  M.offset < 64 ∧ 0 < M.ncols ∧ M.rows.length = M.nrows ∧
    ∀ row ∈ M.rows, row.length = Mwidth M ∧ ∀ w ∈ row, w < 2 ^ 64

instance (M : mzd_t) : Decidable (Mwf M) := by
  unfold Mwf; infer_instance

@[simp] theorem setw_nrows (M : mzd_t) (r b v : Nat) : (setw M r b v).nrows = M.nrows := rfl

@[simp] theorem setw_ncols (M : mzd_t) (r b v : Nat) : (setw M r b v).ncols = M.ncols := rfl

@[simp] theorem setw_offset (M : mzd_t) (r b v : Nat) : (setw M r b v).offset = M.offset := rfl

@[simp] theorem setw_width (M : mzd_t) (r b v : Nat) : Mwidth (setw M r b v) = Mwidth M := rfl

theorem getw_setw (M : mzd_t) (r b v r' b' : Nat) :
    getw (setw M r b v) r' b' =
      if r' = r ∧ b' = b ∧ r < M.rows.length ∧ b < (M.rows.getD r []).length then v
      else getw M r' b' := by
  unfold getw setw
  simp only [List.getD_eq_getElem?_getD]
  by_cases hr : r' = r
  · subst hr
    rw [List.getElem?_set]
    by_cases hrl : r' < M.rows.length
    · simp only [hrl, if_true]
      rw [List.getElem?_eq_getElem hrl]
      simp only [Option.getD_some]
      rw [List.getElem?_set]
      by_cases hb : b' = b
      · subst hb
        by_cases hbl : b' < (M.rows[r']).length
        · have : b' < (M.rows.getD r' []).length := by
            rw [List.getD_eq_getElem?_getD, List.getElem?_eq_getElem hrl]; exact hbl
          simp [hbl, this, hrl, List.getD_eq_getElem?_getD, List.getElem?_eq_getElem hrl]
        · have : ¬ b' < (M.rows.getD r' []).length := by
            rw [List.getD_eq_getElem?_getD, List.getElem?_eq_getElem hrl]; exact hbl
          simp [hbl, this, hrl, List.getD_eq_getElem?_getD, List.getElem?_eq_getElem hrl,
            List.getElem?_eq_none (Nat.le_of_not_lt hbl)]
      · have hb' : ¬ b = b' := fun h => hb h.symm
        simp [hb, hb', List.getD_eq_getElem?_getD, List.getElem?_eq_getElem hrl]
    · have : M.rows[r']? = none := List.getElem?_eq_none (Nat.le_of_not_lt hrl)
      simp [hrl, this]
  · rw [List.getElem?_set_ne (fun h => hr h.symm)]
    simp [hr]

theorem rows_length_setw (M : mzd_t) (r b v : Nat) :
    (setw M r b v).rows.length = M.rows.length := by
  unfold setw; simp

theorem rowlen_setw (M : mzd_t) (r b v r' : Nat) :
    ((setw M r b v).rows.getD r' []).length = (M.rows.getD r' []).length := by
  unfold setw
  simp only [List.getD_eq_getElem?_getD]
  by_cases hr : r' = r
  · subst hr
    rw [List.getElem?_set]
    by_cases hrl : r' < M.rows.length
    · simp [hrl, List.getElem?_eq_getElem hrl]
    · simp [hrl, List.getElem?_eq_none (Nat.le_of_not_lt hrl)]
  · rw [List.getElem?_set_ne (fun h => hr h.symm)]

/-- `mzd_read_bit(M, row, col)`:
`__M4RI_GET_BIT(M->rows[row][(col+offset)/64], (col+offset) % 64)`. -/
def mzd_read_bit (M : mzd_t) (row col : Nat) : Nat :=
  (getw M row ((col + M.offset) / 64) >>> ((col + M.offset) % 64)) &&& 1

/-- `mzd_write_bit(M, row, col, value)` via `__M4RI_WRITE_BIT`:
`w = (w & ~(one << spot)) | (-value & (one << spot))`, where `-value` is
the 64-bit two's complement negation. -/
def mzd_write_bit (M : mzd_t) (row col value : Nat) : mzd_t :=
  let spot := (col + M.offset) % 64
  let b := (col + M.offset) / 64
  let w := getw M row b
  setw M row b
    ((w &&& wnot (1 <<< spot)) ||| (((2 ^ 64 - value % 2 ^ 64) % 2 ^ 64) &&& (1 <<< spot)))

/-- `mzd_read_bits(M, x, y, n)`: `spill = spot + n - 64`; one-word load
shifted left by `-spill` when `spill ≤ 0`, else two loads combined;
finally shifted right by `64 - n`. -/
def mzd_read_bits (M : mzd_t) (x y n : Nat) : Nat :=
  let spot := (y + M.offset) % 64
  let block := (y + M.offset) / 64
  let temp :=
    if spot + n ≤ 64 then trunc (getw M x block <<< (64 - (spot + n)))
    else trunc (getw M x (block + 1) <<< (64 - (spot + n - 64))) |||
      (getw M x block >>> (spot + n - 64))
  temp >>> (64 - n)

/-- `mzd_xor_bits(M, x, y, n, values)`: XOR `values << spot` into the
first word and, when `n` exceeds the remaining space, `values >> space`
into the next word. -/
def mzd_xor_bits (M : mzd_t) (x y n values : Nat) : mzd_t :=
  let spot := (y + M.offset) % 64
  let block := (y + M.offset) / 64
  let M1 := setw M x block (getw M x block ^^^ trunc (values <<< spot))
  if n > 64 - spot then
    setw M1 x (block + 1) (getw M1 x (block + 1) ^^^ (values >>> (64 - spot)))
  else M1

/-- `mzd_and_bits(M, x, y, n, values)`: first moves the high `n` bits of
`values` to the low columns (`values >>= 64 - n`), then ANDs the one or
two storage words with the shifted mask. -/
def mzd_and_bits (M : mzd_t) (x y n values : Nat) : mzd_t :=
  let values := values >>> (64 - n)
  let spot := (y + M.offset) % 64
  let block := (y + M.offset) / 64
  let M1 := setw M x block (getw M x block &&& trunc (values <<< spot))
  if n > 64 - spot then
    setw M1 x (block + 1) (getw M1 x (block + 1) &&& (values >>> (64 - spot)))
  else M1

/-- `mzd_clear_bits(M, x, y, n)`: AND the one or two storage words with
the complement of the shifted `n`-bit mask `ffff >> (64 - n)`. -/
def mzd_clear_bits (M : mzd_t) (x y n : Nat) : mzd_t :=
  let values := m4ri_ffff >>> (64 - n)
  let spot := (y + M.offset) % 64
  let block := (y + M.offset) / 64
  let M1 := setw M x block (getw M x block &&& wnot (trunc (values <<< spot)))
  if n > 64 - spot then
    setw M1 x (block + 1) (getw M1 x (block + 1) &&& wnot (values >>> (64 - spot)))
  else M1

/-! ### Generic word-level facts -/

theorem nbit_eq (x i : Nat) : (x >>> i) &&& 1 = if x.testBit i then 1 else 0 := by
  rw [Nat.and_one_is_mod, Nat.testBit_to_div_mod, Nat.shiftRight_eq_div_pow]
  rcases Nat.mod_two_eq_zero_or_one (x / 2 ^ i) with h | h <;> simp [h]

theorem nbit_congr {x i y j : Nat} (h : x.testBit i = y.testBit j) :
    (x >>> i) &&& 1 = (y >>> j) &&& 1 := by
  rw [nbit_eq, nbit_eq, h]

theorem getD_mem_or_default {α : Type} (l : List α) (i : Nat) (d : α) :
    l.getD i d ∈ l ∨ l.getD i d = d := by
  by_cases hi : i < l.length
  · left
    rw [List.getD_eq_getElem?_getD, List.getElem?_eq_getElem hi]
    exact List.getElem_mem hi
  · right
    rw [List.getD_eq_getElem?_getD, List.getElem?_eq_none (Nat.le_of_not_lt hi)]
    rfl

theorem getw_lt (M : mzd_t) (h : Mwf M) (r b : Nat) : getw M r b < 2 ^ 64 := by
  unfold getw
  rcases h with ⟨-, -, -, hrows⟩
  rcases getD_mem_or_default M.rows r [] with hmem | hnil
  · rcases hrows _ hmem with ⟨-, hw⟩
    rcases getD_mem_or_default (M.rows.getD r []) b 0 with hm | h0
    · exact hw _ hm
    · rw [h0]; exact Nat.pos_pow_of_pos 64 (by omega)
  · rw [hnil]
    simp only [List.getD_nil]
    exact Nat.pos_pow_of_pos 64 (by omega)

theorem rowlen_eq_width (M : mzd_t) (h : Mwf M) (r : Nat) (hr : r < M.nrows) :
    (M.rows.getD r []).length = Mwidth M := by
  rcases h with ⟨-, -, hlen, hrows⟩
  have hr' : r < M.rows.length := by omega
  have hmem : M.rows.getD r [] ∈ M.rows := by
    rw [List.getD_eq_getElem?_getD, List.getElem?_eq_getElem hr']
    exact List.getElem_mem hr'
  exact (hrows _ hmem).1

theorem testBit_ffff {i : Nat} (h : i < 64) : m4ri_ffff.testBit i = true := by
  have : m4ri_ffff = 2 ^ 64 - 1 := rfl
  rw [this, Nat.testBit_two_pow_sub_one]
  simpa using h

theorem testBit_ffff_ge {i : Nat} (h : 64 ≤ i) : m4ri_ffff.testBit i = false := by
  have : m4ri_ffff = 2 ^ 64 - 1 := rfl
  rw [this, Nat.testBit_two_pow_sub_one]
  simpa using h

theorem block_lt_width (M : mzd_t) (hwf : Mwf M) (col : Nat) (hj : col < M.ncols) :
    (col + M.offset) / 64 < Mwidth M := by
  unfold Mwidth
  omega

/-- C8: for every well-formed matrix, in-range indices `i < nrows` and
`j < ncols`, and `v ∈ ` [0, 1], `mzd_write_bit M i j v` followed by
`mzd_read_bit` at the same position returns `v`. -/
theorem C8_write_then_read (M : mzd_t) (i j v : Nat) (hwf : Mwf M)
    (hi : i < M.nrows) (hj : j < M.ncols) (hv : v = 0 ∨ v = 1) :
    mzd_read_bit (mzd_write_bit M i j v) i j = v := by
  have hlen : M.rows.length = M.nrows := hwf.2.2.1
  have hb : (j + M.offset) / 64 < (M.rows.getD i []).length := by
    rw [rowlen_eq_width M hwf i hi]
    exact block_lt_width M hwf j hj
  have hspot : (j + M.offset) % 64 < 64 := Nat.mod_lt _ (by omega)
  unfold mzd_read_bit mzd_write_bit
  simp only [setw_offset]
  rw [getw_setw]
  rw [if_pos ⟨rfl, rfl, by omega, hb⟩]
  rw [nbit_eq]
  rcases hv with hv | hv <;> subst hv
  · simp [wnot, Nat.one_shiftLeft, Nat.testBit_two_pow, testBit_ffff hspot]
  · simp only [wnot, Nat.one_shiftLeft, Nat.testBit_or, Nat.testBit_and, Nat.testBit_xor,
      Nat.testBit_two_pow, testBit_ffff hspot]
    simp
    exact testBit_ffff hspot

/-- C8 witness: a concrete 1-row matrix where writing 1 at (0, 2) and
reading it back yields 1. -/
theorem C8_write_then_read_witness :
    Mwf ⟨1, 64, 0, [[0]]⟩ ∧ mzd_read_bit (mzd_write_bit ⟨1, 64, 0, [[0]]⟩ 0 2 1) 0 2 = 1 :=
  ⟨by decide, C8_write_then_read ⟨1, 64, 0, [[0]]⟩ 0 2 1 (by decide) (by decide) (by decide)
    (Or.inr rfl)⟩

/-! ### grayflex.c: Gray code tables -/

/-- One iteration of the loop body of `m4ri_gray_code`:
`bit = number & (1 << i); res |= (lastbit >> 1) ^ bit; lastbit = bit;`
with state `(lastbit, res)`. -/
def grayStep (number : Nat) (st : Nat × Nat) (i : Nat) : Nat × Nat :=
  (number &&& (1 <<< i), st.2 ||| ((st.1 >>> 1) ^^^ (number &&& (1 <<< i))))

/-- `m4ri_gray_code(number, length)`: loop `i = length-1 .. 0` over
`grayStep`, starting from `lastbit = 0`, `res = 0`. -/
def m4ri_gray_code (number length : Nat) : Nat :=
  ((List.range length).reverse.foldl (grayStep number) (0, 0)).2

/-- The `ord` array built by `m4ri_build_code(ord, inc, l)`:
`ord[i] = m4ri_gray_code(i, l)` for `i < 2^l`. -/
def buildCodeOrd (l : Nat) : List Nat :=
  (List.range (2 ^ l)).map (fun i => m4ri_gray_code i l)

/-- The inner loop of the `inc` build for a fixed `i`:
`for (j = 1; j < 2^i + 1; ++j) inc[j * 2^(l-i) - 1] = l - i;`. -/
def incInner (l i : Nat) (lst : List Nat) : List Nat :=
  (List.range (2 ^ i)).foldl (fun acc jm1 => acc.set ((jm1 + 1) * 2 ^ (l - i) - 1) (l - i)) lst

/-- The `inc` array built by `m4ri_build_code(ord, inc, l)` from the
calloc-zeroed array: outer loop `i = l` down to `1`. -/
def buildCodeInc (l : Nat) : List Nat :=
  (List.range l).foldl (fun acc d => incInner l (l - d) acc) (List.replicate (2 ^ l) 0)

/-- A `code` record: the pair of tables of `m4ri_build_code`. -/
structure code where
  ord : List Nat
  inc : List Nat
deriving DecidableEq, Repr

/-- `m4ri_build_code(ord, inc, k)` as a function producing both tables. -/
def m4ri_build_code (k : Nat) : code := ⟨buildCodeOrd k, buildCodeInc k⟩

/-- The process-wide `codebook` pointer: `none` models `NULL`, `some`
holds the tables for `k = 1 .. maxkay`.  `MAXKAY` itself is declared in
`grayflex.h` (not in the sources at hand), so it is a parameter here. -/
def codebook_t : Type := Option (List code)

/-- `m4ri_build_all_codes()`: returns immediately if the codebook
exists, otherwise builds the tables for `k = 1 .. maxkay`. -/
def m4ri_build_all_codes (maxkay : Nat) (cb : codebook_t) : codebook_t :=
  match cb with
  | some t => some t
  | none => some ((List.range maxkay).map (fun k0 => m4ri_build_code (k0 + 1)))

/-- `m4ri_destroy_all_codes()`: frees the tables (if any) and resets the
codebook to `NULL`. -/
def m4ri_destroy_all_codes (cb : codebook_t) : codebook_t :=
  match cb with
  | some _ => none
  | none => none

/-! ### misc.h: least-significant-bit comparison -/

/-- `m4ri_lesser_LSB(a, b)`:
`!(ib ? ((ia - 1) ^ ia) & ib : !ia)` with 64-bit wrap-around on `ia - 1`. -/
def m4ri_lesser_LSB (a b : Nat) : Nat :=
  if (if b ≠ 0 then (((a + 2 ^ 64 - 1) % 2 ^ 64) ^^^ a) &&& b else if a = 0 then 1 else 0)
      = 0 then 1 else 0

/-- The 2-adic valuation of `n` (0 for `n = 0`): the index of the least
significant set bit of a non-zero number. -/
def v2 (n : Nat) : Nat :=
  if h : n = 0 then 0
  else if n % 2 = 1 then 0
  else v2 (n / 2) + 1
termination_by n
decreasing_by exact Nat.div_lt_self (Nat.pos_of_ne_zero h) (by omega)

/-- The index of the least significant set bit, with 64 for the zero
word — the `LSBI` of the `m4ri_lesser_LSB` documentation. -/
def lsb_index (w : Nat) : Nat := if w = 0 then 64 else v2 w

theorem v2_odd {n : Nat} (h : n % 2 = 1) : v2 n = 0 := by
  unfold v2
  have : n ≠ 0 := by omega
  simp [this, h]

theorem v2_even {n : Nat} (h : n % 2 = 0) (h0 : n ≠ 0) : v2 n = v2 (n / 2) + 1 := by
  rw [v2]
  simp [h0, h]

theorem v2_dvd (n k : Nat) (hn : n ≠ 0) : 2 ^ k ∣ n ↔ k ≤ v2 n := by
  induction n using Nat.strong_induction_on generalizing k with
  | _ n ih =>
    rcases Nat.mod_two_eq_zero_or_one n with he | ho
    · rw [v2_even he hn]
      cases k with
      | zero => simp
      | succ k' =>
        have hhalf : n / 2 ≠ 0 := by omega
        have hlt : n / 2 < n := Nat.div_lt_self (Nat.pos_of_ne_zero hn) (by omega)
        have h2 : n = 2 * (n / 2) := by omega
        constructor
        · intro hdvd
          rcases hdvd with ⟨c, hc⟩
          have hc2 : n = 2 * (2 ^ k' * c) := by rw [hc]; ring
          have : 2 ^ k' ∣ n / 2 := ⟨c, by omega⟩
          have := (ih _ hlt k' hhalf).mp this
          omega
        · intro hk
          have : 2 ^ k' ∣ n / 2 := (ih _ hlt k' hhalf).mpr (by omega)
          rcases this with ⟨c, hc⟩
          refine ⟨c, ?_⟩
          have hc2 : 2 ^ (k' + 1) * c = 2 * (2 ^ k' * c) := by ring
          omega
    · rw [v2_odd ho]
      constructor
      · intro hdvd
        cases k with
        | zero => omega
        | succ k' =>
          exfalso
          rcases hdvd with ⟨c, hc⟩
          have hc2 : n = 2 * (2 ^ k' * c) := by rw [hc]; ring
          omega
      · intro hk
        have : k = 0 := by omega
        simp [this]

theorem v2_lt_of_lt_two_pow {n m : Nat} (hn : n ≠ 0) (h : n < 2 ^ m) : v2 n < m := by
  have hdvd : 2 ^ v2 n ∣ n := (v2_dvd n (v2 n) hn).mpr (le_refl _)
  have hge : 2 ^ v2 n ≤ n := Nat.le_of_dvd (Nat.pos_of_ne_zero hn) hdvd
  have : 2 ^ v2 n < 2 ^ m := by omega
  exact (Nat.pow_lt_pow_iff_right (by omega)).mp this

/-- C9: building the Gray-code tables is idempotent — a build on an
existing table set returns it unmodified, so repeated builds equal a
single build — and a build after a destroy equals a build from the
initial empty state. -/
theorem C9_build_all_codes_idempotent (maxkay : Nat) (cb : codebook_t) (ts : List code) :
    m4ri_build_all_codes maxkay (some ts) = some ts ∧
    m4ri_build_all_codes maxkay (m4ri_build_all_codes maxkay cb) =
      m4ri_build_all_codes maxkay cb ∧
    m4ri_build_all_codes maxkay (m4ri_destroy_all_codes cb) =
      m4ri_build_all_codes maxkay none := by
  refine ⟨rfl, ?_, ?_⟩ <;> cases cb <;> rfl

/-- For `j ≥ 1`, `(j - 1) XOR j` is the block of ones reaching up to and
including the least significant set bit of `j`. -/
theorem sub_one_xor (j : Nat) (hj : 1 ≤ j) : (j - 1) ^^^ j = 2 ^ (v2 j + 1) - 1 := by
  induction j using Nat.strong_induction_on with
  | _ j ih =>
    rcases Nat.mod_two_eq_zero_or_one j with he | ho
    · have hm1 : 1 ≤ j / 2 := by omega
      have hlt : j / 2 < j := by omega
      have ihm := ih (j / 2) hlt hm1
      rw [v2_even he (by omega)]
      apply Nat.eq_of_testBit_eq
      intro i
      cases i with
      | zero =>
        simp only [Nat.testBit_zero, Nat.testBit_xor, Nat.testBit_two_pow_sub_one]
        have h1 : (j - 1) % 2 = 1 := by omega
        simp [h1, he]
        omega
      | succ i =>
        rw [Nat.testBit_xor, Nat.testBit_add_one, Nat.testBit_add_one,
          Nat.testBit_two_pow_sub_one]
        have hd : (j - 1) / 2 = j / 2 - 1 := by omega
        rw [hd, ← Nat.testBit_xor, ihm, Nat.testBit_two_pow_sub_one]
        simp only [decide_eq_decide]
        omega
    · rw [v2_odd ho]
      apply Nat.eq_of_testBit_eq
      intro i
      cases i with
      | zero =>
        simp only [Nat.testBit_zero, Nat.testBit_xor, Nat.testBit_two_pow_sub_one]
        have h1 : (j - 1) % 2 = 0 := by omega
        simp [h1, ho]
        omega
      | succ i =>
        rw [Nat.testBit_xor, Nat.testBit_add_one, Nat.testBit_add_one,
          Nat.testBit_two_pow_sub_one]
        have hd : (j - 1) / 2 = j / 2 := by omega
        rw [hd]
        simp

theorem lsb_index_zero : lsb_index 0 = 64 := rfl

theorem lsb_index_ne {b : Nat} (h : b ≠ 0) : lsb_index b = v2 b := by
  unfold lsb_index
  simp [h]

theorem lesser_LSB_eq (a b : Nat) (ha : a < 2 ^ 64) (hb : b < 2 ^ 64) :
    m4ri_lesser_LSB a b = if lsb_index a < lsb_index b then 1 else 0 := by
  have h64 : (0 : Nat) < 2 ^ 64 := Nat.pos_pow_of_pos 64 (by omega)
  unfold m4ri_lesser_LSB
  by_cases hbz : b = 0
  · subst hbz
    by_cases haz : a = 0
    · subst haz
      simp [lsb_index_zero]
    · have hv : v2 a < 64 := v2_lt_of_lt_two_pow haz ha
      simp [haz, lsb_index_ne haz, lsb_index_zero, hv]
  · rw [if_pos hbz]
    by_cases haz : a = 0
    · subst haz
      have hv : v2 b < 64 := v2_lt_of_lt_two_pow hbz hb
      have h1 : (0 + 2 ^ 64 - 1) % 2 ^ 64 = 2 ^ 64 - 1 := Nat.mod_eq_of_lt (by omega)
      have hand : (2 ^ 64 - 1) &&& b = b := by
        rw [Nat.and_comm, Nat.and_pow_two_sub_one_eq_mod, Nat.mod_eq_of_lt hb]
      rw [h1, Nat.xor_zero, hand, if_neg hbz,
        if_neg (by rw [lsb_index_zero, lsb_index_ne hbz]; omega)]
    · have ha1 : (a + 2 ^ 64 - 1) % 2 ^ 64 = a - 1 := by
        have hsplit : a + 2 ^ 64 - 1 = (a - 1) + 2 ^ 64 := by omega
        rw [hsplit, Nat.add_mod_right, Nat.mod_eq_of_lt (by omega)]
      have hx : (a - 1) ^^^ a = 2 ^ (v2 a + 1) - 1 := sub_one_xor a (by omega)
      have hand : (2 ^ (v2 a + 1) - 1) &&& b = b % 2 ^ (v2 a + 1) := by
        rw [Nat.and_comm, Nat.and_pow_two_sub_one_eq_mod]
      have hiff : b % 2 ^ (v2 a + 1) = 0 ↔ v2 a + 1 ≤ v2 b := by
        rw [← Nat.dvd_iff_mod_eq_zero]
        exact v2_dvd b _ hbz
      rw [ha1, hx, hand, lsb_index_ne haz, lsb_index_ne hbz]
      by_cases hcmp : v2 a < v2 b
      · rw [if_pos (hiff.mpr (by omega)), if_pos hcmp]
      · have hno : ¬ b % 2 ^ (v2 a + 1) = 0 := fun h0 => hcmp (by
          have := hiff.mp h0
          omega)
        rw [if_neg hno, if_neg hcmp]

/-- C10: `m4ri_lesser_LSB a b` is non-zero exactly when the index of the
least significant set bit of `a` (64 for a zero word) is strictly below
that of `b`; in particular it is zero whenever `a = 0`, and non-zero
whenever `a ≠ 0` and `b = 0`. -/
theorem C10_lesser_LSB_spec (a b : Nat) (ha : a < 2 ^ 64) (hb : b < 2 ^ 64) :
    (m4ri_lesser_LSB a b ≠ 0 ↔ lsb_index a < lsb_index b) ∧
    (a = 0 → m4ri_lesser_LSB a b = 0) ∧
    (a ≠ 0 → b = 0 → m4ri_lesser_LSB a b ≠ 0) := by
  rw [lesser_LSB_eq a b ha hb]
  refine ⟨?_, ?_, ?_⟩
  · by_cases h : lsb_index a < lsb_index b <;> simp [h]
  · intro haz
    subst haz
    have : lsb_index 0 = 64 := rfl
    rw [if_neg]
    rw [this]
    by_cases hbz : b = 0
    · subst hbz; rw [this]; omega
    · have : lsb_index b = v2 b := by unfold lsb_index; simp [hbz]
      rw [this]
      have := v2_lt_of_lt_two_pow hbz hb
      omega
  · intro haz hbz
    subst hbz
    rw [if_pos]
    · omega
    · have h1 : lsb_index a = v2 a := by unfold lsb_index; simp [haz]
      have h2 : lsb_index 0 = 64 := rfl
      rw [h1, h2]
      exact v2_lt_of_lt_two_pow haz ha

/-- C10 witness: at `a = 4`, `b = 0` the hypotheses hold and the claim
instances evaluate as stated. -/
theorem C10_lesser_LSB_spec_witness :
    (4 : Nat) < 2 ^ 64 ∧ (m4ri_lesser_LSB 4 0 ≠ 0 ↔ lsb_index 4 < lsb_index 0) :=
  ⟨by norm_num, (C10_lesser_LSB_spec 4 0 (by norm_num) (by positivity)).1⟩

theorem gray_foldl (n : Nat) : ∀ (l res : Nat),
    ((List.range l).reverse.foldl (grayStep n) (n &&& (1 <<< l), res)).2
      = res ||| ((n ^^^ (n >>> 1)) &&& (2 ^ l - 1)) := by
  intro l
  induction l with
  | zero =>
    intro res
    simp
  | succ l ihl =>
    intro res
    rw [List.range_succ, List.reverse_append]
    simp only [List.reverse_cons, List.reverse_nil, List.nil_append, List.singleton_append,
      List.foldl_cons]
    have hstep : grayStep n (n &&& (1 <<< (l + 1)), res) l =
        (n &&& (1 <<< l), res ||| (((n &&& (1 <<< (l + 1))) >>> 1) ^^^ (n &&& (1 <<< l)))) := rfl
    rw [hstep, ihl]
    apply Nat.eq_of_testBit_eq
    intro i
    simp only [Nat.testBit_or, Nat.testBit_and, Nat.testBit_xor, Nat.testBit_shiftRight,
      Nat.one_shiftLeft, Nat.testBit_two_pow, Nat.testBit_two_pow_sub_one]
    rcases Nat.lt_trichotomy i l with h | h | h
    · have h1 : ¬ (l + 1 = 1 + i) := by omega
      have h2 : ¬ (l = i) := by omega
      have h3 : i < l + 1 := by omega
      simp [h1, h2, h, h3]
    · subst h
      have h1 : (i + 1 = 1 + i) := by omega
      have h2 : ¬ (i < i) := by omega
      have h3 : i < i + 1 := by omega
      simp [h1, h2, h3, Bool.xor_comm]
    · have h1 : ¬ (l + 1 = 1 + i) := by omega
      have h2 : ¬ (l = i) := by omega
      have h3 : ¬ (i < l + 1) := by omega
      have h4 : ¬ (i < l) := by omega
      simp [h1, h2, h3, h4]

theorem m4ri_gray_code_eq (n l : Nat) (h : n < 2 ^ l) :
    m4ri_gray_code n l = n ^^^ (n >>> 1) := by
  unfold m4ri_gray_code
  have h0 : n &&& (1 <<< l) = 0 := by
    apply Nat.eq_of_testBit_eq
    intro i
    simp only [Nat.testBit_and, Nat.one_shiftLeft, Nat.testBit_two_pow, Nat.zero_testBit]
    rcases eq_or_ne l i with he | hne
    · subst he
      simp [Nat.testBit_lt_two_pow h]
    · simp [hne]
  have hpair : ((0 : Nat), (0 : Nat)) = (n &&& (1 <<< l), (0 : Nat)) := by rw [h0]
  rw [hpair, gray_foldl]
  have hs : n >>> 1 ≤ n := by
    rw [Nat.shiftRight_eq_div_pow]
    exact Nat.div_le_self _ _
  have hx : n ^^^ (n >>> 1) < 2 ^ l := Nat.xor_lt_two_pow h (by omega)
  rw [Nat.zero_or, Nat.and_pow_two_sub_one_eq_mod, Nat.mod_eq_of_lt hx]

theorem getD_set_nat (lst : List Nat) (i p v : Nat) :
    (lst.set i v).getD p 0 = if p = i ∧ p < lst.length then v else lst.getD p 0 := by
  rw [List.getD_eq_getElem?_getD, List.getD_eq_getElem?_getD, List.getElem?_set]
  by_cases hp : i = p
  · subst hp
    by_cases hl : i < lst.length
    · simp [hl]
    · simp [hl, List.getElem?_eq_none (Nat.le_of_not_lt hl)]
  · have hp' : ¬ (p = i) := fun h => hp h.symm
    simp [hp, hp']

theorem foldl_set_length (v : Nat) (f : Nat → Nat) (js : List Nat) : ∀ (lst : List Nat),
    (js.foldl (fun acc j => acc.set (f j) v) lst).length = lst.length := by
  induction js with
  | nil => intro lst; rfl
  | cons j rest ih =>
    intro lst
    rw [List.foldl_cons, ih]
    simp

theorem foldl_set_getD (v : Nat) (f : Nat → Nat) (js : List Nat) : ∀ (lst : List Nat) (p : Nat),
    (js.foldl (fun acc j => acc.set (f j) v) lst).getD p 0
      = if (∃ j ∈ js, f j = p) ∧ p < lst.length then v else lst.getD p 0 := by
  induction js with
  | nil =>
    intro lst p
    simp
  | cons j rest ih =>
    intro lst p
    rw [List.foldl_cons, ih, getD_set_nat, List.length_set]
    by_cases hp : p < lst.length
    · by_cases hj : f j = p
      · by_cases hr : ∃ j' ∈ rest, f j' = p
        · rw [if_pos ⟨hr, hp⟩, if_pos ⟨⟨j, List.mem_cons_self j rest, hj⟩, hp⟩]
        · rw [if_neg (fun h => hr h.1), if_pos ⟨hj.symm, hp⟩,
            if_pos ⟨⟨j, List.mem_cons_self j rest, hj⟩, hp⟩]
      · by_cases hr : ∃ j' ∈ rest, f j' = p
        · rw [if_pos ⟨hr, hp⟩, if_pos ?_]
          rcases hr with ⟨j', hj', he⟩
          exact ⟨⟨j', List.mem_cons_of_mem j hj', he⟩, hp⟩
        · rw [if_neg (fun h => hr h.1), if_neg (fun h => hj h.1.symm), if_neg ?_]
          rintro ⟨⟨j', hj', he⟩, -⟩
          rcases List.mem_cons.mp hj' with he' | hm
          · exact hj (he' ▸ he)
          · exact hr ⟨j', hm, he⟩
    · rw [if_neg (fun h => hp h.2), if_neg (fun h => hp h.2), if_neg (fun h => hp h.2)]

theorem incInner_length (l i : Nat) (lst : List Nat) :
    (incInner l i lst).length = lst.length := by
  unfold incInner
  exact foldl_set_length _ _ _ lst

theorem incInner_getD (l i : Nat) (hi : i ≤ l) (lst : List Nat) (hlen : lst.length = 2 ^ l)
    (p : Nat) :
    (incInner l i lst).getD p 0 =
      if 2 ^ (l - i) ∣ (p + 1) ∧ p < 2 ^ l then l - i else lst.getD p 0 := by
  unfold incInner
  rw [foldl_set_getD, hlen]
  congr 1
  simp only [List.mem_range, eq_iff_iff]
  constructor
  · rintro ⟨⟨j, hj, he⟩, hp⟩
    refine ⟨⟨j + 1, ?_⟩, hp⟩
    have hq1 : 0 < (j + 1) * 2 ^ (l - i) := by positivity
    have hcomm : 2 ^ (l - i) * (j + 1) = (j + 1) * 2 ^ (l - i) := Nat.mul_comm _ _
    omega
  · rintro ⟨⟨c, hc⟩, hp⟩
    have hpos : 0 < 2 ^ (l - i) := Nat.pos_pow_of_pos _ (by omega)
    have hc0 : 1 ≤ c := by
      rcases Nat.eq_zero_or_pos c with h0 | h1
      · subst h0; omega
      · exact h1
    have hcomm2 : 2 ^ (l - i) * c = c * 2 ^ (l - i) := Nat.mul_comm _ _
    refine ⟨⟨c - 1, ?_, ?_⟩, hp⟩
    · have hsplit : 2 ^ l = 2 ^ i * 2 ^ (l - i) := by
        rw [← Nat.pow_add]
        congr 1
        omega
      by_contra hge
      have hcge : 2 ^ i + 1 ≤ c := by omega
      have hmul : (2 ^ i + 1) * 2 ^ (l - i) ≤ c * 2 ^ (l - i) :=
        Nat.mul_le_mul_right _ hcge
      have hh : (2 ^ i + 1) * 2 ^ (l - i) = 2 ^ i * 2 ^ (l - i) + 2 ^ (l - i) := by ring
      omega
    · have hc1 : (c - 1 + 1) = c := by omega
      rw [hc1]
      have hq1 : 0 < c * 2 ^ (l - i) := by positivity
      omega

theorem incBuild_length (l : Nat) (m : Nat) :
    ((List.range m).foldl (fun acc d => incInner l (l - d) acc)
      (List.replicate (2 ^ l) 0)).length = 2 ^ l := by
  induction m with
  | zero => simp
  | succ m ih =>
    rw [List.range_succ, List.foldl_append, List.foldl_cons, List.foldl_nil, incInner_length, ih]

theorem incBuild_getD (l : Nat) : ∀ (m : Nat), m ≤ l → ∀ (p : Nat),
    ((List.range m).foldl (fun acc d => incInner l (l - d) acc)
      (List.replicate (2 ^ l) 0)).getD p 0
      = if p < 2 ^ l ∧ 1 ≤ m then min (v2 (p + 1)) (m - 1) else 0 := by
  intro m
  induction m with
  | zero =>
    intro hm p
    simp
  | succ m ih =>
    intro hm p
    rw [List.range_succ, List.foldl_append, List.foldl_cons, List.foldl_nil]
    rw [incInner_getD l (l - m) (by omega) _ (incBuild_length l m)]
    have hmm : l - (l - m) = m := by omega
    rw [hmm, ih (by omega)]
    by_cases hp : p < 2 ^ l
    · by_cases hdvd : 2 ^ m ∣ (p + 1)
      · rw [if_pos ⟨hdvd, hp⟩, if_pos ⟨hp, by omega⟩]
        have hv : m ≤ v2 (p + 1) := (v2_dvd (p + 1) m (by omega)).mp hdvd
        omega
      · rw [if_neg (fun h => hdvd h.1)]
        have hv : v2 (p + 1) < m := by
          by_contra hge
          exact hdvd ((v2_dvd (p + 1) m (by omega)).mpr (by omega))
        have hm1 : 1 ≤ m := by
          rcases Nat.eq_zero_or_pos m with h0 | h1
          · subst h0
            have h1d : (2 : Nat) ^ 0 ∣ (p + 1) := by norm_num
            exact absurd h1d hdvd
          · exact h1
        rw [if_pos ⟨hp, hm1⟩, if_pos ⟨hp, by omega⟩]
        omega
    · rw [if_neg (fun h => hp h.2), if_neg (fun h => hp h.1), if_neg (fun h => hp h.1)]

theorem buildCodeInc_getD (l p : Nat) (hl : 1 ≤ l) (hp : p < 2 ^ l) :
    (buildCodeInc l).getD p 0 = min (v2 (p + 1)) (l - 1) := by
  unfold buildCodeInc
  rw [incBuild_getD l l (le_refl l) p, if_pos ⟨hp, hl⟩]

theorem buildCodeOrd_getD (l i : Nat) (h : i < 2 ^ l) :
    (buildCodeOrd l).getD i 0 = m4ri_gray_code i l := by
  unfold buildCodeOrd
  rw [List.getD_eq_getElem?_getD, List.getElem?_map, List.getElem?_range h]
  rfl

theorem shiftRight_one_xor (a b : Nat) : (a >>> 1) ^^^ (b >>> 1) = (a ^^^ b) >>> 1 := by
  apply Nat.eq_of_testBit_eq
  intro i
  simp

theorem gray_adjacent (l j : Nat) (h1 : 1 ≤ j) (h2 : j < 2 ^ l) :
    m4ri_gray_code (j - 1) l ^^^ m4ri_gray_code j l = 2 ^ v2 j := by
  rw [m4ri_gray_code_eq (j - 1) l (by omega), m4ri_gray_code_eq j l h2]
  have hshuffle : ((j - 1) ^^^ ((j - 1) >>> 1)) ^^^ (j ^^^ (j >>> 1))
      = ((j - 1) ^^^ j) ^^^ (((j - 1) ^^^ j) >>> 1) := by
    apply Nat.eq_of_testBit_eq
    intro i
    simp only [Nat.testBit_xor, Nat.testBit_shiftRight]
    rcases Bool.eq_false_or_eq_true ((j - 1).testBit i) with h | h <;>
      rcases Bool.eq_false_or_eq_true (j.testBit i) with h' | h' <;>
      rcases Bool.eq_false_or_eq_true ((j - 1).testBit (1 + i)) with h'' | h'' <;>
      rcases Bool.eq_false_or_eq_true (j.testBit (1 + i)) with h''' | h''' <;>
      simp [h, h', h'', h''']
  rw [hshuffle, sub_one_xor j h1]
  have hdiv : (2 ^ (v2 j + 1) - 1) >>> 1 = 2 ^ v2 j - 1 := by
    rw [Nat.shiftRight_eq_div_pow]
    have : 2 ^ (v2 j + 1) = 2 * 2 ^ v2 j := by ring
    omega
  rw [hdiv]
  apply Nat.eq_of_testBit_eq
  intro i
  simp only [Nat.testBit_xor, Nat.testBit_two_pow_sub_one, Nat.testBit_two_pow]
  rcases Nat.lt_trichotomy i (v2 j) with h | h | h
  · have e1 : i < v2 j + 1 := by omega
    have e2 : ¬ (v2 j = i) := by omega
    simp [h, e1, e2]
  · subst h
    have e1 : v2 j < v2 j + 1 := by omega
    have e2 : ¬ (v2 j < v2 j) := by omega
    simp [e1, e2]
  · have e1 : ¬ (i < v2 j + 1) := by omega
    have e2 : ¬ (i < v2 j) := by omega
    have e3 : ¬ (v2 j = i) := by omega
    simp [e1, e2, e3]

/-- C2 counterexample: at `k = 2`, step `j = 1`, the built tables give
`ord[0] XOR ord[1] = 1` (bit 0 flips) but `inc[1] = 1`, so the flipped
bit is not bit `inc[j]` as the claim states. -/
theorem C2_gray_code_tables_cex :
    ¬ ((buildCodeOrd 2).getD 0 0 ^^^ (buildCodeOrd 2).getD 1 0 =
      1 <<< ((buildCodeInc 2).getD 1 0)) := by decide

/-- C2 (amended): for every `k ≥ 1` (hence for every `k ≤ MAXKAY`),
`ord[i] = i XOR (i >> 1)` for all `i < 2^k`, and for every step `j` with
`1 ≤ j < 2^k` the word `ord[j-1] XOR ord[j]` has exactly one bit set,
namely bit `inc[j-1]` (not `inc[j]`), with `inc[j-1] < k`. -/
theorem C2_gray_code_tables_amended (k : Nat) (hk : 1 ≤ k) :
    (∀ i, i < 2 ^ k → (buildCodeOrd k).getD i 0 = i ^^^ (i >>> 1)) ∧
    (∀ j, 1 ≤ j → j < 2 ^ k →
      (buildCodeOrd k).getD (j - 1) 0 ^^^ (buildCodeOrd k).getD j 0 =
        1 <<< ((buildCodeInc k).getD (j - 1) 0) ∧
      (buildCodeInc k).getD (j - 1) 0 < k) := by
  constructor
  · intro i hi
    rw [buildCodeOrd_getD k i hi, m4ri_gray_code_eq i k hi]
  · intro j hj1 hj2
    have hv : v2 j < k := v2_lt_of_lt_two_pow (by omega) hj2
    have hinc : (buildCodeInc k).getD (j - 1) 0 = v2 j := by
      rw [buildCodeInc_getD k (j - 1) hk (by omega)]
      have hj : j - 1 + 1 = j := by omega
      rw [hj]
      omega
    refine ⟨?_, by rw [hinc]; exact hv⟩
    rw [buildCodeOrd_getD k (j - 1) (by omega), buildCodeOrd_getD k j hj2, hinc,
      Nat.one_shiftLeft]
    exact gray_adjacent k j hj1 hj2

/-- C2 witness: at `k = 3` the amended claim holds at `i = 5` and step
`j = 4`: `ord[5] = 7`, and `ord[3] XOR ord[4] = 4 = 1 << inc[3]`. -/
theorem C2_gray_code_tables_amended_witness :
    1 ≤ 3 ∧ (buildCodeOrd 3).getD 5 0 = 5 ^^^ (5 >>> 1) ∧
      (buildCodeOrd 3).getD 3 0 ^^^ (buildCodeOrd 3).getD 4 0 =
        1 <<< ((buildCodeInc 3).getD 3 0) :=
  ⟨by decide, (C2_gray_code_tables_amended 3 (by decide)).1 5 (by decide),
    ((C2_gray_code_tables_amended 3 (by decide)).2 4 (by decide) (by decide)).1⟩

/-- The word-level core of `mzd_read_bits`, on the one or two words the
bit range touches. -/
def readBitsWord (w0 w1 spot n : Nat) : Nat :=
  (if spot + n ≤ 64 then trunc (w0 <<< (64 - (spot + n)))
   else trunc (w1 <<< (64 - (spot + n - 64))) ||| (w0 >>> (spot + n - 64))) >>> (64 - n)

theorem mzd_read_bits_eq (M : mzd_t) (x y n : Nat) :
    mzd_read_bits M x y n =
      readBitsWord (getw M x ((y + M.offset) / 64)) (getw M x ((y + M.offset) / 64 + 1))
        ((y + M.offset) % 64) n := rfl

theorem readBitsWord_lt (w0 w1 spot n : Nat) (hw0 : w0 < 2 ^ 64) (hw1 : w1 < 2 ^ 64)
    (h64 : n ≤ 64) : readBitsWord w0 w1 spot n < 2 ^ n := by
  have hpow : (2 : Nat) ^ (64 - n) * 2 ^ n = 2 ^ 64 := by
    rw [← Nat.pow_add]
    congr 1
    omega
  have htemp : (if spot + n ≤ 64 then trunc (w0 <<< (64 - (spot + n)))
      else trunc (w1 <<< (64 - (spot + n - 64))) ||| (w0 >>> (spot + n - 64))) < 2 ^ 64 := by
    split
    · exact Nat.mod_lt _ (by positivity)
    · refine Nat.or_lt_two_pow (Nat.mod_lt _ (by positivity)) ?_
      rw [Nat.shiftRight_eq_div_pow]
      exact lt_of_le_of_lt (Nat.div_le_self _ _) hw0
  unfold readBitsWord
  rw [Nat.shiftRight_eq_div_pow]
  exact Nat.div_lt_of_lt_mul (hpow ▸ htemp)

theorem readBitsWord_testBit (w0 w1 spot n : Nat) (hw0 : w0 < 2 ^ 64)
    (hsp : spot < 64) (h1 : 1 ≤ n) (h64 : n ≤ 64) (i : Nat) (hi : i < n) :
    (readBitsWord w0 w1 spot n).testBit i =
      if spot + i < 64 then w0.testBit (spot + i) else w1.testBit (spot + i - 64) := by
  unfold readBitsWord
  rw [Nat.testBit_shiftRight]
  by_cases hcase : spot + n ≤ 64
  · rw [if_pos hcase, if_pos (by omega)]
    unfold trunc
    rw [Nat.testBit_mod_two_pow, Nat.testBit_shiftLeft]
    have d1 : 64 - n + i < 64 := by omega
    have d2 : 64 - n + i ≥ 64 - (spot + n) := by omega
    have d3 : 64 - n + i - (64 - (spot + n)) = spot + i := by omega
    simp [d1, d2, d3]
  · rw [if_neg hcase]
    unfold trunc
    rw [Nat.testBit_or, Nat.testBit_mod_two_pow, Nat.testBit_shiftLeft, Nat.testBit_shiftRight]
    have d4 : spot + n - 64 + (64 - n + i) = spot + i := by omega
    rw [d4]
    by_cases hlow : spot + i < 64
    · rw [if_pos hlow]
      have d5 : ¬ (64 - n + i ≥ 64 - (spot + n - 64)) := by omega
      have d1 : 64 - n + i < 64 := by omega
      simp [d5, d1]
    · rw [if_neg hlow]
      have d5 : 64 - n + i ≥ 64 - (spot + n - 64) := by omega
      have d6 : 64 - n + i - (64 - (spot + n - 64)) = spot + i - 64 := by omega
      have d1 : 64 - n + i < 64 := by omega
      have d8 : w0.testBit (spot + i) = false :=
        Nat.testBit_lt_two_pow (lt_of_lt_of_le hw0 (Nat.pow_le_pow_right (by omega) (by omega)))
      simp [d5, d6, d1, d8]

theorem read_bits_spec (M : mzd_t) (r c n : Nat) (hwf : Mwf M) (h1 : 1 ≤ n) (h64 : n ≤ 64) :
    mzd_read_bits M r c n < 2 ^ n ∧
    ∀ i, i < n → (mzd_read_bits M r c n).testBit i
      = (getw M r ((c + i + M.offset) / 64)).testBit ((c + i + M.offset) % 64) := by
  have hw0 : getw M r ((c + M.offset) / 64) < 2 ^ 64 := getw_lt M hwf r _
  have hw1 : getw M r ((c + M.offset) / 64 + 1) < 2 ^ 64 := getw_lt M hwf r _
  have hsp : (c + M.offset) % 64 < 64 := Nat.mod_lt _ (by omega)
  rw [mzd_read_bits_eq]
  refine ⟨readBitsWord_lt _ _ _ _ hw0 hw1 h64, fun i hi => ?_⟩
  rw [readBitsWord_testBit _ _ _ _ hw0 hsp h1 h64 i hi]
  by_cases hlow : (c + M.offset) % 64 + i < 64
  · rw [if_pos hlow]
    have hdiv : (c + i + M.offset) / 64 = (c + M.offset) / 64 := by omega
    have hmod : (c + i + M.offset) % 64 = (c + M.offset) % 64 + i := by omega
    rw [hdiv, hmod]
  · rw [if_neg hlow]
    have hin : i < 64 := by omega
    have hdiv : (c + i + M.offset) / 64 = (c + M.offset) / 64 + 1 := by omega
    have hmod : (c + i + M.offset) % 64 = (c + M.offset) % 64 + i - 64 := by omega
    rw [hdiv, hmod]

/-- C1: for a well-formed matrix (any column offset), `r < nrows`,
`1 ≤ n ≤ 64` and `c + n ≤ ncols`, `mzd_read_bits M r c n` returns a word
whose bit `i` equals the matrix entry `M[r, c+i]` for every `i < n`
(column `c` is bit 0 of the result) and whose bits `n .. 63` are zero
(the result is below `2^n`); this covers both the one-word and the
word-straddling load. -/
theorem C1_read_bits_spec (M : mzd_t) (r c n : Nat) (hwf : Mwf M) (hr : r < M.nrows)
    (h1 : 1 ≤ n) (h64 : n ≤ 64) (hc : c + n ≤ M.ncols) :
    mzd_read_bits M r c n < 2 ^ n ∧
    ∀ i, i < n → (mzd_read_bits M r c n >>> i) &&& 1 = mzd_read_bit M r (c + i) := by
  refine ⟨(read_bits_spec M r c n hwf h1 h64).1, fun i hi => ?_⟩
  unfold mzd_read_bit
  exact nbit_congr ((read_bits_spec M r c n hwf h1 h64).2 i hi)

/-- C1 witness: a 1 x 100 matrix with offset 3; reading 20 bits from
column 50 straddles the word boundary, and bit 15 of the result equals
the entry at column 65 (which lives in the second storage word). -/
theorem C1_read_bits_spec_witness :
    Mwf ⟨1, 100, 3, [[2 ^ 63, 5]]⟩ ∧
    mzd_read_bits ⟨1, 100, 3, [[2 ^ 63, 5]]⟩ 0 50 20 < 2 ^ 20 ∧
    (mzd_read_bits ⟨1, 100, 3, [[2 ^ 63, 5]]⟩ 0 50 20 >>> 15) &&& 1 =
      mzd_read_bit ⟨1, 100, 3, [[2 ^ 63, 5]]⟩ 0 65 :=
  ⟨by decide,
    (C1_read_bits_spec ⟨1, 100, 3, [[2 ^ 63, 5]]⟩ 0 50 20 (by decide) (by decide) (by decide)
      (by decide) (by decide)).1,
    (C1_read_bits_spec ⟨1, 100, 3, [[2 ^ 63, 5]]⟩ 0 50 20 (by decide) (by decide) (by decide)
      (by decide) (by decide)).2 15 (by decide)⟩

theorem ffff_shr {n : Nat} (h : n ≤ 64) : m4ri_ffff >>> (64 - n) = 2 ^ n - 1 := by
  apply Nat.eq_of_testBit_eq
  intro i
  rw [Nat.testBit_shiftRight, Nat.testBit_two_pow_sub_one]
  have hf : m4ri_ffff = 2 ^ 64 - 1 := rfl
  rw [hf, Nat.testBit_two_pow_sub_one]
  simp only [decide_eq_decide]
  omega

theorem wnot_testBit (x p : Nat) (hp : p < 64) : (wnot x).testBit p = !(x.testBit p) := by
  unfold wnot
  rw [Nat.testBit_xor, testBit_ffff hp]
  cases x.testBit p <;> simp

theorem trunc_testBit (x p : Nat) (hp : p < 64) : (trunc x).testBit p = x.testBit p := by
  unfold trunc
  rw [Nat.testBit_mod_two_pow]
  simp [hp]

theorem nbit_and_eq {x i y j z k : Nat} (h : x.testBit i = (y.testBit j && z.testBit k)) :
    (x >>> i) &&& 1 = ((y >>> j) &&& 1) &&& ((z >>> k) &&& 1) := by
  rw [nbit_eq, nbit_eq, nbit_eq, h]
  cases hy : y.testBit j <;> cases hz : z.testBit k <;> simp

theorem nbit_xor_eq {x i y j z k : Nat} (h : x.testBit i = ((y.testBit j).xor (z.testBit k))) :
    (x >>> i) &&& 1 = ((y >>> j) &&& 1) ^^^ ((z >>> k) &&& 1) := by
  rw [nbit_eq, nbit_eq, nbit_eq, h]
  cases hy : y.testBit j <;> cases hz : z.testBit k <;> simp

theorem nbit_zero_eq {x i : Nat} (h : x.testBit i = false) : (x >>> i) &&& 1 = 0 := by
  rw [nbit_eq, h]
  simp

/-- Effect of the shared update shape of `mzd_xor_bits`, `mzd_and_bits`
and `mzd_clear_bits`: update word `block` of row `x` by `g1`, and when
`64 - spot < n` also word `block + 1` by `g2`. -/
theorem twoword_getw (M : mzd_t) (x block spot n : Nat) (g1 g2 : Nat → Nat)
    (hx : x < M.rows.length) (hb : block < (M.rows.getD x []).length)
    (hb2 : 64 - spot < n → block + 1 < (M.rows.getD x []).length) (r' b' : Nat) :
    getw (if 64 - spot < n then
            setw (setw M x block (g1 (getw M x block))) x (block + 1)
              (g2 (getw (setw M x block (g1 (getw M x block))) x (block + 1)))
          else setw M x block (g1 (getw M x block))) r' b' =
      if r' = x ∧ b' = block then g1 (getw M x block)
      else if r' = x ∧ b' = block + 1 ∧ 64 - spot < n then g2 (getw M x (block + 1))
      else getw M r' b' := by
  by_cases hstr : 64 - spot < n
  · rw [if_pos hstr]
    have hinner : getw (setw M x block (g1 (getw M x block))) x (block + 1)
        = getw M x (block + 1) := by
      rw [getw_setw, if_neg]
      rintro ⟨-, hbe, -⟩
      omega
    rw [hinner, getw_setw, rows_length_setw, rowlen_setw]
    by_cases hr' : r' = x
    · subst hr'
      by_cases hb' : b' = block + 1
      · subst hb'
        rw [if_pos ⟨rfl, rfl, hx, hb2 hstr⟩, if_neg (by rintro ⟨-, h⟩; omega),
          if_pos ⟨rfl, rfl, hstr⟩]
      · rw [if_neg (by rintro ⟨-, h, -⟩; exact hb' h), getw_setw]
        by_cases hbb : b' = block
        · subst hbb
          rw [if_pos ⟨rfl, rfl, hx, hb⟩, if_pos ⟨rfl, rfl⟩]
        · rw [if_neg (by rintro ⟨-, h, -⟩; exact hbb h), if_neg (by rintro ⟨-, h⟩; exact hbb h),
            if_neg (by rintro ⟨-, h, -⟩; exact hb' h)]
    · rw [if_neg (by rintro ⟨h, -⟩; exact hr' h), getw_setw,
        if_neg (by rintro ⟨h, -⟩; exact hr' h), if_neg (by rintro ⟨h, -⟩; exact hr' h),
        if_neg (by rintro ⟨h, -⟩; exact hr' h)]
  · rw [if_neg hstr, getw_setw]
    by_cases hr' : r' = x
    · subst hr'
      by_cases hbb : b' = block
      · subst hbb
        rw [if_pos ⟨rfl, rfl, hx, hb⟩, if_pos ⟨rfl, rfl⟩]
      · rw [if_neg (by rintro ⟨-, h, -⟩; exact hbb h), if_neg (by rintro ⟨-, h⟩; exact hbb h),
          if_neg (by rintro ⟨-, -, h⟩; exact hstr h)]
    · rw [if_neg (by rintro ⟨h, -⟩; exact hr' h), if_neg (by rintro ⟨h, -⟩; exact hr' h),
        if_neg (by rintro ⟨h, -⟩; exact hr' h)]

theorem next_block_lt_width (M : mzd_t) (hwf : Mwf M) (y n : Nat) (hyc : y + n ≤ M.ncols)
    (hstr : 64 - (y + M.offset) % 64 < n) : (y + M.offset) / 64 + 1 < Mwidth M := by
  have hmd : (y + M.offset) % 64 + 64 * ((y + M.offset) / 64) = y + M.offset :=
    Nat.mod_add_div _ _
  have hsl : (y + M.offset) % 64 < 64 := Nat.mod_lt _ (by omega)
  unfold Mwidth
  omega

theorem mzd_xor_bits_getw (M : mzd_t) (x y n values : Nat) (hwf : Mwf M) (hx : x < M.nrows)
    (hn1 : 1 ≤ n) (hyc : y + n ≤ M.ncols) (r' b' : Nat) :
    getw (mzd_xor_bits M x y n values) r' b' =
      if r' = x ∧ b' = (y + M.offset) / 64 then
        getw M x ((y + M.offset) / 64) ^^^ trunc (values <<< ((y + M.offset) % 64))
      else if r' = x ∧ b' = (y + M.offset) / 64 + 1 ∧ 64 - (y + M.offset) % 64 < n then
        getw M x ((y + M.offset) / 64 + 1) ^^^ (values >>> (64 - (y + M.offset) % 64))
      else getw M r' b' := by
  have hlen : M.rows.length = M.nrows := hwf.2.2.1
  have hrowlen : (M.rows.getD x []).length = Mwidth M := rowlen_eq_width M hwf x hx
  have hb : (y + M.offset) / 64 < Mwidth M := block_lt_width M hwf y (by omega)
  exact twoword_getw M x ((y + M.offset) / 64) ((y + M.offset) % 64) n
    (fun w => w ^^^ trunc (values <<< ((y + M.offset) % 64)))
    (fun w => w ^^^ (values >>> (64 - (y + M.offset) % 64)))
    (by omega) (by omega)
    (fun hstr => by rw [hrowlen]; exact next_block_lt_width M hwf y n hyc hstr) r' b'

theorem mzd_and_bits_getw (M : mzd_t) (x y n values : Nat) (hwf : Mwf M) (hx : x < M.nrows)
    (hn1 : 1 ≤ n) (hyc : y + n ≤ M.ncols) (r' b' : Nat) :
    getw (mzd_and_bits M x y n values) r' b' =
      if r' = x ∧ b' = (y + M.offset) / 64 then
        getw M x ((y + M.offset) / 64) &&& trunc ((values >>> (64 - n)) <<< ((y + M.offset) % 64))
      else if r' = x ∧ b' = (y + M.offset) / 64 + 1 ∧ 64 - (y + M.offset) % 64 < n then
        getw M x ((y + M.offset) / 64 + 1) &&& ((values >>> (64 - n)) >>> (64 - (y + M.offset) % 64))
      else getw M r' b' := by
  have hlen : M.rows.length = M.nrows := hwf.2.2.1
  have hrowlen : (M.rows.getD x []).length = Mwidth M := rowlen_eq_width M hwf x hx
  have hb : (y + M.offset) / 64 < Mwidth M := block_lt_width M hwf y (by omega)
  exact twoword_getw M x ((y + M.offset) / 64) ((y + M.offset) % 64) n
    (fun w => w &&& trunc ((values >>> (64 - n)) <<< ((y + M.offset) % 64)))
    (fun w => w &&& ((values >>> (64 - n)) >>> (64 - (y + M.offset) % 64)))
    (by omega) (by omega)
    (fun hstr => by rw [hrowlen]; exact next_block_lt_width M hwf y n hyc hstr) r' b'

theorem mzd_clear_bits_getw (M : mzd_t) (x y n : Nat) (hwf : Mwf M) (hx : x < M.nrows)
    (hn1 : 1 ≤ n) (hyc : y + n ≤ M.ncols) (r' b' : Nat) :
    getw (mzd_clear_bits M x y n) r' b' =
      if r' = x ∧ b' = (y + M.offset) / 64 then
        getw M x ((y + M.offset) / 64) &&&
          wnot (trunc ((m4ri_ffff >>> (64 - n)) <<< ((y + M.offset) % 64)))
      else if r' = x ∧ b' = (y + M.offset) / 64 + 1 ∧ 64 - (y + M.offset) % 64 < n then
        getw M x ((y + M.offset) / 64 + 1) &&&
          wnot ((m4ri_ffff >>> (64 - n)) >>> (64 - (y + M.offset) % 64))
      else getw M r' b' := by
  have hlen : M.rows.length = M.nrows := hwf.2.2.1
  have hrowlen : (M.rows.getD x []).length = Mwidth M := rowlen_eq_width M hwf x hx
  have hb : (y + M.offset) / 64 < Mwidth M := block_lt_width M hwf y (by omega)
  exact twoword_getw M x ((y + M.offset) / 64) ((y + M.offset) % 64) n
    (fun w => w &&& wnot (trunc ((m4ri_ffff >>> (64 - n)) <<< ((y + M.offset) % 64))))
    (fun w => w &&& wnot ((m4ri_ffff >>> (64 - n)) >>> (64 - (y + M.offset) % 64)))
    (by omega) (by omega)
    (fun hstr => by rw [hrowlen]; exact next_block_lt_width M hwf y n hyc hstr) r' b'

@[simp] theorem mzd_xor_bits_offset (M : mzd_t) (x y n v : Nat) :
    (mzd_xor_bits M x y n v).offset = M.offset := by
  simp only [mzd_xor_bits]
  split <;> rfl

@[simp] theorem mzd_and_bits_offset (M : mzd_t) (x y n v : Nat) :
    (mzd_and_bits M x y n v).offset = M.offset := by
  simp only [mzd_and_bits]
  split <;> rfl

@[simp] theorem mzd_clear_bits_offset (M : mzd_t) (x y n : Nat) :
    (mzd_clear_bits M x y n).offset = M.offset := by
  simp only [mzd_clear_bits]
  split <;> rfl

theorem xor_bits_spec (M : mzd_t) (r c n v : Nat) (hwf : Mwf M) (hr : r < M.nrows)
    (h1 : 1 ≤ n) (h64 : n ≤ 64) (hc : c + n ≤ M.ncols) :
    (∀ i, i < n →
      mzd_read_bit (mzd_xor_bits M r c n v) r (c + i) =
        mzd_read_bit M r (c + i) ^^^ ((v >>> i) &&& 1)) ∧
    (v < 2 ^ n → ∀ r' b' p, p < 64 →
      (r' ≠ r ∨ 64 * b' + p < c + M.offset ∨ c + n + M.offset ≤ 64 * b' + p) →
      (getw (mzd_xor_bits M r c n v) r' b').testBit p = (getw M r' b').testBit p) := by
  have hoff : M.offset < 64 := hwf.1
  have hsp : (c + M.offset) % 64 < 64 := Nat.mod_lt _ (by omega)
  have hq : (c + M.offset) % 64 + 64 * ((c + M.offset) / 64) = c + M.offset :=
    Nat.mod_add_div _ _
  constructor
  · intro i hi
    unfold mzd_read_bit
    simp only [mzd_xor_bits_offset]
    apply nbit_xor_eq
    by_cases hlow : (c + M.offset) % 64 + i < 64
    · have hdiv : (c + i + M.offset) / 64 = (c + M.offset) / 64 := by omega
      have hmod : (c + i + M.offset) % 64 = (c + M.offset) % 64 + i := by omega
      rw [hdiv, hmod, mzd_xor_bits_getw M r c n v hwf hr h1 hc, if_pos ⟨rfl, rfl⟩,
        Nat.testBit_xor, trunc_testBit _ _ (by omega), Nat.testBit_shiftLeft]
      have e1 : (c + M.offset) % 64 + i ≥ (c + M.offset) % 64 := by omega
      have e2 : (c + M.offset) % 64 + i - (c + M.offset) % 64 = i := by omega
      simp [e1, e2]
    · have hin : i < 64 := by omega
      have hdiv : (c + i + M.offset) / 64 = (c + M.offset) / 64 + 1 := by omega
      have hmod : (c + i + M.offset) % 64 = (c + M.offset) % 64 + i - 64 := by omega
      have hstrad : 64 - (c + M.offset) % 64 < n := by omega
      rw [hdiv, hmod, mzd_xor_bits_getw M r c n v hwf hr h1 hc,
        if_neg (by rintro ⟨-, h⟩; omega), if_pos ⟨rfl, rfl, hstrad⟩,
        Nat.testBit_xor, Nat.testBit_shiftRight]
      have e1 : 64 - (c + M.offset) % 64 + ((c + M.offset) % 64 + i - 64) = i := by omega
      rw [e1]
  · intro hvn r' b' p hp hcond
    rw [mzd_xor_bits_getw M r c n v hwf hr h1 hc]
    by_cases hr' : r' = r
    · subst hr'
      by_cases hbb : b' = (c + M.offset) / 64
      · subst hbb
        rw [if_pos ⟨rfl, rfl⟩, Nat.testBit_xor, trunc_testBit _ _ hp, Nat.testBit_shiftLeft]
        have hout : 64 * ((c + M.offset) / 64) + p < c + M.offset ∨
            c + n + M.offset ≤ 64 * ((c + M.offset) / 64) + p := by
          rcases hcond with h | h | h
          · exact absurd rfl h
          · exact Or.inl h
          · exact Or.inr h
        rcases hout with h | h
        · have e1 : ¬ (p ≥ (c + M.offset) % 64) := by omega
          simp [e1]
        · have e1 : p ≥ (c + M.offset) % 64 := by omega
          have e2 : n ≤ p - (c + M.offset) % 64 := by omega
          have e3 : v.testBit (p - (c + M.offset) % 64) = false :=
            Nat.testBit_lt_two_pow
              (lt_of_lt_of_le hvn (Nat.pow_le_pow_right (by omega) e2))
          simp [e1, e3]
      · by_cases hbb2 : b' = (c + M.offset) / 64 + 1 ∧ 64 - (c + M.offset) % 64 < n
        · rcases hbb2 with ⟨hbe, hstr⟩
          subst hbe
          rw [if_neg (by rintro ⟨-, h⟩; exact hbb h), if_pos ⟨rfl, rfl, hstr⟩,
            Nat.testBit_xor, Nat.testBit_shiftRight]
          have hge : c + n + M.offset ≤ 64 * ((c + M.offset) / 64 + 1) + p := by
            rcases hcond with h | h | h
            · exact absurd rfl h
            · omega
            · exact h
          have e2 : n ≤ 64 - (c + M.offset) % 64 + p := by omega
          have e3 : v.testBit (64 - (c + M.offset) % 64 + p) = false := by
            by_cases hvv : v < 2 ^ n
            · exact Nat.testBit_lt_two_pow
                (lt_of_lt_of_le hvv (Nat.pow_le_pow_right (by omega) e2))
            · exact absurd hvn hvv
          simp [e3]
        · rw [if_neg (by rintro ⟨-, h⟩; exact hbb h)]
          rw [if_neg (by rintro ⟨-, h2, h3⟩; exact hbb2 ⟨h2, h3⟩)]
    · rw [if_neg (by rintro ⟨h, -⟩; exact hr' h), if_neg (by rintro ⟨h, -⟩; exact hr' h)]

theorem clear_bits_spec (M : mzd_t) (r c n : Nat) (hwf : Mwf M) (hr : r < M.nrows)
    (h1 : 1 ≤ n) (h64 : n ≤ 64) (hc : c + n ≤ M.ncols) :
    (∀ i, i < n → mzd_read_bit (mzd_clear_bits M r c n) r (c + i) = 0) ∧
    (∀ r' b' p, p < 64 →
      (r' ≠ r ∨ 64 * b' + p < c + M.offset ∨ c + n + M.offset ≤ 64 * b' + p) →
      (getw (mzd_clear_bits M r c n) r' b').testBit p = (getw M r' b').testBit p) := by
  have hoff : M.offset < 64 := hwf.1
  have hsp : (c + M.offset) % 64 < 64 := Nat.mod_lt _ (by omega)
  have hq : (c + M.offset) % 64 + 64 * ((c + M.offset) / 64) = c + M.offset :=
    Nat.mod_add_div _ _
  have hmask : m4ri_ffff >>> (64 - n) = 2 ^ n - 1 := ffff_shr h64
  constructor
  · intro i hi
    unfold mzd_read_bit
    simp only [mzd_clear_bits_offset]
    apply nbit_zero_eq
    by_cases hlow : (c + M.offset) % 64 + i < 64
    · have hdiv : (c + i + M.offset) / 64 = (c + M.offset) / 64 := by omega
      have hmod : (c + i + M.offset) % 64 = (c + M.offset) % 64 + i := by omega
      rw [hdiv, hmod, mzd_clear_bits_getw M r c n hwf hr h1 hc, if_pos ⟨rfl, rfl⟩, hmask,
        Nat.testBit_and, wnot_testBit _ _ (by omega), trunc_testBit _ _ (by omega),
        Nat.testBit_shiftLeft, Nat.testBit_two_pow_sub_one]
      have e1 : (c + M.offset) % 64 + i ≥ (c + M.offset) % 64 := by omega
      have e2 : (c + M.offset) % 64 + i - (c + M.offset) % 64 = i := by omega
      simp [e1, e2, hi]
    · have hin : i < 64 := by omega
      have hdiv : (c + i + M.offset) / 64 = (c + M.offset) / 64 + 1 := by omega
      have hmod : (c + i + M.offset) % 64 = (c + M.offset) % 64 + i - 64 := by omega
      have hstrad : 64 - (c + M.offset) % 64 < n := by omega
      rw [hdiv, hmod, mzd_clear_bits_getw M r c n hwf hr h1 hc]
      rw [if_neg (by rintro ⟨-, h⟩; omega), if_pos ⟨rfl, rfl, hstrad⟩, hmask,
        Nat.testBit_and, wnot_testBit _ _ (by omega), Nat.testBit_shiftRight,
        Nat.testBit_two_pow_sub_one]
      have e1 : 64 - (c + M.offset) % 64 + ((c + M.offset) % 64 + i - 64) = i := by omega
      rw [e1]
      simp [hi]
  · intro r' b' p hp hcond
    rw [mzd_clear_bits_getw M r c n hwf hr h1 hc]
    by_cases hr' : r' = r
    · subst hr'
      by_cases hbb : b' = (c + M.offset) / 64
      · subst hbb
        rw [if_pos ⟨rfl, rfl⟩, hmask, Nat.testBit_and, wnot_testBit _ _ hp,
          trunc_testBit _ _ hp, Nat.testBit_shiftLeft, Nat.testBit_two_pow_sub_one]
        have hout : 64 * ((c + M.offset) / 64) + p < c + M.offset ∨
            c + n + M.offset ≤ 64 * ((c + M.offset) / 64) + p := by
          rcases hcond with h | h | h
          · exact absurd rfl h
          · exact Or.inl h
          · exact Or.inr h
        rcases hout with h | h
        · have e1 : ¬ (p ≥ (c + M.offset) % 64) := by omega
          simp [e1]
        · have e1 : p ≥ (c + M.offset) % 64 := by omega
          have e2 : ¬ (p - (c + M.offset) % 64 < n) := by omega
          simp [e1, e2]
      · by_cases hbb2 : b' = (c + M.offset) / 64 + 1 ∧ 64 - (c + M.offset) % 64 < n
        · rcases hbb2 with ⟨hbe, hstr⟩
          subst hbe
          rw [if_neg (by rintro ⟨-, h⟩; exact hbb h), if_pos ⟨rfl, rfl, hstr⟩, hmask,
            Nat.testBit_and, wnot_testBit _ _ hp, Nat.testBit_shiftRight,
            Nat.testBit_two_pow_sub_one]
          have hge : c + n + M.offset ≤ 64 * ((c + M.offset) / 64 + 1) + p := by
            rcases hcond with h | h | h
            · exact absurd rfl h
            · omega
            · exact h
          have e2 : ¬ (64 - (c + M.offset) % 64 + p < n) := by omega
          simp [e2]
        · rw [if_neg (by rintro ⟨-, h⟩; exact hbb h)]
          rw [if_neg (by rintro ⟨-, h2, h3⟩; exact hbb2 ⟨h2, h3⟩)]
    · rw [if_neg (by rintro ⟨h, -⟩; exact hr' h), if_neg (by rintro ⟨h, -⟩; exact hr' h)]

theorem and_bits_spec (M : mzd_t) (r c n v : Nat) (hwf : Mwf M) (hr : r < M.nrows)
    (h1 : 1 ≤ n) (h64 : n ≤ 64) (hc : c + n ≤ M.ncols) (hv : v < 2 ^ 64) :
    (∀ i, i < n → mzd_read_bit (mzd_and_bits M r c n v) r (c + i)
        = mzd_read_bit M r (c + i) &&& ((v >>> (64 - n + i)) &&& 1)) ∧
    (∀ r' b' p, p < 64 →
      (r' ≠ r ∨ (b' ≠ (c + M.offset) / 64 ∧
        (b' ≠ (c + M.offset) / 64 + 1 ∨ ¬ 64 - (c + M.offset) % 64 < n))) →
      (getw (mzd_and_bits M r c n v) r' b').testBit p = (getw M r' b').testBit p) ∧
    (∀ b' p, p < 64 →
      (b' = (c + M.offset) / 64 ∨
        (b' = (c + M.offset) / 64 + 1 ∧ 64 - (c + M.offset) % 64 < n)) →
      (64 * b' + p < c + M.offset ∨ c + n + M.offset ≤ 64 * b' + p) →
      (getw (mzd_and_bits M r c n v) r b').testBit p = false) := by
  have hoff : M.offset < 64 := hwf.1
  have hsp : (c + M.offset) % 64 < 64 := Nat.mod_lt _ (by omega)
  have hq : (c + M.offset) % 64 + 64 * ((c + M.offset) / 64) = c + M.offset :=
    Nat.mod_add_div _ _
  have hvshr : v >>> (64 - n) < 2 ^ n := by
    have hpow : (2 : Nat) ^ (64 - n) * 2 ^ n = 2 ^ 64 := by
      rw [← Nat.pow_add]
      congr 1
      omega
    rw [Nat.shiftRight_eq_div_pow]
    exact Nat.div_lt_of_lt_mul (hpow ▸ hv)
  refine ⟨?_, ?_, ?_⟩
  · intro i hi
    unfold mzd_read_bit
    simp only [mzd_and_bits_offset]
    apply nbit_and_eq
    by_cases hlow : (c + M.offset) % 64 + i < 64
    · have hdiv : (c + i + M.offset) / 64 = (c + M.offset) / 64 := by omega
      have hmod : (c + i + M.offset) % 64 = (c + M.offset) % 64 + i := by omega
      rw [hdiv, hmod, mzd_and_bits_getw M r c n v hwf hr h1 hc, if_pos ⟨rfl, rfl⟩,
        Nat.testBit_and, trunc_testBit _ _ (by omega), Nat.testBit_shiftLeft,
        Nat.testBit_shiftRight]
      have e1 : (c + M.offset) % 64 + i ≥ (c + M.offset) % 64 := by omega
      have e2 : (c + M.offset) % 64 + i - (c + M.offset) % 64 = i := by omega
      simp [e1, e2]
    · have hin : i < 64 := by omega
      have hdiv : (c + i + M.offset) / 64 = (c + M.offset) / 64 + 1 := by omega
      have hmod : (c + i + M.offset) % 64 = (c + M.offset) % 64 + i - 64 := by omega
      have hstrad : 64 - (c + M.offset) % 64 < n := by omega
      rw [hdiv, hmod, mzd_and_bits_getw M r c n v hwf hr h1 hc]
      rw [if_neg (by rintro ⟨-, h⟩; omega), if_pos ⟨rfl, rfl, hstrad⟩,
        Nat.testBit_and, Nat.testBit_shiftRight, Nat.testBit_shiftRight]
      have e1 : 64 - n + (64 - (c + M.offset) % 64 + ((c + M.offset) % 64 + i - 64))
          = 64 - n + i := by omega
      rw [e1]
  · intro r' b' p hp hcond
    rw [mzd_and_bits_getw M r c n v hwf hr h1 hc]
    by_cases hr' : r' = r
    · subst hr'
      rcases hcond with h | ⟨h1', h2'⟩
      · exact absurd rfl h
      · rw [if_neg (by rintro ⟨-, h⟩; exact h1' h)]
        rw [if_neg (by rintro ⟨-, h2, h3⟩; rcases h2' with h4 | h4; exacts [h4 h2, h4 h3])]
    · rw [if_neg (by rintro ⟨h, -⟩; exact hr' h), if_neg (by rintro ⟨h, -⟩; exact hr' h)]
  · intro b' p hp htouch hout
    rw [mzd_and_bits_getw M r c n v hwf hr h1 hc]
    rcases htouch with hbe | ⟨hbe, hstr⟩
    · subst hbe
      rw [if_pos ⟨rfl, rfl⟩, Nat.testBit_and, trunc_testBit _ _ hp, Nat.testBit_shiftLeft]
      rcases hout with h | h
      · have e1 : ¬ (p ≥ (c + M.offset) % 64) := by omega
        simp [e1]
      · have e1 : p ≥ (c + M.offset) % 64 := by omega
        have e2 : n ≤ p - (c + M.offset) % 64 := by omega
        have e3 : (v >>> (64 - n)).testBit (p - (c + M.offset) % 64) = false :=
          Nat.testBit_lt_two_pow
            (lt_of_lt_of_le hvshr (Nat.pow_le_pow_right (by omega) e2))
        simp [e1, e3]
    · subst hbe
      rw [if_neg (by rintro ⟨-, h⟩; omega), if_pos ⟨rfl, rfl, hstr⟩, Nat.testBit_and,
        Nat.testBit_shiftRight]
      have hge : c + n + M.offset ≤ 64 * ((c + M.offset) / 64 + 1) + p := by
        rcases hout with h | h
        · omega
        · exact h
      have e2 : n ≤ 64 - (c + M.offset) % 64 + p := by omega
      have e3 : (v >>> (64 - n)).testBit (64 - (c + M.offset) % 64 + p) = false :=
        Nat.testBit_lt_two_pow
          (lt_of_lt_of_le hvshr (Nat.pow_le_pow_right (by omega) e2))
      simp [e3]

/-- C4 counterexample: on a 1 x 64 all-ones matrix, `mzd_and_bits` with
`c = 0`, `n = 1`, `v = 2^63` clears the entry at column 1, which lies
outside the range `[c, c+n)` — the operation is not symmetric to
`mzd_xor_bits` and does not use the low bits of `v`. -/
theorem C4_bits_ops_cex :
    ¬ (mzd_read_bit (mzd_and_bits ⟨1, 64, 0, [[2 ^ 64 - 1]]⟩ 0 0 1 (2 ^ 63)) 0 1 =
      mzd_read_bit ⟨1, 64, 0, [[2 ^ 64 - 1]]⟩ 0 1) := by decide

/-- C4 (amended): for a well-formed matrix, `r < nrows`, `1 ≤ n ≤ 64`,
`c + n ≤ ncols` and a word `v`:
`mzd_xor_bits` XORs bit `i` of `v` into entry `c+i` and — provided the
bits of `v` above `n` are zero — changes no other storage bit;
`mzd_clear_bits` clears the entries `[c, c+n)` and changes no other
storage bit; `mzd_and_bits` ANDs entry `c+i` with bit `64-n+i` of `v`
(the high `n` bits of `v`, not the low ones), leaves rows other than `r`
and untouched words unchanged, but clears every bit outside the range in
the one or two storage words it touches. -/
theorem C4_bits_ops_amended (M : mzd_t) (r c n v : Nat) (hwf : Mwf M) (hr : r < M.nrows)
    (h1 : 1 ≤ n) (h64 : n ≤ 64) (hc : c + n ≤ M.ncols) (hv : v < 2 ^ 64) :
    ((∀ i, i < n → mzd_read_bit (mzd_xor_bits M r c n v) r (c + i) =
        mzd_read_bit M r (c + i) ^^^ ((v >>> i) &&& 1)) ∧
      (v < 2 ^ n → ∀ r' b' p, p < 64 →
        (r' ≠ r ∨ 64 * b' + p < c + M.offset ∨ c + n + M.offset ≤ 64 * b' + p) →
        (getw (mzd_xor_bits M r c n v) r' b').testBit p = (getw M r' b').testBit p)) ∧
    ((∀ i, i < n → mzd_read_bit (mzd_clear_bits M r c n) r (c + i) = 0) ∧
      (∀ r' b' p, p < 64 →
        (r' ≠ r ∨ 64 * b' + p < c + M.offset ∨ c + n + M.offset ≤ 64 * b' + p) →
        (getw (mzd_clear_bits M r c n) r' b').testBit p = (getw M r' b').testBit p)) ∧
    ((∀ i, i < n → mzd_read_bit (mzd_and_bits M r c n v) r (c + i) =
        mzd_read_bit M r (c + i) &&& ((v >>> (64 - n + i)) &&& 1)) ∧
      (∀ r' b' p, p < 64 →
        (r' ≠ r ∨ (b' ≠ (c + M.offset) / 64 ∧
          (b' ≠ (c + M.offset) / 64 + 1 ∨ ¬ 64 - (c + M.offset) % 64 < n))) →
        (getw (mzd_and_bits M r c n v) r' b').testBit p = (getw M r' b').testBit p) ∧
      (∀ b' p, p < 64 →
        (b' = (c + M.offset) / 64 ∨
          (b' = (c + M.offset) / 64 + 1 ∧ 64 - (c + M.offset) % 64 < n)) →
        (64 * b' + p < c + M.offset ∨ c + n + M.offset ≤ 64 * b' + p) →
        (getw (mzd_and_bits M r c n v) r b').testBit p = false)) :=
  ⟨xor_bits_spec M r c n v hwf hr h1 h64 hc,
   clear_bits_spec M r c n hwf hr h1 h64 hc,
   and_bits_spec M r c n v hwf hr h1 h64 hc hv⟩

/-- C4 witness: on a concrete offset-3 matrix, XORing 20 bits at column
50 (a word-straddling range) changes entry 57 by bit 7 of `v`. -/
theorem C4_bits_ops_amended_witness :
    Mwf ⟨1, 100, 3, [[2 ^ 63, 5]]⟩ ∧
    mzd_read_bit (mzd_xor_bits ⟨1, 100, 3, [[2 ^ 63, 5]]⟩ 0 50 20 999999) 0 (50 + 7) =
      mzd_read_bit ⟨1, 100, 3, [[2 ^ 63, 5]]⟩ 0 (50 + 7) ^^^ ((999999 >>> 7) &&& 1) :=
  ⟨by decide,
    (C4_bits_ops_amended ⟨1, 100, 3, [[2 ^ 63, 5]]⟩ 0 50 20 999999 (by decide) (by decide)
      (by decide) (by decide) (by decide) (by decide)).1.1 7 (by decide)⟩

/-- The middle loop of `mzd_row_add_offset`: `while (++i < wide)
dst[i] ^= src[i];` over the words `sb + i .. sb + i + cnt - 1`. -/
def rowAddMid (dstrow srcrow sb : Nat) : Nat → Nat → mzd_t → mzd_t
  | _, 0, M => M
  | i, cnt + 1, M =>
    rowAddMid dstrow srcrow sb (i + 1) cnt
      (setw M dstrow (sb + i) (getw M dstrow (sb + i) ^^^ getw M srcrow (sb + i)))

/-- `mzd_row_add_offset(M, dstrow, srcrow, coloffset)`: first partial
word under `mask_begin`, then full-word XORs, then the excess bits of
the last word are reverted by a second XOR under `~mask_end`. -/
def mzd_row_add_offset (M : mzd_t) (dstrow srcrow coloffset : Nat) : mzd_t :=
  let co := coloffset + M.offset
  let startblock := co / 64
  let wide := Mwidth M - startblock
  let mask_begin := right_bitmask (64 - co % 64)
  let mask_end := left_bitmask ((M.ncols + M.offset) % 64)
  let M1 := setw M dstrow startblock
    (getw M dstrow startblock ^^^ (getw M srcrow startblock &&& mask_begin))
  let M2 := rowAddMid dstrow srcrow startblock 1 (wide - 1) M1
  setw M2 dstrow (startblock + wide - 1)
    (getw M2 dstrow (startblock + wide - 1) ^^^
      (getw M2 srcrow (startblock + wide - 1) &&& wnot mask_end))

theorem rowAddMid_fields (dstrow srcrow sb : Nat) : ∀ (cnt i : Nat) (M : mzd_t),
    (rowAddMid dstrow srcrow sb i cnt M).offset = M.offset ∧
    (rowAddMid dstrow srcrow sb i cnt M).ncols = M.ncols ∧
    (rowAddMid dstrow srcrow sb i cnt M).nrows = M.nrows ∧
    (rowAddMid dstrow srcrow sb i cnt M).rows.length = M.rows.length ∧
    ∀ r', ((rowAddMid dstrow srcrow sb i cnt M).rows.getD r' []).length
      = (M.rows.getD r' []).length := by
  intro cnt
  induction cnt with
  | zero =>
    intro i M
    exact ⟨rfl, rfl, rfl, rfl, fun r' => rfl⟩
  | succ cnt ih =>
    intro i M
    rw [rowAddMid]
    refine ⟨(ih (i + 1) _).1, (ih (i + 1) _).2.1, (ih (i + 1) _).2.2.1, ?_, ?_⟩
    · rw [(ih (i + 1) _).2.2.2.1, rows_length_setw]
    · intro r'
      rw [(ih (i + 1) _).2.2.2.2 r', rowlen_setw]

theorem rowAddMid_getw (dstrow srcrow sb : Nat) (hne : srcrow ≠ dstrow) :
    ∀ (cnt i : Nat) (M : mzd_t), dstrow < M.rows.length →
      sb + i + cnt ≤ (M.rows.getD dstrow []).length →
      ∀ r' b',
      getw (rowAddMid dstrow srcrow sb i cnt M) r' b' =
        if r' = dstrow ∧ sb + i ≤ b' ∧ b' < sb + i + cnt then
          getw M dstrow b' ^^^ getw M srcrow b'
        else getw M r' b' := by
  intro cnt
  induction cnt with
  | zero =>
    intro i M hx hlen r' b'
    rw [rowAddMid, if_neg (by rintro ⟨-, h2, h3⟩; omega)]
  | succ cnt ih =>
    intro i M hx hlen r' b'
    rw [rowAddMid]
    rw [ih (i + 1) _ (by rw [rows_length_setw]; exact hx) (by rw [rowlen_setw]; omega) r' b']
    by_cases hin : r' = dstrow ∧ sb + (i + 1) ≤ b' ∧ b' < sb + (i + 1) + cnt
    · rcases hin with ⟨he, h2, h3⟩
      subst he
      rw [if_pos ⟨rfl, h2, h3⟩]
      rw [getw_setw, if_neg (by rintro ⟨-, h, -⟩; omega),
        getw_setw, if_neg (by rintro ⟨h, -⟩; exact hne h)]
      rw [if_pos ⟨rfl, by omega, by omega⟩]
    · rw [if_neg hin]
      by_cases hout : r' = dstrow ∧ sb + i ≤ b' ∧ b' < sb + i + (cnt + 1)
      · rcases hout with ⟨he, h2, h3⟩
        subst he
        have hb : b' = sb + i := by
          by_contra hbne
          exact hin ⟨rfl, by omega, by omega⟩
        subst hb
        rw [getw_setw, if_pos ⟨rfl, rfl, hx, by omega⟩, if_pos ⟨rfl, by omega, by omega⟩]
      · rw [if_neg hout]
        by_cases hr' : r' = dstrow
        · subst hr'
          have hb : ¬ b' = sb + i := fun hb => hout ⟨rfl, by omega, by omega⟩
          rw [getw_setw, if_neg (by rintro ⟨-, h, -⟩; exact hb h)]
        · rw [getw_setw, if_neg (by rintro ⟨h, -⟩; exact hr' h)]

@[simp] theorem mzd_row_add_offset_offset (M : mzd_t) (d s c : Nat) :
    (mzd_row_add_offset M d s c).offset = M.offset := by
  simp only [mzd_row_add_offset, setw_offset]
  exact (rowAddMid_fields d s _ _ _ _).1

theorem ffff_testBit (q : Nat) : m4ri_ffff.testBit q = decide (q < 64) := by
  have hf : m4ri_ffff = 2 ^ 64 - 1 := rfl
  rw [hf, Nat.testBit_two_pow_sub_one]

theorem right_bitmask_testBit (m p : Nat) (hm : 1 ≤ m) (hm64 : m ≤ 64) (hp : p < 64) :
    (right_bitmask m).testBit p = decide (64 - m ≤ p) := by
  unfold right_bitmask
  rw [trunc_testBit _ _ hp, Nat.testBit_shiftLeft, ffff_testBit]
  by_cases h : 64 - m ≤ p
  · have e1 : p - (64 - m) < 64 := by omega
    simp [h, e1]
  · simp [h]

theorem left_bitmask_testBit (e p : Nat) (hp : p < 64) :
    (left_bitmask e).testBit p = decide ((64 - e) % 64 + p < 64) := by
  unfold left_bitmask
  rw [Nat.testBit_shiftRight, ffff_testBit]

theorem row_add_getw (M : mzd_t) (dstrow srcrow coloffset : Nat) (hwf : Mwf M)
    (hd : dstrow < M.nrows) (hco : coloffset < M.ncols) (hne : srcrow ≠ dstrow) (r' b' : Nat) :
    getw (mzd_row_add_offset M dstrow srcrow coloffset) r' b' =
      if r' = dstrow ∧ b' = (coloffset + M.offset) / 64 ∧ b' = Mwidth M - 1 then
        (getw M dstrow b' ^^^
          (getw M srcrow b' &&& right_bitmask (64 - (coloffset + M.offset) % 64))) ^^^
          (getw M srcrow b' &&& wnot (left_bitmask ((M.ncols + M.offset) % 64)))
      else if r' = dstrow ∧ b' = (coloffset + M.offset) / 64 then
        getw M dstrow b' ^^^
          (getw M srcrow b' &&& right_bitmask (64 - (coloffset + M.offset) % 64))
      else if r' = dstrow ∧ b' = Mwidth M - 1 ∧ (coloffset + M.offset) / 64 < b' then
        (getw M dstrow b' ^^^ getw M srcrow b') ^^^
          (getw M srcrow b' &&& wnot (left_bitmask ((M.ncols + M.offset) % 64)))
      else if r' = dstrow ∧ (coloffset + M.offset) / 64 < b' ∧ b' < Mwidth M - 1 then
        getw M dstrow b' ^^^ getw M srcrow b'
      else getw M r' b' := by
  have hoff : M.offset < 64 := hwf.1
  have hnc : 0 < M.ncols := hwf.2.1
  have hlen : M.rows.length = M.nrows := hwf.2.2.1
  have hrowlen : (M.rows.getD dstrow []).length = Mwidth M := rowlen_eq_width M hwf dstrow hd
  have hW1 : 1 ≤ Mwidth M := by
    unfold Mwidth
    omega
  have hsb : (coloffset + M.offset) / 64 ≤ Mwidth M - 1 := by
    unfold Mwidth
    omega
  simp only [mzd_row_add_offset]
  set sb := (coloffset + M.offset) / 64 with hsbdef
  set W := Mwidth M with hWdef
  set mb := right_bitmask (64 - (coloffset + M.offset) % 64) with hmbdef
  set me := left_bitmask ((M.ncols + M.offset) % 64) with hmedef
  have hwide : sb + (W - sb) - 1 = W - 1 := by omega
  rw [hwide]
  set M1 := setw M dstrow sb (getw M dstrow sb ^^^ (getw M srcrow sb &&& mb)) with hM1def
  have hM1len : dstrow < M1.rows.length := by
    rw [hM1def, rows_length_setw]
    omega
  have hM1rowlen : (M1.rows.getD dstrow []).length = W := by
    rw [hM1def, rowlen_setw]
    exact hrowlen
  have hgetM1 : ∀ r'' b'', getw M1 r'' b'' =
      if r'' = dstrow ∧ b'' = sb then getw M dstrow sb ^^^ (getw M srcrow sb &&& mb)
      else getw M r'' b'' := by
    intro r'' b''
    rw [hM1def, getw_setw]
    by_cases h : r'' = dstrow ∧ b'' = sb
    · rcases h with ⟨rfl, rfl⟩
      rw [if_pos ⟨rfl, rfl, by omega, by omega⟩, if_pos ⟨rfl, rfl⟩]
    · rw [if_neg (by rintro ⟨ha, hb, -⟩; exact h ⟨ha, hb⟩), if_neg h]
  have hmid := rowAddMid_getw dstrow srcrow sb hne (W - sb - 1) 1 M1 hM1len (by omega)
  set M2 := rowAddMid dstrow srcrow sb 1 (W - sb - 1) M1 with hM2def
  have hM2len : dstrow < M2.rows.length := by
    rw [hM2def, (rowAddMid_fields dstrow srcrow sb (W - sb - 1) 1 M1).2.2.2.1]
    exact hM1len
  have hM2rowlen : (M2.rows.getD dstrow []).length = W := by
    rw [hM2def, (rowAddMid_fields dstrow srcrow sb (W - sb - 1) 1 M1).2.2.2.2 dstrow]
    exact hM1rowlen
  have hgetM2 : ∀ r'' b'', getw M2 r'' b'' =
      if r'' = dstrow ∧ sb + 1 ≤ b'' ∧ b'' < W then
        getw M dstrow b'' ^^^ getw M srcrow b''
      else if r'' = dstrow ∧ b'' = sb then
        getw M dstrow sb ^^^ (getw M srcrow sb &&& mb)
      else getw M r'' b'' := by
    intro r'' b''
    by_cases hA : r'' = dstrow ∧ sb + 1 ≤ b'' ∧ b'' < W
    · rcases hA with ⟨rfl, h2, h3⟩
      rw [hmid, if_pos ⟨rfl, h2, by omega⟩]
      rw [hgetM1, if_neg (by rintro ⟨-, hh⟩; omega)]
      rw [hgetM1, if_neg (by rintro ⟨hh, -⟩; exact hne hh)]
      rw [if_pos ⟨rfl, h2, h3⟩]
    · rw [hmid, if_neg (by rintro ⟨ha, hb2, hb3⟩; exact hA ⟨ha, hb2, by omega⟩)]
      by_cases hB : r'' = dstrow ∧ b'' = sb
      · rcases hB with ⟨rfl, rfl⟩
        rw [hgetM1, if_pos ⟨rfl, rfl⟩, if_neg (by rintro ⟨-, hh, -⟩; omega)]
      · rw [hgetM1, if_neg hB, if_neg hA]
  have hsrcW : getw M2 srcrow (W - 1) = getw M srcrow (W - 1) := by
    rw [hgetM2, if_neg (by rintro ⟨hh, -⟩; exact hne hh),
      if_neg (by rintro ⟨hh, -⟩; exact hne hh)]
  rw [hsrcW, getw_setw]
  by_cases hr' : r' = dstrow
  · by_cases hbW : b' = W - 1
    · subst hbW
      rw [if_pos ⟨hr', rfl, hM2len, by omega⟩]
      by_cases hlast : sb = W - 1
      · have hdstW : getw M2 dstrow (W - 1) =
            getw M dstrow sb ^^^ (getw M srcrow sb &&& mb) := by
          rw [hgetM2, if_neg (by rintro ⟨-, hh, -⟩; omega), if_pos ⟨rfl, hlast.symm⟩]
        rw [hdstW, if_pos ⟨hr', hlast.symm, rfl⟩, hlast]
      · have hdstW : getw M2 dstrow (W - 1) =
            getw M dstrow (W - 1) ^^^ getw M srcrow (W - 1) := by
          rw [hgetM2, if_pos ⟨rfl, by omega, by omega⟩]
        rw [hdstW, if_neg (by rintro ⟨-, hh, -⟩; exact hlast hh.symm),
          if_neg (by rintro ⟨-, hh⟩; exact hlast hh.symm),
          if_pos ⟨hr', rfl, by omega⟩]
    · rw [if_neg (by rintro ⟨-, hh, -⟩; exact hbW hh)]
      by_cases hBsb : b' = sb
      · have hx : getw M2 r' b' = getw M dstrow b' ^^^ (getw M srcrow b' &&& mb) := by
          rw [hgetM2, if_neg (by rintro ⟨-, hh, -⟩; omega), if_pos ⟨hr', hBsb⟩, hBsb]
        rw [hx, if_neg (by rintro ⟨-, -, hh⟩; exact hbW hh), if_pos ⟨hr', hBsb⟩]
      · by_cases hmidb : sb + 1 ≤ b' ∧ b' < W
        · have hx : getw M2 r' b' = getw M dstrow b' ^^^ getw M srcrow b' := by
            rw [hgetM2, if_pos ⟨hr', hmidb.1, hmidb.2⟩]
          rw [hx, if_neg (by rintro ⟨-, hh, -⟩; exact hBsb hh),
            if_neg (by rintro ⟨-, hh⟩; exact hBsb hh),
            if_neg (by rintro ⟨-, hh, -⟩; exact hbW hh),
            if_pos ⟨hr', by omega, by omega⟩]
        · have hx : getw M2 r' b' = getw M r' b' := by
            rw [hgetM2, if_neg (by rintro ⟨-, hh2, hh3⟩; exact hmidb ⟨hh2, hh3⟩),
              if_neg (by rintro ⟨-, hh⟩; exact hBsb hh)]
          rw [hx, if_neg (by rintro ⟨-, hh, -⟩; exact hBsb hh),
            if_neg (by rintro ⟨-, hh⟩; exact hBsb hh),
            if_neg (by rintro ⟨-, hh, -⟩; exact hbW hh),
            if_neg (by rintro ⟨-, hh2, hh3⟩; exact hmidb ⟨by omega, by omega⟩)]
  · rw [if_neg (by rintro ⟨hh, -⟩; exact hr' hh)]
    have hx : getw M2 r' b' = getw M r' b' := by
      rw [hgetM2, if_neg (by rintro ⟨hh, -⟩; exact hr' hh),
        if_neg (by rintro ⟨hh, -⟩; exact hr' hh)]
    rw [hx, if_neg (by rintro ⟨hh, -⟩; exact hr' hh), if_neg (by rintro ⟨hh, -⟩; exact hr' hh),
      if_neg (by rintro ⟨hh, -⟩; exact hr' hh), if_neg (by rintro ⟨hh, -⟩; exact hr' hh)]

/-- C3 counterexample: with `dstrow = srcrow` (allowed by the claim) on
a 1 x 1 matrix whose storage word has the don't-care bit 1 set, the
aliased reads make the full-word XOR zero the excess bits: storage bit 1
of the row changes, contradicting the claimed preservation of don't-care
bits. -/
theorem C3_row_add_offset_cex :
    ¬ ((getw (mzd_row_add_offset ⟨1, 1, 0, [[2]]⟩ 0 0 0) 0 0).testBit 1 =
      (getw ⟨1, 1, 0, [[2]]⟩ 0 0).testBit 1) := by decide

/-- C3 (amended): for a well-formed matrix, distinct rows
`dstrow ≠ srcrow` below `nrows`, and `coloffset < ncols`,
`mzd_row_add_offset` XORs row `srcrow` into row `dstrow` on the columns
`[coloffset, ncols)`, leaves the entries of `dstrow` before `coloffset`
unchanged, preserves the don't-care storage bits of row `dstrow` outside
the logical span, and does not modify any other row. -/
theorem C3_row_add_offset_amended (M : mzd_t) (dstrow srcrow coloffset : Nat)
    (hwf : Mwf M) (hd : dstrow < M.nrows) (hs : srcrow < M.nrows) (hco : coloffset < M.ncols)
    (hne : dstrow ≠ srcrow) :
    (∀ j, coloffset ≤ j → j < M.ncols →
      mzd_read_bit (mzd_row_add_offset M dstrow srcrow coloffset) dstrow j =
        mzd_read_bit M dstrow j ^^^ mzd_read_bit M srcrow j) ∧
    (∀ j, j < coloffset →
      mzd_read_bit (mzd_row_add_offset M dstrow srcrow coloffset) dstrow j =
        mzd_read_bit M dstrow j) ∧
    (∀ b p, p < 64 → (64 * b + p < M.offset ∨ M.offset + M.ncols ≤ 64 * b + p) →
      (getw (mzd_row_add_offset M dstrow srcrow coloffset) dstrow b).testBit p =
        (getw M dstrow b).testBit p) ∧
    (∀ r' b, r' ≠ dstrow →
      getw (mzd_row_add_offset M dstrow srcrow coloffset) r' b = getw M r' b) := by
  have hne' : srcrow ≠ dstrow := fun h => hne h.symm
  have hoff : M.offset < 64 := hwf.1
  have hnc : 0 < M.ncols := hwf.2.1
  have hWdef : Mwidth M = (M.ncols + M.offset + 63) / 64 := rfl
  have hmb : ∀ p, p < 64 →
      (right_bitmask (64 - (coloffset + M.offset) % 64)).testBit p =
        decide ((coloffset + M.offset) % 64 ≤ p) := by
    intro p hp
    have hs64 : (coloffset + M.offset) % 64 < 64 := Nat.mod_lt _ (by omega)
    rw [right_bitmask_testBit _ _ (by omega) (by omega) hp]
    simp only [decide_eq_decide]
    omega
  have hme : ∀ p, p < 64 →
      (left_bitmask ((M.ncols + M.offset) % 64)).testBit p =
        decide (64 * (Mwidth M - 1) + p < M.ncols + M.offset) := by
    intro p hp
    rw [left_bitmask_testBit _ _ hp]
    simp only [decide_eq_decide]
    unfold Mwidth
    omega
  refine ⟨?_, ?_, ?_, ?_⟩
  · intro j hj1 hj2
    unfold mzd_read_bit
    simp only [mzd_row_add_offset_offset]
    apply nbit_xor_eq
    rw [row_add_getw M dstrow srcrow coloffset hwf hd hco hne']
    have hp64 : (j + M.offset) % 64 < 64 := Nat.mod_lt _ (by omega)
    have hqd : (j + M.offset) % 64 + 64 * ((j + M.offset) / 64) = j + M.offset :=
      Nat.mod_add_div _ _
    have hcd : (coloffset + M.offset) % 64 + 64 * ((coloffset + M.offset) / 64)
        = coloffset + M.offset := Nat.mod_add_div _ _
    have hbge : (coloffset + M.offset) / 64 ≤ (j + M.offset) / 64 := by omega
    have hble : (j + M.offset) / 64 ≤ Mwidth M - 1 := by
      unfold Mwidth
      omega
    have emb : (coloffset + M.offset) % 64 ≤ (j + M.offset) % 64 ∨
        (coloffset + M.offset) / 64 < (j + M.offset) / 64 := by omega
    by_cases hq1 : (j + M.offset) / 64 = (coloffset + M.offset) / 64
    · have embp : (coloffset + M.offset) % 64 ≤ (j + M.offset) % 64 := by omega
      by_cases hq2 : (j + M.offset) / 64 = Mwidth M - 1
      · rw [if_pos ⟨rfl, hq1, hq2⟩, Nat.testBit_xor, Nat.testBit_xor, Nat.testBit_and,
          Nat.testBit_and, hmb _ hp64, wnot_testBit _ _ hp64, hme _ hp64]
        have eB : 64 * (Mwidth M - 1) + (j + M.offset) % 64 < M.ncols + M.offset := by omega
        cases (getw M srcrow ((j + M.offset) / 64)).testBit ((j + M.offset) % 64) <;>
          simp [embp, eB]
      · rw [if_neg (by rintro ⟨-, -, hh⟩; exact hq2 hh), if_pos ⟨rfl, hq1⟩,
          Nat.testBit_xor, Nat.testBit_and, hmb _ hp64]
        simp [embp]
    · have hlt : (coloffset + M.offset) / 64 < (j + M.offset) / 64 := by omega
      by_cases hq2 : (j + M.offset) / 64 = Mwidth M - 1
      · rw [if_neg (by rintro ⟨-, hh, -⟩; exact hq1 hh),
          if_neg (by rintro ⟨-, hh⟩; exact hq1 hh), if_pos ⟨rfl, hq2, by omega⟩,
          Nat.testBit_xor, Nat.testBit_xor, Nat.testBit_and, wnot_testBit _ _ hp64,
          hme _ hp64]
        have eB : 64 * (Mwidth M - 1) + (j + M.offset) % 64 < M.ncols + M.offset := by omega
        cases (getw M srcrow ((j + M.offset) / 64)).testBit ((j + M.offset) % 64) <;>
          simp [eB]
      · rw [if_neg (by rintro ⟨-, hh, -⟩; exact hq1 hh),
          if_neg (by rintro ⟨-, hh⟩; exact hq1 hh),
          if_neg (by rintro ⟨-, hh, -⟩; exact hq2 hh),
          if_pos ⟨rfl, by omega, by omega⟩, Nat.testBit_xor]
  · intro j hj
    unfold mzd_read_bit
    simp only [mzd_row_add_offset_offset]
    apply nbit_congr
    rw [row_add_getw M dstrow srcrow coloffset hwf hd hco hne']
    have hp64 : (j + M.offset) % 64 < 64 := Nat.mod_lt _ (by omega)
    have hqd : (j + M.offset) % 64 + 64 * ((j + M.offset) / 64) = j + M.offset :=
      Nat.mod_add_div _ _
    have hcd : (coloffset + M.offset) % 64 + 64 * ((coloffset + M.offset) / 64)
        = coloffset + M.offset := Nat.mod_add_div _ _
    have hble : (j + M.offset) / 64 ≤ (coloffset + M.offset) / 64 := by omega
    by_cases hq1 : (j + M.offset) / 64 = (coloffset + M.offset) / 64
    · have hplt : (j + M.offset) % 64 < (coloffset + M.offset) % 64 := by omega
      by_cases hq2 : (j + M.offset) / 64 = Mwidth M - 1
      · rw [if_pos ⟨rfl, hq1, hq2⟩, Nat.testBit_xor, Nat.testBit_xor, Nat.testBit_and,
          Nat.testBit_and, hmb _ hp64, wnot_testBit _ _ hp64, hme _ hp64]
        have eA : ¬ ((coloffset + M.offset) % 64 ≤ (j + M.offset) % 64) := by omega
        have eB : 64 * (Mwidth M - 1) + (j + M.offset) % 64 < M.ncols + M.offset := by
          unfold Mwidth
          omega
        simp [eA, eB]
      · rw [if_neg (by rintro ⟨-, -, hh⟩; exact hq2 hh), if_pos ⟨rfl, hq1⟩,
          Nat.testBit_xor, Nat.testBit_and, hmb _ hp64]
        have eA : ¬ ((coloffset + M.offset) % 64 ≤ (j + M.offset) % 64) := by omega
        simp [eA]
    · have hlt : (j + M.offset) / 64 < (coloffset + M.offset) / 64 := by omega
      rw [if_neg (by rintro ⟨-, hh, -⟩; exact hq1 hh),
        if_neg (by rintro ⟨-, hh⟩; exact hq1 hh),
        if_neg (by rintro ⟨-, -, hh⟩; omega),
        if_neg (by rintro ⟨-, hh, -⟩; omega)]
  · intro b p hp hout
    rw [row_add_getw M dstrow srcrow coloffset hwf hd hco hne']
    have hcd : (coloffset + M.offset) % 64 + 64 * ((coloffset + M.offset) / 64)
        = coloffset + M.offset := Nat.mod_add_div _ _
    have hW : 64 * (Mwidth M - 1) < M.ncols + M.offset ∧ M.ncols + M.offset ≤ 64 * Mwidth M := by
      unfold Mwidth
      omega
    rcases hout with hlow | hhigh
    · -- storage position below the offset: b = 0, p < offset
      have hb0 : b = 0 := by omega
      subst hb0
      by_cases hsb0 : (coloffset + M.offset) / 64 = 0
      · have eA : ¬ ((coloffset + M.offset) % 64 ≤ p) := by omega
        by_cases hq2 : (0 : Nat) = Mwidth M - 1
        · rw [if_pos ⟨rfl, hsb0.symm, hq2⟩, Nat.testBit_xor, Nat.testBit_xor,
            Nat.testBit_and, Nat.testBit_and, hmb _ hp, wnot_testBit _ _ hp, hme _ hp]
          have eB : 64 * (Mwidth M - 1) + p < M.ncols + M.offset := by omega
          simp [eA, eB]
        · rw [if_neg (by rintro ⟨-, -, hh⟩; exact hq2 hh), if_pos ⟨rfl, hsb0.symm⟩,
            Nat.testBit_xor, Nat.testBit_and, hmb _ hp]
          simp [eA]
      · rw [if_neg (by rintro ⟨-, hh, -⟩; exact hsb0 hh.symm),
          if_neg (by rintro ⟨-, hh⟩; exact hsb0 hh.symm),
          if_neg (by rintro ⟨-, -, hh⟩; omega),
          if_neg (by rintro ⟨-, hh, -⟩; omega)]
    · -- storage position at or above offset + ncols
      by_cases hbW : b = Mwidth M - 1
      · subst hbW
        have eB : ¬ (64 * (Mwidth M - 1) + p < M.ncols + M.offset) := by omega
        by_cases hq1 : Mwidth M - 1 = (coloffset + M.offset) / 64
        · have eA : (coloffset + M.offset) % 64 ≤ p := by omega
          rw [if_pos ⟨rfl, hq1, rfl⟩, Nat.testBit_xor, Nat.testBit_xor, Nat.testBit_and,
            Nat.testBit_and, hmb _ hp, wnot_testBit _ _ hp, hme _ hp]
          cases (getw M srcrow (Mwidth M - 1)).testBit p <;> simp [eA, eB]
        · rw [if_neg (by rintro ⟨-, hh, -⟩; exact hq1 hh),
            if_neg (by rintro ⟨-, hh⟩; exact hq1 hh),
            if_pos ⟨rfl, rfl, by omega⟩, Nat.testBit_xor, Nat.testBit_xor,
            Nat.testBit_and, wnot_testBit _ _ hp, hme _ hp]
          cases (getw M srcrow (Mwidth M - 1)).testBit p <;> simp [eB]
      · -- b > W - 1 : nothing is touched
        have hbig : Mwidth M - 1 < b := by omega
        have hsble : (coloffset + M.offset) / 64 ≤ Mwidth M - 1 := by
          unfold Mwidth
          omega
        rw [if_neg (by rintro ⟨-, hh, -⟩; omega),
          if_neg (by rintro ⟨-, hh⟩; omega),
          if_neg (by rintro ⟨-, hh, -⟩; exact hbW hh),
          if_neg (by rintro ⟨-, -, hh⟩; omega)]
  · intro r' b hr'
    rw [row_add_getw M dstrow srcrow coloffset hwf hd hco hne',
      if_neg (by rintro ⟨hh, -⟩; exact hr' hh), if_neg (by rintro ⟨hh, -⟩; exact hr' hh),
      if_neg (by rintro ⟨hh, -⟩; exact hr' hh), if_neg (by rintro ⟨hh, -⟩; exact hr' hh)]

/-- C3 witness: on a concrete 2 x 100 matrix with offset 3, the row-add
from row 1 into row 0 starting at column 10 XORs the entries at
column 70. -/
theorem C3_row_add_offset_amended_witness :
    Mwf ⟨2, 100, 3, [[10, 20], [12345, 67]]⟩ ∧
    mzd_read_bit (mzd_row_add_offset ⟨2, 100, 3, [[10, 20], [12345, 67]]⟩ 0 1 10) 0 70 =
      mzd_read_bit ⟨2, 100, 3, [[10, 20], [12345, 67]]⟩ 0 70 ^^^
        mzd_read_bit ⟨2, 100, 3, [[10, 20], [12345, 67]]⟩ 1 70 :=
  ⟨by decide,
    (C3_row_add_offset_amended ⟨2, 100, 3, [[10, 20], [12345, 67]]⟩ 0 1 10 (by decide)
      (by decide) (by decide) (by decide) (by decide)).1 70 (by decide) (by decide)⟩

/-- The same-word row loop of `mzd_col_swap_in_rows`:
`x = ((v >> coldiff) ^ v) & b_bm; x |= x << coldiff; v ^= x`. -/
def colSwapSame (a_word coldiff b_bm : Nat) : Nat → Nat → mzd_t → mzd_t
  | _, 0, M => M
  | i, cnt + 1, M =>
    colSwapSame a_word coldiff b_bm (i + 1) cnt
      (setw M i a_word
        (getw M i a_word ^^^
          ((((getw M i a_word >>> coldiff) ^^^ getw M i a_word) &&& b_bm) |||
            trunc (((((getw M i a_word >>> coldiff) ^^^ getw M i a_word) &&& b_bm)) <<< coldiff))))

/-- The two-word row loop of `mzd_col_swap_in_rows`:
`x = ((a >> coldiff) ^ b) & b_bm; b ^= x; a ^= x << coldiff`. -/
def colSwapDiff (a_word b_word coldiff b_bm : Nat) : Nat → Nat → mzd_t → mzd_t
  | _, 0, M => M
  | i, cnt + 1, M =>
    colSwapDiff a_word b_word coldiff b_bm (i + 1) cnt
      (setw (setw M i a_word
          (getw M i a_word ^^^
            trunc ((((getw M i a_word >>> coldiff) ^^^ getw M i b_word) &&& b_bm) <<< coldiff)))
        i b_word
        (getw M i b_word ^^^ (((getw M i a_word >>> coldiff) ^^^ getw M i b_word) &&& b_bm)))

/-- `mzd_col_swap_in_rows(M, cola, colb, start_row, stop_row)`: after the
`cola == colb` early return, the column with the larger in-word index is
selected as the `a` side and either the one-word or the two-word loop
runs over the row range. -/
def mzd_col_swap_in_rows (M : mzd_t) (cola colb start_row stop_row : Nat) : mzd_t :=
  if cola = colb then M
  else
    let ca := cola + M.offset
    let cb := colb + M.offset
    let swap_a_b := ca % 64 < cb % 64
    let a_spill := if swap_a_b then cb % 64 else ca % 64
    let b_spill := if swap_a_b then ca % 64 else cb % 64
    let a_word := if swap_a_b then cb / 64 else ca / 64
    let b_word := if swap_a_b then ca / 64 else cb / 64
    let b_bm := 1 <<< b_spill
    let coldiff := a_spill - b_spill
    if a_word = b_word then
      colSwapSame a_word coldiff b_bm start_row (stop_row - start_row) M
    else
      colSwapDiff a_word b_word coldiff b_bm start_row (stop_row - start_row) M

/-- One-word column swap, per bit: the bits at positions `bs` and
`bs + d` of the word are exchanged, all other bits are unchanged. -/
theorem colSwapSame_word_testBit (v d bs : Nat) (hd : 1 ≤ d) (hlt : bs + d < 64) (p : Nat)
    (hp : p < 64) :
    (v ^^^ ((((v >>> d) ^^^ v) &&& (1 <<< bs)) |||
      trunc ((((v >>> d) ^^^ v) &&& (1 <<< bs)) <<< d))).testBit p =
      if p = bs then v.testBit (bs + d)
      else if p = bs + d then v.testBit bs
      else v.testBit p := by
  rw [Nat.testBit_xor, Nat.testBit_or, trunc_testBit _ _ hp, Nat.testBit_shiftLeft,
    Nat.testBit_and, Nat.testBit_and, Nat.testBit_xor, Nat.testBit_xor,
    Nat.testBit_shiftRight, Nat.testBit_shiftRight, Nat.one_shiftLeft, Nat.testBit_two_pow,
    Nat.testBit_two_pow]
  by_cases h1 : p = bs
  · subst h1
    rw [if_pos rfl]
    by_cases e3 : d ≤ p
    · have e4 : ¬ (p = p - d) := by omega
      cases hva : v.testBit (p + d) <;> cases hvb : v.testBit p <;>
        simp [e3, e4, hva, hvb, show d + p = p + d from by omega]
    · cases hva : v.testBit (p + d) <;> cases hvb : v.testBit p <;>
        simp [e3, hva, hvb, show d + p = p + d from by omega]
  · rw [if_neg h1]
    by_cases h2 : p = bs + d
    · subst h2
      rw [if_pos rfl]
      have e3 : d ≤ bs + d := by omega
      have e4 : bs + d - d = bs := by omega
      have e5 : ¬ (bs = bs + d) := by omega
      cases hva : v.testBit (bs + d) <;> cases hvb : v.testBit bs <;>
        simp [e3, e4, e5, hva, hvb, show d + bs = bs + d from by omega]
    · rw [if_neg h2]
      have e5 : ¬ (bs = p) := fun h => h1 h.symm
      by_cases e3 : d ≤ p
      · have e4 : ¬ (bs = p - d) := by omega
        simp [e3, e4, e5]
      · simp [e3, e5]

/-- Two-word column swap, per bit: bit `bs` of word `b` receives bit
`bs + d` of word `a` and vice versa; all other bits are unchanged. -/
theorem colSwapDiff_word_testBit (a b d bs : Nat) (hlt : bs + d < 64) (p : Nat) (hp : p < 64) :
    ((b ^^^ (((a >>> d) ^^^ b) &&& (1 <<< bs))).testBit p =
      if p = bs then a.testBit (bs + d) else b.testBit p) ∧
    ((a ^^^ trunc ((((a >>> d) ^^^ b) &&& (1 <<< bs)) <<< d)).testBit p =
      if p = bs + d then b.testBit bs else a.testBit p) := by
  constructor
  · rw [Nat.testBit_xor, Nat.testBit_and, Nat.testBit_xor, Nat.testBit_shiftRight,
      Nat.one_shiftLeft, Nat.testBit_two_pow]
    by_cases h1 : p = bs
    · subst h1
      rw [if_pos rfl]
      cases hva : a.testBit (p + d) <;> cases hvb : b.testBit p <;>
        simp [hva, hvb, show d + p = p + d from by omega]
    · rw [if_neg h1]
      simp [show ¬ (bs = p) from fun h => h1 h.symm]
  · rw [Nat.testBit_xor, trunc_testBit _ _ hp, Nat.testBit_shiftLeft, Nat.testBit_and,
      Nat.testBit_xor, Nat.testBit_shiftRight, Nat.one_shiftLeft, Nat.testBit_two_pow]
    by_cases h2 : p = bs + d
    · subst h2
      rw [if_pos rfl]
      have e3 : d ≤ bs + d := by omega
      have e4 : bs + d - d = bs := by omega
      cases hva : a.testBit (bs + d) <;> cases hvb : b.testBit bs <;>
        simp [e3, e4, hva, hvb, show d + bs = bs + d from by omega]
    · rw [if_neg h2]
      by_cases e3 : d ≤ p
      · have e4 : ¬ (bs = p - d) := by omega
        simp [e3, e4]
      · simp [e3]

theorem getw_setw_ne_row (M : mzd_t) (r b v r' b' : Nat) (h : r' ≠ r) :
    getw (setw M r b v) r' b' = getw M r' b' := by
  rw [getw_setw, if_neg (by rintro ⟨hh, -⟩; exact h hh)]

theorem getw_setw_ne_word (M : mzd_t) (r b v r' b' : Nat) (h : b' ≠ b) :
    getw (setw M r b v) r' b' = getw M r' b' := by
  rw [getw_setw, if_neg (by rintro ⟨-, hh, -⟩; exact h hh)]

theorem getw_setw_self (M : mzd_t) (r b v : Nat) (hr : r < M.rows.length)
    (hb : b < (M.rows.getD r []).length) : getw (setw M r b v) r b = v := by
  rw [getw_setw, if_pos ⟨rfl, rfl, hr, hb⟩]

theorem colSwapSame_fields (aw d bm : Nat) : ∀ (cnt i : Nat) (M : mzd_t),
    (colSwapSame aw d bm i cnt M).offset = M.offset ∧
    (colSwapSame aw d bm i cnt M).ncols = M.ncols ∧
    (colSwapSame aw d bm i cnt M).rows.length = M.rows.length := by
  intro cnt
  induction cnt with
  | zero => exact fun i M => ⟨rfl, rfl, rfl⟩
  | succ cnt ih =>
    intro i M
    rw [colSwapSame]
    refine ⟨(ih (i + 1) _).1, (ih (i + 1) _).2.1, ?_⟩
    rw [(ih (i + 1) _).2.2, rows_length_setw]

theorem colSwapDiff_fields (aw bw d bm : Nat) : ∀ (cnt i : Nat) (M : mzd_t),
    (colSwapDiff aw bw d bm i cnt M).offset = M.offset ∧
    (colSwapDiff aw bw d bm i cnt M).ncols = M.ncols ∧
    (colSwapDiff aw bw d bm i cnt M).rows.length = M.rows.length := by
  intro cnt
  induction cnt with
  | zero => exact fun i M => ⟨rfl, rfl, rfl⟩
  | succ cnt ih =>
    intro i M
    rw [colSwapDiff]
    refine ⟨(ih (i + 1) _).1, (ih (i + 1) _).2.1, ?_⟩
    rw [(ih (i + 1) _).2.2, rows_length_setw, rows_length_setw]

theorem colSwapSame_getw (aw d bm : Nat) : ∀ (cnt i : Nat) (M : mzd_t) (r' b' : Nat),
    getw (colSwapSame aw d bm i cnt M) r' b' =
      if i ≤ r' ∧ r' < i + cnt ∧ b' = aw ∧ r' < M.rows.length ∧
          aw < (M.rows.getD r' []).length then
        getw M r' aw ^^^
          ((((getw M r' aw >>> d) ^^^ getw M r' aw) &&& bm) |||
            trunc ((((getw M r' aw >>> d) ^^^ getw M r' aw) &&& bm) <<< d))
      else getw M r' b' := by
  intro cnt
  induction cnt with
  | zero =>
    intro i M r' b'
    rw [colSwapSame, if_neg (by rintro ⟨h1, h2, -⟩; omega)]
  | succ cnt ih =>
    intro i M r' b'
    rw [colSwapSame, ih, rows_length_setw, rowlen_setw]
    by_cases hin : i + 1 ≤ r' ∧ r' < i + 1 + cnt ∧ b' = aw ∧ r' < M.rows.length ∧
        aw < (M.rows.getD r' []).length
    · rcases hin with ⟨h1, h2, h3, h4, h5⟩
      rw [if_pos ⟨h1, h2, h3, h4, h5⟩]
      rw [getw_setw_ne_row _ _ _ _ _ _ (show r' ≠ i from by omega)]
      rw [if_pos ⟨by omega, by omega, h3, h4, h5⟩]
    · rw [if_neg hin]
      by_cases hout : i ≤ r' ∧ r' < i + (cnt + 1) ∧ b' = aw ∧ r' < M.rows.length ∧
          aw < (M.rows.getD r' []).length
      · rcases hout with ⟨g1, g2, g3, g4, g5⟩
        have hri : r' = i := by
          by_contra hne2
          exact hin ⟨by omega, by omega, g3, g4, g5⟩
        subst hri
        subst g3
        rw [getw_setw_self _ _ _ _ g4 g5, if_pos ⟨g1, g2, rfl, g4, g5⟩]
      · rw [if_neg hout]
        by_cases hri : r' = i
        · subst hri
          by_cases hb : b' = aw
          · subst hb
            rw [getw_setw, if_neg]
            rintro ⟨-, -, hv4, hv5⟩
            exact hout ⟨le_refl _, by omega, rfl, hv4, hv5⟩
          · rw [getw_setw_ne_word _ _ _ _ _ _ hb]
        · rw [getw_setw_ne_row _ _ _ _ _ _ hri]

theorem colSwapDiff_getw (aw bw d bm : Nat) (hwne : aw ≠ bw) :
    ∀ (cnt i : Nat) (M : mzd_t) (r' b' : Nat),
    getw (colSwapDiff aw bw d bm i cnt M) r' b' =
      if i ≤ r' ∧ r' < i + cnt ∧ b' = aw ∧ r' < M.rows.length ∧
          aw < (M.rows.getD r' []).length then
        getw M r' aw ^^^ trunc ((((getw M r' aw >>> d) ^^^ getw M r' bw) &&& bm) <<< d)
      else if i ≤ r' ∧ r' < i + cnt ∧ b' = bw ∧ r' < M.rows.length ∧
          bw < (M.rows.getD r' []).length then
        getw M r' bw ^^^ (((getw M r' aw >>> d) ^^^ getw M r' bw) &&& bm)
      else getw M r' b' := by
  intro cnt
  induction cnt with
  | zero =>
    intro i M r' b'
    rw [colSwapDiff, if_neg (by rintro ⟨h1, h2, -⟩; omega),
      if_neg (by rintro ⟨h1, h2, -⟩; omega)]
  | succ cnt ih =>
    intro i M r' b'
    rw [colSwapDiff, ih, rows_length_setw, rows_length_setw, rowlen_setw, rowlen_setw]
    have hpeel : r' ≠ i → ∀ bb : Nat, getw (setw (setw M i aw
        (getw M i aw ^^^ trunc ((((getw M i aw >>> d) ^^^ getw M i bw) &&& bm) <<< d))) i bw
        (getw M i bw ^^^ (((getw M i aw >>> d) ^^^ getw M i bw) &&& bm))) r' bb
        = getw M r' bb := by
      intro hne2 bb
      rw [getw_setw_ne_row _ _ _ _ _ _ hne2, getw_setw_ne_row _ _ _ _ _ _ hne2]
    by_cases hinA : i + 1 ≤ r' ∧ r' < i + 1 + cnt ∧ b' = aw ∧ r' < M.rows.length ∧
        aw < (M.rows.getD r' []).length
    · rcases hinA with ⟨h1, h2, h3, h4, h5⟩
      rw [if_pos ⟨h1, h2, h3, h4, h5⟩]
      simp only [hpeel (show r' ≠ i from by omega)]
      rw [if_pos ⟨by omega, by omega, h3, h4, h5⟩]
    · rw [if_neg hinA]
      by_cases hinB : i + 1 ≤ r' ∧ r' < i + 1 + cnt ∧ b' = bw ∧ r' < M.rows.length ∧
          bw < (M.rows.getD r' []).length
      · rcases hinB with ⟨h1, h2, h3, h4, h5⟩
        rw [if_pos ⟨h1, h2, h3, h4, h5⟩]
        simp only [hpeel (show r' ≠ i from by omega)]
        rw [if_neg (by rintro ⟨-, -, hh, -⟩; exact hwne (hh.symm.trans h3)),
          if_pos ⟨by omega, by omega, h3, h4, h5⟩]
      · rw [if_neg hinB]
        by_cases houtA : i ≤ r' ∧ r' < i + (cnt + 1) ∧ b' = aw ∧ r' < M.rows.length ∧
            aw < (M.rows.getD r' []).length
        · rcases houtA with ⟨g1, g2, g3, g4, g5⟩
          have hri : r' = i := by
            by_contra hne2
            exact hinA ⟨by omega, by omega, g3, g4, g5⟩
          subst hri
          subst g3
          rw [getw_setw_ne_word _ _ _ _ _ _ hwne,
            getw_setw_self _ _ _ _ g4 g5, if_pos ⟨g1, g2, rfl, g4, g5⟩]
        · rw [if_neg houtA]
          by_cases houtB : i ≤ r' ∧ r' < i + (cnt + 1) ∧ b' = bw ∧ r' < M.rows.length ∧
              bw < (M.rows.getD r' []).length
          · rcases houtB with ⟨g1, g2, g3, g4, g5⟩
            have hri : r' = i := by
              by_contra hne2
              exact hinB ⟨by omega, by omega, g3, g4, g5⟩
            subst hri
            subst g3
            have hg4 : r' < (setw M r' aw
                (getw M r' aw ^^^
                  trunc ((((getw M r' aw >>> d) ^^^ getw M r' b') &&& bm) <<< d))).rows.length := by
              rw [rows_length_setw]
              exact g4
            have hg5 : b' < ((setw M r' aw
                (getw M r' aw ^^^
                  trunc ((((getw M r' aw >>> d) ^^^ getw M r' b') &&& bm) <<< d))).rows.getD
                    r' []).length := by
              rw [rowlen_setw]
              exact g5
            rw [getw_setw_self _ _ _ _ hg4 hg5, if_pos ⟨g1, g2, rfl, g4, g5⟩]
          · rw [if_neg houtB]
            by_cases hri : r' = i
            · subst hri
              by_cases hbb : b' = bw
              · subst hbb
                rw [getw_setw, if_neg]
                · rw [getw_setw_ne_word _ _ _ _ _ _ (fun hh => hwne hh.symm)]
                · rintro ⟨-, -, hv4, hv5⟩
                  rw [rows_length_setw] at hv4
                  rw [rowlen_setw] at hv5
                  exact houtB ⟨le_refl _, by omega, rfl, hv4, hv5⟩
              · rw [getw_setw_ne_word _ _ _ _ _ _ hbb]
                by_cases hba : b' = aw
                · subst hba
                  rw [getw_setw, if_neg]
                  rintro ⟨-, -, hv4, hv5⟩
                  exact houtA ⟨le_refl _, by omega, rfl, hv4, hv5⟩
                · rw [getw_setw_ne_word _ _ _ _ _ _ hba]
            · rw [getw_setw_ne_row _ _ _ _ _ _ hri, getw_setw_ne_row _ _ _ _ _ _ hri]

/-- Core of `mzd_col_swap_in_rows` after the column sides have been
sorted so that the `a` side has the not-smaller in-word index: the two
columns are exchanged in every row of the range and every other bit of
the matrix is unchanged. -/
theorem col_swap_core (M : mzd_t) (colA colB start_row stop_row : Nat) (hwf : Mwf M)
    (hA : colA < M.ncols) (hB : colB < M.ncols) (hne : colA ≠ colB)
    (hstop : stop_row ≤ M.nrows)
    (hsp : (colB + M.offset) % 64 ≤ (colA + M.offset) % 64)
    (N : mzd_t)
    (hN : N = if (colA + M.offset) / 64 = (colB + M.offset) / 64 then
        colSwapSame ((colA + M.offset) / 64)
          ((colA + M.offset) % 64 - (colB + M.offset) % 64)
          (1 <<< ((colB + M.offset) % 64)) start_row (stop_row - start_row) M
      else
        colSwapDiff ((colA + M.offset) / 64) ((colB + M.offset) / 64)
          ((colA + M.offset) % 64 - (colB + M.offset) % 64)
          (1 <<< ((colB + M.offset) % 64)) start_row (stop_row - start_row) M) :
    (∀ i, start_row ≤ i → i < stop_row →
      mzd_read_bit N i colA = mzd_read_bit M i colB ∧
      mzd_read_bit N i colB = mzd_read_bit M i colA) ∧
    (∀ i j, i < M.nrows → j < M.ncols →
      (¬ (start_row ≤ i ∧ i < stop_row) ∨ (j ≠ colA ∧ j ≠ colB)) →
      mzd_read_bit N i j = mzd_read_bit M i j) := by
  have hoff : N.offset = M.offset := by
    rw [hN]
    split
    · exact (colSwapSame_fields _ _ _ _ _ _).1
    · exact (colSwapDiff_fields _ _ _ _ _ _ _).1
  have hlenM : M.rows.length = M.nrows := hwf.2.2.1
  have hoffM : M.offset < 64 := hwf.1
  have hbA : (colA + M.offset) / 64 < Mwidth M := block_lt_width M hwf colA hA
  have hbB : (colB + M.offset) / 64 < Mwidth M := block_lt_width M hwf colB hB
  have hsA : (colA + M.offset) % 64 < 64 := Nat.mod_lt _ (by omega)
  have hsB : (colB + M.offset) % 64 < 64 := Nat.mod_lt _ (by omega)
  have hbsd : (colB + M.offset) % 64 + ((colA + M.offset) % 64 - (colB + M.offset) % 64)
      = (colA + M.offset) % 64 := by omega
  by_cases hw : (colA + M.offset) / 64 = (colB + M.offset) / 64
  · rw [if_pos hw] at hN
    have hd1 : 1 ≤ (colA + M.offset) % 64 - (colB + M.offset) % 64 := by
      rcases eq_or_ne ((colA + M.offset) % 64) ((colB + M.offset) % 64) with he | hne2
      · exfalso
        apply hne
        omega
      · omega
    constructor
    · intro i h1 h2
      have hi1 : i < M.rows.length := by omega
      have hi2 : (colA + M.offset) / 64 < (M.rows.getD i []).length := by
        rw [rowlen_eq_width M hwf i (by omega)]
        exact hbA
      constructor
      · unfold mzd_read_bit
        rw [hoff, ← hw, hN, colSwapSame_getw, if_pos ⟨h1, by omega, rfl, hi1, hi2⟩]
        exact nbit_congr (by
          rw [colSwapSame_word_testBit (getw M i ((colA + M.offset) / 64))
              ((colA + M.offset) % 64 - (colB + M.offset) % 64) ((colB + M.offset) % 64)
              hd1 (by omega) ((colA + M.offset) % 64) hsA,
            if_neg (by omega), if_pos (by omega)])
      · unfold mzd_read_bit
        rw [hoff, ← hw, hN, colSwapSame_getw, if_pos ⟨h1, by omega, rfl, hi1, hi2⟩]
        exact nbit_congr (by
          rw [colSwapSame_word_testBit (getw M i ((colA + M.offset) / 64))
              ((colA + M.offset) % 64 - (colB + M.offset) % 64) ((colB + M.offset) % 64)
              hd1 (by omega) ((colB + M.offset) % 64) hsB,
            if_pos rfl, hbsd])
    · intro i j hi hj hside
      unfold mzd_read_bit
      rw [hoff]
      by_cases hrange : start_row ≤ i ∧ i < stop_row
      · rcases hside with hout | ⟨hjA, hjB⟩
        · exact absurd hrange hout
        · by_cases hwj : (j + M.offset) / 64 = (colA + M.offset) / 64
          · have hi1 : i < M.rows.length := by omega
            have hi2 : (colA + M.offset) / 64 < (M.rows.getD i []).length := by
              rw [rowlen_eq_width M hwf i (by omega)]
              exact hbA
            rw [hwj, hN, colSwapSame_getw, if_pos ⟨hrange.1, by omega, rfl, hi1, hi2⟩]
            have hpA : (j + M.offset) % 64 ≠ (colA + M.offset) % 64 := by
              intro hc
              exact hjA (by omega)
            have hpB : (j + M.offset) % 64 ≠ (colB + M.offset) % 64 := by
              intro hc
              exact hjB (by omega)
            exact nbit_congr (by
              rw [colSwapSame_word_testBit (getw M i ((colA + M.offset) / 64))
                  ((colA + M.offset) % 64 - (colB + M.offset) % 64) ((colB + M.offset) % 64)
                  hd1 (by omega) ((j + M.offset) % 64) (Nat.mod_lt _ (by omega)),
                if_neg (by omega), if_neg (by omega)])
          · rw [hN, colSwapSame_getw, if_neg (by rintro ⟨-, -, hb', -⟩; exact hwj hb')]
      · rw [hN, colSwapSame_getw,
          if_neg (by rintro ⟨u1, u2, -⟩; exact hrange ⟨u1, by omega⟩)]
  · rw [if_neg hw] at hN
    constructor
    · intro i h1 h2
      have hi1 : i < M.rows.length := by omega
      have hiA : (colA + M.offset) / 64 < (M.rows.getD i []).length := by
        rw [rowlen_eq_width M hwf i (by omega)]
        exact hbA
      have hiB : (colB + M.offset) / 64 < (M.rows.getD i []).length := by
        rw [rowlen_eq_width M hwf i (by omega)]
        exact hbB
      constructor
      · unfold mzd_read_bit
        rw [hoff, hN, colSwapDiff_getw _ _ _ _ hw, if_pos ⟨h1, by omega, rfl, hi1, hiA⟩]
        exact nbit_congr (by
          rw [(colSwapDiff_word_testBit (getw M i ((colA + M.offset) / 64))
              (getw M i ((colB + M.offset) / 64))
              ((colA + M.offset) % 64 - (colB + M.offset) % 64) ((colB + M.offset) % 64)
              (by omega) ((colA + M.offset) % 64) hsA).2,
            if_pos (by omega)])
      · unfold mzd_read_bit
        rw [hoff, hN, colSwapDiff_getw _ _ _ _ hw,
          if_neg (by rintro ⟨-, -, hb', -⟩; exact hw hb'.symm),
          if_pos ⟨h1, by omega, rfl, hi1, hiB⟩]
        exact nbit_congr (by
          rw [(colSwapDiff_word_testBit (getw M i ((colA + M.offset) / 64))
              (getw M i ((colB + M.offset) / 64))
              ((colA + M.offset) % 64 - (colB + M.offset) % 64) ((colB + M.offset) % 64)
              (by omega) ((colB + M.offset) % 64) hsB).1,
            if_pos rfl, hbsd])
    · intro i j hi hj hside
      unfold mzd_read_bit
      rw [hoff]
      by_cases hrange : start_row ≤ i ∧ i < stop_row
      · rcases hside with hout | ⟨hjA, hjB⟩
        · exact absurd hrange hout
        · have hi1 : i < M.rows.length := by omega
          by_cases hwjA : (j + M.offset) / 64 = (colA + M.offset) / 64
          · have hiA : (colA + M.offset) / 64 < (M.rows.getD i []).length := by
              rw [rowlen_eq_width M hwf i (by omega)]
              exact hbA
            rw [hwjA, hN, colSwapDiff_getw _ _ _ _ hw,
              if_pos ⟨hrange.1, by omega, rfl, hi1, hiA⟩]
            have hpA : (j + M.offset) % 64 ≠ (colA + M.offset) % 64 := by
              intro hc
              exact hjA (by omega)
            exact nbit_congr (by
              rw [(colSwapDiff_word_testBit (getw M i ((colA + M.offset) / 64))
                  (getw M i ((colB + M.offset) / 64))
                  ((colA + M.offset) % 64 - (colB + M.offset) % 64) ((colB + M.offset) % 64)
                  (by omega) ((j + M.offset) % 64) (Nat.mod_lt _ (by omega))).2,
                if_neg (by omega)])
          · by_cases hwjB : (j + M.offset) / 64 = (colB + M.offset) / 64
            · have hiB : (colB + M.offset) / 64 < (M.rows.getD i []).length := by
                rw [rowlen_eq_width M hwf i (by omega)]
                exact hbB
              rw [hwjB, hN, colSwapDiff_getw _ _ _ _ hw,
                if_neg (by rintro ⟨-, -, hb', -⟩; exact hw hb'.symm),
                if_pos ⟨hrange.1, by omega, rfl, hi1, hiB⟩]
              have hpB : (j + M.offset) % 64 ≠ (colB + M.offset) % 64 := by
                intro hc
                exact hjB (by omega)
              exact nbit_congr (by
                rw [(colSwapDiff_word_testBit (getw M i ((colA + M.offset) / 64))
                    (getw M i ((colB + M.offset) / 64))
                    ((colA + M.offset) % 64 - (colB + M.offset) % 64) ((colB + M.offset) % 64)
                    (by omega) ((j + M.offset) % 64) (Nat.mod_lt _ (by omega))).1,
                  if_neg (by omega)])
            · rw [hN, colSwapDiff_getw _ _ _ _ hw,
                if_neg (by rintro ⟨-, -, hb', -⟩; exact hwjA hb'),
                if_neg (by rintro ⟨-, -, hb', -⟩; exact hwjB hb')]
      · rw [hN, colSwapDiff_getw _ _ _ _ hw,
          if_neg (by rintro ⟨u1, u2, -⟩; exact hrange ⟨u1, by omega⟩),
          if_neg (by rintro ⟨u1, u2, -⟩; exact hrange ⟨u1, by omega⟩)]

/-- C5: for every well-formed matrix, columns `cola, colb < ncols` and
row range `start_row ≤ stop_row ≤ nrows`, `mzd_col_swap_in_rows`
exchanges the entries in columns `cola` and `colb` of every row in
`[start_row, stop_row)`, changes no other entry of the matrix, and
leaves the matrix unchanged when `cola = colb`. -/
theorem C5_col_swap_in_rows (M : mzd_t) (cola colb start_row stop_row : Nat)
    (hwf : Mwf M) (ha : cola < M.ncols) (hb : colb < M.ncols)
    (hsr : start_row ≤ stop_row) (hstop : stop_row ≤ M.nrows) :
    (cola = colb → mzd_col_swap_in_rows M cola colb start_row stop_row = M) ∧
    (∀ i, start_row ≤ i → i < stop_row →
      mzd_read_bit (mzd_col_swap_in_rows M cola colb start_row stop_row) i cola =
        mzd_read_bit M i colb ∧
      mzd_read_bit (mzd_col_swap_in_rows M cola colb start_row stop_row) i colb =
        mzd_read_bit M i cola) ∧
    (∀ i j, i < M.nrows → j < M.ncols →
      (¬ (start_row ≤ i ∧ i < stop_row) ∨ (j ≠ cola ∧ j ≠ colb)) →
      mzd_read_bit (mzd_col_swap_in_rows M cola colb start_row stop_row) i j =
        mzd_read_bit M i j) := by
  by_cases hcc : cola = colb
  · subst hcc
    have hid : mzd_col_swap_in_rows M cola cola start_row stop_row = M := by
      unfold mzd_col_swap_in_rows
      rw [if_pos rfl]
    exact ⟨fun _ => hid, fun i h1 h2 => ⟨by rw [hid], by rw [hid]⟩,
      fun i j hi hj hs => by rw [hid]⟩
  · by_cases hsw : (cola + M.offset) % 64 < (colb + M.offset) % 64
    · have hcore := col_swap_core M colb cola start_row stop_row hwf hb ha
        (fun h => hcc h.symm) hstop (by omega)
        (mzd_col_swap_in_rows M cola colb start_row stop_row)
        (by
          simp only [mzd_col_swap_in_rows]
          rw [if_neg hcc]
          simp only [if_pos hsw])
      refine ⟨fun h => absurd h hcc,
        fun i h1 h2 => ⟨(hcore.1 i h1 h2).2, (hcore.1 i h1 h2).1⟩,
        fun i j hi hj hside => hcore.2 i j hi hj ?_⟩
      rcases hside with h | ⟨hja, hjb⟩
      · exact Or.inl h
      · exact Or.inr ⟨hjb, hja⟩
    · have hcore := col_swap_core M cola colb start_row stop_row hwf ha hb hcc hstop
        (by omega)
        (mzd_col_swap_in_rows M cola colb start_row stop_row)
        (by
          simp only [mzd_col_swap_in_rows]
          rw [if_neg hcc]
          simp only [if_neg hsw])
      exact ⟨fun h => absurd h hcc, hcore.1, hcore.2⟩

theorem C5_col_swap_in_rows_witness :
    Mwf (⟨2, 100, 3, [[10, 20], [12345, 67]]⟩ : mzd_t) ∧
    mzd_read_bit (mzd_col_swap_in_rows ⟨2, 100, 3, [[10, 20], [12345, 67]]⟩ 1 70 0 2) 0 1 =
      mzd_read_bit ⟨2, 100, 3, [[10, 20], [12345, 67]]⟩ 0 70 :=
  ⟨by decide,
    ((C5_col_swap_in_rows ⟨2, 100, 3, [[10, 20], [12345, 67]]⟩ 1 70 0 2 (by decide) (by decide)
        (by decide) (by decide) (by decide)).2.1 0 (by decide) (by decide)).1⟩

/-- The middle loop of `mzd_row_swap`: for each word index the two rows'
words are exchanged (`tmp = a[i]; a[i] = b[i]; b[i] = tmp`). -/
def rowSwapLoop (rowa rowb : Nat) : Nat → Nat → mzd_t → mzd_t
  | _, 0, M => M
  | i, cnt + 1, M =>
    rowSwapLoop rowa rowb (i + 1) cnt
      (setw (setw M rowa i (getw M rowb i)) rowb i (getw M rowa i))

/-- `mzd_row_swap(M, rowa, rowb)`: early return on equal rows, then the
first word is exchanged under `mask_begin`, the middle words are swapped
whole, and the last word is exchanged under `mask_end`; a one-word row
uses both masks on its single word. -/
def mzd_row_swap (M : mzd_t) (rowa rowb : Nat) : mzd_t :=
  if rowa = rowb then M
  else
    let width := Mwidth M - 1
    let mask_begin := right_bitmask (64 - M.offset)
    let mask_end := left_bitmask ((M.ncols + M.offset) % 64)
    let tmp := (getw M rowa 0 ^^^ getw M rowb 0) &&& mask_begin
    if width ≠ 0 then
      let M2 := setw (setw M rowa 0 (getw M rowa 0 ^^^ tmp)) rowb 0
        (getw (setw M rowa 0 (getw M rowa 0 ^^^ tmp)) rowb 0 ^^^ tmp)
      let M3 := rowSwapLoop rowa rowb 1 (width - 1) M2
      let tmp2 := (getw M3 rowa width ^^^ getw M3 rowb width) &&& mask_end
      setw (setw M3 rowa width (getw M3 rowa width ^^^ tmp2)) rowb width
        (getw (setw M3 rowa width (getw M3 rowa width ^^^ tmp2)) rowb width ^^^ tmp2)
    else
      let tmp2 := tmp &&& mask_end
      setw (setw M rowa 0 (getw M rowa 0 ^^^ tmp2)) rowb 0
        (getw (setw M rowa 0 (getw M rowa 0 ^^^ tmp2)) rowb 0 ^^^ tmp2)

theorem rowSwapLoop_fields (rowa rowb : Nat) : ∀ (cnt i : Nat) (M : mzd_t),
    (rowSwapLoop rowa rowb i cnt M).offset = M.offset ∧
    (rowSwapLoop rowa rowb i cnt M).ncols = M.ncols ∧
    (rowSwapLoop rowa rowb i cnt M).rows.length = M.rows.length ∧
    ∀ rr, ((rowSwapLoop rowa rowb i cnt M).rows.getD rr []).length
      = (M.rows.getD rr []).length := by
  intro cnt
  induction cnt with
  | zero => exact fun i M => ⟨rfl, rfl, rfl, fun rr => rfl⟩
  | succ cnt ih =>
    intro i M
    rw [rowSwapLoop]
    refine ⟨(ih (i + 1) _).1, (ih (i + 1) _).2.1, ?_, ?_⟩
    · rw [(ih (i + 1) _).2.2.1, rows_length_setw, rows_length_setw]
    · intro rr
      rw [(ih (i + 1) _).2.2.2 rr, rowlen_setw, rowlen_setw]

/-- Word-level effect of the middle loop of `mzd_row_swap`: inside the
word range the two rows' words are exchanged, everything else is kept. -/
theorem rowSwapLoop_getw (rowa rowb : Nat) (hrne : rowa ≠ rowb) :
    ∀ (cnt i : Nat) (M : mzd_t) (r' b' : Nat),
    getw (rowSwapLoop rowa rowb i cnt M) r' b' =
      if i ≤ b' ∧ b' < i + cnt ∧ r' = rowa ∧ rowa < M.rows.length ∧
          b' < (M.rows.getD rowa []).length then getw M rowb b'
      else if i ≤ b' ∧ b' < i + cnt ∧ r' = rowb ∧ rowb < M.rows.length ∧
          b' < (M.rows.getD rowb []).length then getw M rowa b'
      else getw M r' b' := by
  intro cnt
  induction cnt with
  | zero =>
    intro i M r' b'
    rw [rowSwapLoop, if_neg (by rintro ⟨h1, h2, -⟩; omega),
      if_neg (by rintro ⟨h1, h2, -⟩; omega)]
  | succ cnt ih =>
    intro i M r' b'
    rw [rowSwapLoop, ih, rows_length_setw, rows_length_setw, rowlen_setw, rowlen_setw,
      rowlen_setw, rowlen_setw]
    have hpeel : b' ≠ i → ∀ rr : Nat, getw (setw (setw M rowa i (getw M rowb i)) rowb i
        (getw M rowa i)) rr b' = getw M rr b' := by
      intro hbb rr
      rw [getw_setw_ne_word _ _ _ _ _ _ hbb, getw_setw_ne_word _ _ _ _ _ _ hbb]
    by_cases hinA : i + 1 ≤ b' ∧ b' < i + 1 + cnt ∧ r' = rowa ∧ rowa < M.rows.length ∧
        b' < (M.rows.getD rowa []).length
    · rcases hinA with ⟨h1, h2, h3, h4, h5⟩
      rw [if_pos ⟨h1, h2, h3, h4, h5⟩]
      simp only [hpeel (show b' ≠ i from by omega)]
      rw [if_pos ⟨by omega, by omega, h3, h4, h5⟩]
    · rw [if_neg hinA]
      by_cases hinB : i + 1 ≤ b' ∧ b' < i + 1 + cnt ∧ r' = rowb ∧ rowb < M.rows.length ∧
          b' < (M.rows.getD rowb []).length
      · rcases hinB with ⟨h1, h2, h3, h4, h5⟩
        rw [if_pos ⟨h1, h2, h3, h4, h5⟩]
        simp only [hpeel (show b' ≠ i from by omega)]
        rw [if_neg (by rintro ⟨-, -, hh, -⟩; exact hrne (hh.symm.trans h3)),
          if_pos ⟨by omega, by omega, h3, h4, h5⟩]
      · rw [if_neg hinB]
        by_cases houtA : i ≤ b' ∧ b' < i + (cnt + 1) ∧ r' = rowa ∧ rowa < M.rows.length ∧
            b' < (M.rows.getD rowa []).length
        · rcases houtA with ⟨g1, g2, g3, g4, g5⟩
          have hbi : b' = i := by
            by_contra hne2
            exact hinA ⟨by omega, by omega, g3, g4, g5⟩
          rw [g3, hbi, getw_setw_ne_row _ _ _ _ _ _ hrne,
            getw_setw_self _ _ _ _ g4 (hbi ▸ g5),
            if_pos ⟨le_refl _, by omega, rfl, g4, hbi ▸ g5⟩]
        · rw [if_neg houtA]
          by_cases houtB : i ≤ b' ∧ b' < i + (cnt + 1) ∧ r' = rowb ∧ rowb < M.rows.length ∧
              b' < (M.rows.getD rowb []).length
          · rcases houtB with ⟨g1, g2, g3, g4, g5⟩
            have hbi : b' = i := by
              by_contra hne2
              exact hinB ⟨by omega, by omega, g3, g4, g5⟩
            have hb4 : rowb < (setw M rowa i (getw M rowb i)).rows.length := by
              rw [rows_length_setw]
              exact g4
            have hb5 : i < ((setw M rowa i (getw M rowb i)).rows.getD rowb []).length := by
              rw [rowlen_setw]
              exact hbi ▸ g5
            rw [g3, hbi, getw_setw_self _ _ _ _ hb4 hb5,
              if_pos ⟨le_refl _, by omega, rfl, g4, hbi ▸ g5⟩]
          · rw [if_neg houtB]
            by_cases hbi : b' = i
            · by_cases hra : r' = rowa
              · rw [hra, hbi, getw_setw_ne_row _ _ _ _ _ _ hrne, getw_setw, if_neg]
                rintro ⟨-, -, hv4, hv5⟩
                exact houtA ⟨by omega, by omega, hra, hv4, by omega⟩
              · by_cases hrb : r' = rowb
                · rw [hrb, hbi, getw_setw, if_neg]
                  · rw [getw_setw_ne_row _ _ _ _ _ _ (fun h => hrne h.symm)]
                  · rintro ⟨-, -, hv4, hv5⟩
                    rw [rows_length_setw] at hv4
                    rw [rowlen_setw] at hv5
                    exact houtB ⟨by omega, by omega, hrb, hv4, by omega⟩
                · rw [getw_setw_ne_row _ _ _ _ _ _ hrb, getw_setw_ne_row _ _ _ _ _ _ hra]
            · simp only [hpeel hbi]

/-- Reading after two `setw`s of the same word index in two different
rows. -/
theorem setw2_getw (M : mzd_t) (rowa rowb w va vb : Nat) (hrne : rowa ≠ rowb)
    (hla : rowa < M.rows.length) (hlb : rowb < M.rows.length)
    (hwa : w < (M.rows.getD rowa []).length) (hwb : w < (M.rows.getD rowb []).length)
    (r b : Nat) :
    getw (setw (setw M rowa w va) rowb w vb) r b =
      if r = rowa ∧ b = w then va
      else if r = rowb ∧ b = w then vb
      else getw M r b := by
  by_cases hra : r = rowa
  · by_cases hbw : b = w
    · rw [hra, hbw, getw_setw_ne_row _ _ _ _ _ _ hrne, getw_setw_self _ _ _ _ hla hwa,
        if_pos ⟨rfl, rfl⟩]
    · rw [getw_setw_ne_word _ _ _ _ _ _ hbw, getw_setw_ne_word _ _ _ _ _ _ hbw,
        if_neg (by rintro ⟨-, hh⟩; exact hbw hh), if_neg (by rintro ⟨-, hh⟩; exact hbw hh)]
  · by_cases hrb : r = rowb
    · by_cases hbw : b = w
      · have h1 : rowb < (setw M rowa w va).rows.length := by
          rw [rows_length_setw]
          exact hlb
        have h2 : w < ((setw M rowa w va).rows.getD rowb []).length := by
          rw [rowlen_setw]
          exact hwb
        rw [hrb, hbw, getw_setw_self _ _ _ _ h1 h2,
          if_neg (by rintro ⟨hh, -⟩; exact hrne hh.symm), if_pos ⟨rfl, rfl⟩]
      · rw [getw_setw_ne_word _ _ _ _ _ _ hbw, getw_setw_ne_word _ _ _ _ _ _ hbw,
          if_neg (by rintro ⟨-, hh⟩; exact hbw hh), if_neg (by rintro ⟨-, hh⟩; exact hbw hh)]
    · rw [getw_setw_ne_row _ _ _ _ _ _ hrb, getw_setw_ne_row _ _ _ _ _ _ hra,
        if_neg (by rintro ⟨hh, -⟩; exact hra hh), if_neg (by rintro ⟨hh, -⟩; exact hrb hh)]

theorem mzd_row_swap_offset (M : mzd_t) (rowa rowb : Nat) :
    (mzd_row_swap M rowa rowb).offset = M.offset := by
  simp only [mzd_row_swap]
  split
  · rfl
  · split
    · rw [setw_offset, setw_offset, (rowSwapLoop_fields _ _ _ _ _).1, setw_offset, setw_offset]
    · rw [setw_offset, setw_offset]

/-- Word-level closed form of `mzd_row_swap` for distinct rows: word 0
of each of the two rows is XORed with the difference masked by
`mask_begin`, the last word with the difference masked by `mask_end`
(both masks for a one-word row), the middle words are exchanged, and
everything else is unchanged. -/
theorem row_swap_getw (M : mzd_t) (rowa rowb : Nat) (hwf : Mwf M) (hrne : rowa ≠ rowb)
    (ha : rowa < M.nrows) (hb : rowb < M.nrows) (r b : Nat) :
    getw (mzd_row_swap M rowa rowb) r b =
      if r ≠ rowa ∧ r ≠ rowb then getw M r b
      else if Mwidth M - 1 = 0 then
        if b = 0 then
          getw M r 0 ^^^ ((getw M rowa 0 ^^^ getw M rowb 0) &&&
            right_bitmask (64 - M.offset) &&& left_bitmask ((M.ncols + M.offset) % 64))
        else getw M r b
      else
        if b = 0 then
          getw M r 0 ^^^ ((getw M rowa 0 ^^^ getw M rowb 0) &&& right_bitmask (64 - M.offset))
        else if b = Mwidth M - 1 then
          getw M r b ^^^ ((getw M rowa b ^^^ getw M rowb b) &&&
            left_bitmask ((M.ncols + M.offset) % 64))
        else if b < Mwidth M - 1 then getw M (if r = rowa then rowb else rowa) b
        else getw M r b := by
  have hlen : M.rows.length = M.nrows := hwf.2.2.1
  have hnc : 0 < M.ncols := hwf.2.1
  have hWdef : Mwidth M = (M.ncols + M.offset + 63) / 64 := rfl
  have hwid1 : 1 ≤ Mwidth M := by omega
  have hla : rowa < M.rows.length := by omega
  have hlb : rowb < M.rows.length := by omega
  have hwa : ∀ w, w < Mwidth M → w < (M.rows.getD rowa []).length := by
    intro w hw
    rw [rowlen_eq_width M hwf rowa ha]
    exact hw
  have hwb : ∀ w, w < Mwidth M → w < (M.rows.getD rowb []).length := by
    intro w hw
    rw [rowlen_eq_width M hwf rowb hb]
    exact hw
  simp only [mzd_row_swap]
  rw [if_neg hrne]
  by_cases hW : Mwidth M - 1 = 0
  · rw [if_neg (not_not_intro hW),
      getw_setw_ne_row _ _ _ _ _ _ (show rowb ≠ rowa from fun h => hrne h.symm),
      setw2_getw M rowa rowb 0 _ _ hrne hla hlb (hwa 0 (by omega)) (hwb 0 (by omega)) r b]
    by_cases hra : r = rowa
    · by_cases hb0 : b = 0
      · rw [hra, hb0, if_pos ⟨rfl, rfl⟩, if_neg (by rintro ⟨hh, -⟩; exact hh rfl),
          if_pos hW, if_pos rfl]
      · rw [hra, if_neg (by rintro ⟨-, hh⟩; exact hb0 hh),
          if_neg (by rintro ⟨-, hh⟩; exact hb0 hh),
          if_neg (by rintro ⟨hh, -⟩; exact hh rfl), if_pos hW, if_neg hb0]
    · by_cases hrb : r = rowb
      · by_cases hb0 : b = 0
        · rw [hrb, hb0, if_neg (by rintro ⟨hh, -⟩; exact hrne hh.symm), if_pos ⟨rfl, rfl⟩,
            if_neg (by rintro ⟨-, hh⟩; exact hh rfl), if_pos hW, if_pos rfl]
        · rw [hrb, if_neg (by rintro ⟨-, hh⟩; exact hb0 hh),
            if_neg (by rintro ⟨-, hh⟩; exact hb0 hh),
            if_neg (by rintro ⟨-, hh⟩; exact hh rfl), if_pos hW, if_neg hb0]
      · rw [if_neg (by rintro ⟨hh, -⟩; exact hra hh), if_neg (by rintro ⟨hh, -⟩; exact hrb hh),
          if_pos ⟨hra, hrb⟩]
  · rw [if_pos hW,
      getw_setw_ne_row _ _ _ _ _ _ (show rowb ≠ rowa from fun h => hrne h.symm),
      getw_setw_ne_row _ _ _ _ _ _ (show rowb ≠ rowa from fun h => hrne h.symm)]
    set W := Mwidth M - 1 with hWsub
    set t := (getw M rowa 0 ^^^ getw M rowb 0) &&& right_bitmask (64 - M.offset) with ht
    set M2 := setw (setw M rowa 0 (getw M rowa 0 ^^^ t)) rowb 0 (getw M rowb 0 ^^^ t)
      with hM2def
    set M3 := rowSwapLoop rowa rowb 1 (W - 1) M2 with hM3def
    have hlen2 : M2.rows.length = M.rows.length := by
      rw [hM2def, rows_length_setw, rows_length_setw]
    have hrl2 : ∀ rr, (M2.rows.getD rr []).length = (M.rows.getD rr []).length := by
      intro rr
      rw [hM2def, rowlen_setw, rowlen_setw]
    have hM2g : ∀ rr bb, getw M2 rr bb =
        if rr = rowa ∧ bb = 0 then getw M rowa 0 ^^^ t
        else if rr = rowb ∧ bb = 0 then getw M rowb 0 ^^^ t
        else getw M rr bb := by
      intro rr bb
      rw [hM2def]
      exact setw2_getw M rowa rowb 0 _ _ hrne hla hlb (hwa 0 (by omega)) (hwb 0 (by omega)) rr bb
    have h2a : rowa < M2.rows.length := by
      rw [hlen2]
      exact hla
    have h2b : rowb < M2.rows.length := by
      rw [hlen2]
      exact hlb
    have h2wa : ∀ bb, bb < Mwidth M → bb < (M2.rows.getD rowa []).length := by
      intro bb hbb
      rw [hrl2, rowlen_eq_width M hwf rowa ha]
      exact hbb
    have h2wb : ∀ bb, bb < Mwidth M → bb < (M2.rows.getD rowb []).length := by
      intro bb hbb
      rw [hrl2, rowlen_eq_width M hwf rowb hb]
      exact hbb
    have hM3g : ∀ rr bb, getw M3 rr bb =
        if 1 ≤ bb ∧ bb < W ∧ rr = rowa then getw M rowb bb
        else if 1 ≤ bb ∧ bb < W ∧ rr = rowb then getw M rowa bb
        else getw M2 rr bb := by
      intro rr bb
      rw [hM3def, rowSwapLoop_getw rowa rowb hrne]
      by_cases c1 : 1 ≤ bb ∧ bb < W ∧ rr = rowa
      · rw [if_pos ⟨c1.1, by omega, c1.2.2, h2a, h2wa bb (by omega)⟩, if_pos c1, hM2g,
          if_neg (by rintro ⟨-, hh⟩; omega), if_neg (by rintro ⟨-, hh⟩; omega)]
      · rw [if_neg (by rintro ⟨u1, u2, u3, -⟩; exact c1 ⟨u1, by omega, u3⟩), if_neg c1]
        by_cases c2 : 1 ≤ bb ∧ bb < W ∧ rr = rowb
        · rw [if_pos ⟨c2.1, by omega, c2.2.2, h2b, h2wb bb (by omega)⟩, if_pos c2, hM2g,
            if_neg (by rintro ⟨-, hh⟩; omega), if_neg (by rintro ⟨-, hh⟩; omega)]
        · rw [if_neg (by rintro ⟨u1, u2, u3, -⟩; exact c2 ⟨u1, by omega, u3⟩), if_neg c2]
    have hM3aW : getw M3 rowa W = getw M rowa W := by
      rw [hM3g, if_neg (by rintro ⟨-, hh, -⟩; omega), if_neg (by rintro ⟨-, hh, -⟩; omega),
        hM2g, if_neg (by rintro ⟨-, hh⟩; omega), if_neg (by rintro ⟨-, hh⟩; omega)]
    have hM3bW : getw M3 rowb W = getw M rowb W := by
      rw [hM3g, if_neg (by rintro ⟨-, hh, -⟩; omega), if_neg (by rintro ⟨-, hh, -⟩; omega),
        hM2g, if_neg (by rintro ⟨-, hh⟩; omega), if_neg (by rintro ⟨-, hh⟩; omega)]
    rw [hM3aW, hM3bW]
    have hlen3 : M3.rows.length = M.rows.length := by
      rw [hM3def, (rowSwapLoop_fields _ _ _ _ _).2.2.1, hlen2]
    have hrl3 : ∀ rr, (M3.rows.getD rr []).length = (M.rows.getD rr []).length := by
      intro rr
      rw [hM3def, (rowSwapLoop_fields _ _ _ _ _).2.2.2, hrl2]
    have h3a : rowa < M3.rows.length := by
      rw [hlen3]
      exact hla
    have h3b : rowb < M3.rows.length := by
      rw [hlen3]
      exact hlb
    have h3wa : W < (M3.rows.getD rowa []).length := by
      rw [hrl3, rowlen_eq_width M hwf rowa ha]
      omega
    have h3wb : W < (M3.rows.getD rowb []).length := by
      rw [hrl3, rowlen_eq_width M hwf rowb hb]
      omega
    rw [setw2_getw M3 rowa rowb W _ _ hrne h3a h3b h3wa h3wb r b]
    by_cases hra : r = rowa
    · by_cases hbW : b = W
      · rw [hra, hbW, if_pos ⟨rfl, rfl⟩, if_neg (by rintro ⟨hh, -⟩; exact hh rfl),
          if_neg hW, if_neg hW, if_pos rfl]
      · by_cases hb0 : b = 0
        · rw [hra, hb0, if_neg (by rintro ⟨-, hh⟩; omega), if_neg (by rintro ⟨-, hh⟩; omega),
            hM3g, if_neg (by rintro ⟨hh, -⟩; omega), if_neg (by rintro ⟨hh, -⟩; omega),
            hM2g, if_pos ⟨rfl, rfl⟩, if_neg (by rintro ⟨hh, -⟩; exact hh rfl),
            if_neg hW, if_pos rfl]
        · by_cases hmid : b < W
          · rw [hra, if_neg (by rintro ⟨-, hh⟩; exact hbW hh),
              if_neg (by rintro ⟨-, hh⟩; exact hbW hh),
              hM3g, if_pos ⟨by omega, hmid, rfl⟩,
              if_neg (by rintro ⟨hh, -⟩; exact hh rfl),
              if_neg hW, if_neg hb0, if_neg hbW, if_pos hmid, if_pos rfl]
          · rw [hra, if_neg (by rintro ⟨-, hh⟩; exact hbW hh),
              if_neg (by rintro ⟨-, hh⟩; exact hbW hh),
              hM3g, if_neg (by rintro ⟨-, hh, -⟩; exact hmid hh),
              if_neg (by rintro ⟨-, hh, -⟩; exact hmid hh),
              hM2g, if_neg (by rintro ⟨-, hh⟩; exact hb0 hh),
              if_neg (by rintro ⟨-, hh⟩; exact hb0 hh),
              if_neg (by rintro ⟨hh, -⟩; exact hh rfl),
              if_neg hW, if_neg hb0, if_neg hbW, if_neg hmid]
    · by_cases hrb : r = rowb
      · by_cases hbW : b = W
        · rw [hrb, hbW, if_neg (by rintro ⟨hh, -⟩; exact hrne hh.symm), if_pos ⟨rfl, rfl⟩,
            if_neg (by rintro ⟨-, hh⟩; exact hh rfl), if_neg hW, if_neg hW, if_pos rfl]
        · by_cases hb0 : b = 0
          · rw [hrb, hb0, if_neg (by rintro ⟨-, hh⟩; omega), if_neg (by rintro ⟨-, hh⟩; omega),
              hM3g, if_neg (by rintro ⟨hh, -⟩; omega), if_neg (by rintro ⟨hh, -⟩; omega),
              hM2g, if_neg (by rintro ⟨hh, -⟩; exact hrne hh.symm), if_pos ⟨rfl, rfl⟩,
              if_neg (by rintro ⟨-, hh⟩; exact hh rfl), if_neg hW, if_pos rfl]
          · by_cases hmid : b < W
            · rw [hrb, if_neg (by rintro ⟨-, hh⟩; exact hbW hh),
                if_neg (by rintro ⟨-, hh⟩; exact hbW hh),
                hM3g, if_neg (by rintro ⟨-, -, hh⟩; exact hrne hh.symm),
                if_pos ⟨by omega, hmid, rfl⟩,
                if_neg (by rintro ⟨-, hh⟩; exact hh rfl),
                if_neg hW, if_neg hb0, if_neg hbW, if_pos hmid,
                if_neg (fun hh => hrne hh.symm)]
            · rw [hrb, if_neg (by rintro ⟨-, hh⟩; exact hbW hh),
                if_neg (by rintro ⟨-, hh⟩; exact hbW hh),
                hM3g, if_neg (by rintro ⟨-, hh, -⟩; exact hmid hh),
                if_neg (by rintro ⟨-, hh, -⟩; exact hmid hh),
                hM2g, if_neg (by rintro ⟨-, hh⟩; exact hb0 hh),
                if_neg (by rintro ⟨-, hh⟩; exact hb0 hh),
                if_neg (by rintro ⟨-, hh⟩; exact hh rfl),
                if_neg hW, if_neg hb0, if_neg hbW, if_neg hmid]
      · rw [if_neg (by rintro ⟨hh, -⟩; exact hra hh), if_neg (by rintro ⟨hh, -⟩; exact hrb hh),
          hM3g, if_neg (by rintro ⟨-, -, hh⟩; exact hra hh),
          if_neg (by rintro ⟨-, -, hh⟩; exact hrb hh),
          hM2g, if_neg (by rintro ⟨hh, -⟩; exact hra hh),
          if_neg (by rintro ⟨hh, -⟩; exact hrb hh),
          if_pos ⟨hra, hrb⟩]

/-- C6: for every well-formed matrix and rows `rowa, rowb < nrows`,
`mzd_row_swap` exchanges the logical entries of the two rows, preserves
the don't-care bits below `offset` in the first storage word and at or
above `offset + ncols` in the last storage word of both rows, leaves
every other row unchanged, and is the identity when `rowa = rowb`. -/
theorem C6_row_swap (M : mzd_t) (rowa rowb : Nat) (hwf : Mwf M)
    (ha : rowa < M.nrows) (hb : rowb < M.nrows) :
    (rowa = rowb → mzd_row_swap M rowa rowb = M) ∧
    (∀ j, j < M.ncols →
      mzd_read_bit (mzd_row_swap M rowa rowb) rowa j = mzd_read_bit M rowb j ∧
      mzd_read_bit (mzd_row_swap M rowa rowb) rowb j = mzd_read_bit M rowa j) ∧
    (∀ p, p < M.offset →
      (getw (mzd_row_swap M rowa rowb) rowa 0).testBit p = (getw M rowa 0).testBit p ∧
      (getw (mzd_row_swap M rowa rowb) rowb 0).testBit p = (getw M rowb 0).testBit p) ∧
    (∀ p, p < 64 → M.ncols + M.offset ≤ (Mwidth M - 1) * 64 + p →
      (getw (mzd_row_swap M rowa rowb) rowa (Mwidth M - 1)).testBit p
        = (getw M rowa (Mwidth M - 1)).testBit p ∧
      (getw (mzd_row_swap M rowa rowb) rowb (Mwidth M - 1)).testBit p
        = (getw M rowb (Mwidth M - 1)).testBit p) ∧
    (∀ r b, r ≠ rowa → r ≠ rowb →
      getw (mzd_row_swap M rowa rowb) r b = getw M r b) := by
  by_cases hrr : rowa = rowb
  · have hid : mzd_row_swap M rowa rowb = M := by
      unfold mzd_row_swap
      rw [if_pos hrr]
    exact ⟨fun _ => hid, fun j hj => ⟨by rw [hid, hrr], by rw [hid, hrr]⟩,
      fun p hp => ⟨by rw [hid], by rw [hid]⟩,
      fun p hp1 hp2 => ⟨by rw [hid], by rw [hid]⟩,
      fun r b h1 h2 => by rw [hid]⟩
  · have hWdef : Mwidth M = (M.ncols + M.offset + 63) / 64 := rfl
    have hnc : 0 < M.ncols := hwf.2.1
    have hoffM : M.offset < 64 := hwf.1
    refine ⟨fun h => absurd h hrr, ?_, ?_, ?_, ?_⟩
    · intro j hj
      constructor
      · unfold mzd_read_bit
        rw [mzd_row_swap_offset]
        rw [row_swap_getw M rowa rowb hwf hrr ha hb rowa ((j + M.offset) / 64),
          if_neg (by rintro ⟨hh, -⟩; exact hh rfl)]
        by_cases hW : Mwidth M - 1 = 0
        · rw [if_pos hW]
          have h64 : M.ncols + M.offset ≤ 64 := by omega
          have hwj : (j + M.offset) / 64 = 0 := by omega
          have hp : (j + M.offset) % 64 = j + M.offset := by omega
          rw [hwj, if_pos rfl, hp]
          refine nbit_congr ?_
          rw [Nat.testBit_xor, Nat.testBit_and, Nat.testBit_and, Nat.testBit_xor,
            right_bitmask_testBit (64 - M.offset) (j + M.offset) (by omega) (by omega)
              (by omega),
            left_bitmask_testBit ((M.ncols + M.offset) % 64) (j + M.offset) (by omega)]
          have c1 : 64 - (64 - M.offset) ≤ j + M.offset := by omega
          have c2 : (64 - (M.ncols + M.offset) % 64) % 64 + (j + M.offset) < 64 := by omega
          cases hx : (getw M rowa 0).testBit (j + M.offset) <;>
            cases hy : (getw M rowb 0).testBit (j + M.offset) <;>
              simp [hx, hy, c1, c2]
        · rw [if_neg hW]
          by_cases hwj0 : (j + M.offset) / 64 = 0
          · have hp : (j + M.offset) % 64 = j + M.offset := by omega
            rw [hwj0, if_pos rfl, hp]
            refine nbit_congr ?_
            rw [Nat.testBit_xor, Nat.testBit_and, Nat.testBit_xor,
              right_bitmask_testBit (64 - M.offset) (j + M.offset) (by omega) (by omega)
                (by omega)]
            have c1 : 64 - (64 - M.offset) ≤ j + M.offset := by omega
            cases hx : (getw M rowa 0).testBit (j + M.offset) <;>
              cases hy : (getw M rowb 0).testBit (j + M.offset) <;>
                simp [hx, hy, c1]
          · by_cases hwjW : (j + M.offset) / 64 = Mwidth M - 1
            · rw [hwjW, if_neg hW, if_pos rfl]
              refine nbit_congr ?_
              rw [Nat.testBit_xor, Nat.testBit_and, Nat.testBit_xor,
                left_bitmask_testBit ((M.ncols + M.offset) % 64) ((j + M.offset) % 64)
                  (Nat.mod_lt _ (by omega))]
              have c2 : (64 - (M.ncols + M.offset) % 64) % 64 + (j + M.offset) % 64 < 64 := by
                omega
              cases hx : (getw M rowa (Mwidth M - 1)).testBit ((j + M.offset) % 64) <;>
                cases hy : (getw M rowb (Mwidth M - 1)).testBit ((j + M.offset) % 64) <;>
                  simp [hx, hy, c2]
            · have hcm : (j + M.offset) / 64 < Mwidth M - 1 := by omega
              rw [if_neg hwj0, if_neg hwjW, if_pos hcm, if_pos rfl]
      · unfold mzd_read_bit
        rw [mzd_row_swap_offset]
        rw [row_swap_getw M rowa rowb hwf hrr ha hb rowb ((j + M.offset) / 64),
          if_neg (by rintro ⟨-, hh⟩; exact hh rfl)]
        by_cases hW : Mwidth M - 1 = 0
        · rw [if_pos hW]
          have h64 : M.ncols + M.offset ≤ 64 := by omega
          have hwj : (j + M.offset) / 64 = 0 := by omega
          have hp : (j + M.offset) % 64 = j + M.offset := by omega
          rw [hwj, if_pos rfl, hp]
          refine nbit_congr ?_
          rw [Nat.testBit_xor, Nat.testBit_and, Nat.testBit_and, Nat.testBit_xor,
            right_bitmask_testBit (64 - M.offset) (j + M.offset) (by omega) (by omega)
              (by omega),
            left_bitmask_testBit ((M.ncols + M.offset) % 64) (j + M.offset) (by omega)]
          have c1 : 64 - (64 - M.offset) ≤ j + M.offset := by omega
          have c2 : (64 - (M.ncols + M.offset) % 64) % 64 + (j + M.offset) < 64 := by omega
          cases hx : (getw M rowa 0).testBit (j + M.offset) <;>
            cases hy : (getw M rowb 0).testBit (j + M.offset) <;>
              simp [hx, hy, c1, c2]
        · rw [if_neg hW]
          by_cases hwj0 : (j + M.offset) / 64 = 0
          · have hp : (j + M.offset) % 64 = j + M.offset := by omega
            rw [hwj0, if_pos rfl, hp]
            refine nbit_congr ?_
            rw [Nat.testBit_xor, Nat.testBit_and, Nat.testBit_xor,
              right_bitmask_testBit (64 - M.offset) (j + M.offset) (by omega) (by omega)
                (by omega)]
            have c1 : 64 - (64 - M.offset) ≤ j + M.offset := by omega
            cases hx : (getw M rowa 0).testBit (j + M.offset) <;>
              cases hy : (getw M rowb 0).testBit (j + M.offset) <;>
                simp [hx, hy, c1]
          · by_cases hwjW : (j + M.offset) / 64 = Mwidth M - 1
            · rw [hwjW, if_neg hW, if_pos rfl]
              refine nbit_congr ?_
              rw [Nat.testBit_xor, Nat.testBit_and, Nat.testBit_xor,
                left_bitmask_testBit ((M.ncols + M.offset) % 64) ((j + M.offset) % 64)
                  (Nat.mod_lt _ (by omega))]
              have c2 : (64 - (M.ncols + M.offset) % 64) % 64 + (j + M.offset) % 64 < 64 := by
                omega
              cases hx : (getw M rowa (Mwidth M - 1)).testBit ((j + M.offset) % 64) <;>
                cases hy : (getw M rowb (Mwidth M - 1)).testBit ((j + M.offset) % 64) <;>
                  simp [hx, hy, c2]
            · have hcm : (j + M.offset) / 64 < Mwidth M - 1 := by omega
              rw [if_neg hwj0, if_neg hwjW, if_pos hcm,
                if_neg (fun hh => hrr hh.symm)]
    · intro p hpo
      constructor
      · rw [row_swap_getw M rowa rowb hwf hrr ha hb rowa 0,
          if_neg (by rintro ⟨hh, -⟩; exact hh rfl)]
        by_cases hW : Mwidth M - 1 = 0
        · rw [if_pos hW, if_pos rfl, Nat.testBit_xor, Nat.testBit_and, Nat.testBit_and,
            right_bitmask_testBit (64 - M.offset) p (by omega) (by omega) (by omega)]
          have c1 : ¬ (64 - (64 - M.offset) ≤ p) := by omega
          simp [c1]
        · rw [if_neg hW, if_pos rfl, Nat.testBit_xor, Nat.testBit_and,
            right_bitmask_testBit (64 - M.offset) p (by omega) (by omega) (by omega)]
          have c1 : ¬ (64 - (64 - M.offset) ≤ p) := by omega
          simp [c1]
      · rw [row_swap_getw M rowa rowb hwf hrr ha hb rowb 0,
          if_neg (by rintro ⟨-, hh⟩; exact hh rfl)]
        by_cases hW : Mwidth M - 1 = 0
        · rw [if_pos hW, if_pos rfl, Nat.testBit_xor, Nat.testBit_and, Nat.testBit_and,
            right_bitmask_testBit (64 - M.offset) p (by omega) (by omega) (by omega)]
          have c1 : ¬ (64 - (64 - M.offset) ≤ p) := by omega
          simp [c1]
        · rw [if_neg hW, if_pos rfl, Nat.testBit_xor, Nat.testBit_and,
            right_bitmask_testBit (64 - M.offset) p (by omega) (by omega) (by omega)]
          have c1 : ¬ (64 - (64 - M.offset) ≤ p) := by omega
          simp [c1]
    · intro p hp64 hpd
      constructor
      · rw [row_swap_getw M rowa rowb hwf hrr ha hb rowa (Mwidth M - 1),
          if_neg (by rintro ⟨hh, -⟩; exact hh rfl)]
        by_cases hW : Mwidth M - 1 = 0
        · rw [if_pos hW, if_pos hW, hW, Nat.testBit_xor, Nat.testBit_and,
            left_bitmask_testBit ((M.ncols + M.offset) % 64) p hp64]
          have c2 : ¬ ((64 - (M.ncols + M.offset) % 64) % 64 + p < 64) := by omega
          simp [c2]
        · rw [if_neg hW, if_neg hW, if_pos rfl, Nat.testBit_xor, Nat.testBit_and,
            left_bitmask_testBit ((M.ncols + M.offset) % 64) p hp64]
          have c2 : ¬ ((64 - (M.ncols + M.offset) % 64) % 64 + p < 64) := by omega
          simp [c2]
      · rw [row_swap_getw M rowa rowb hwf hrr ha hb rowb (Mwidth M - 1),
          if_neg (by rintro ⟨-, hh⟩; exact hh rfl)]
        by_cases hW : Mwidth M - 1 = 0
        · rw [if_pos hW, if_pos hW, hW, Nat.testBit_xor, Nat.testBit_and,
            left_bitmask_testBit ((M.ncols + M.offset) % 64) p hp64]
          have c2 : ¬ ((64 - (M.ncols + M.offset) % 64) % 64 + p < 64) := by omega
          simp [c2]
        · rw [if_neg hW, if_neg hW, if_pos rfl, Nat.testBit_xor, Nat.testBit_and,
            left_bitmask_testBit ((M.ncols + M.offset) % 64) p hp64]
          have c2 : ¬ ((64 - (M.ncols + M.offset) % 64) % 64 + p < 64) := by omega
          simp [c2]
    · intro r b h1 h2
      rw [row_swap_getw M rowa rowb hwf hrr ha hb r b, if_pos ⟨h1, h2⟩]

theorem C6_row_swap_witness :
    Mwf (⟨2, 100, 3, [[10, 20], [12345, 67]]⟩ : mzd_t) ∧
    mzd_read_bit (mzd_row_swap ⟨2, 100, 3, [[10, 20], [12345, 67]]⟩ 0 1) 0 7 =
      mzd_read_bit ⟨2, 100, 3, [[10, 20], [12345, 67]]⟩ 1 7 :=
  ⟨by decide,
    ((C6_row_swap ⟨2, 100, 3, [[10, 20], [12345, 67]]⟩ 0 1 (by decide) (by decide)
        (by decide)).2.1 7 (by decide)).1⟩

/-- Full-word loop of `mzd_combine_weird`: while `i + 64 ≤ A.ncols`, a
64-bit slice of `A ^ B` is streamed into `C` via
`read_bits / clear_bits / xor_bits`. -/
def combineWeirdLoop (A : mzd_t) (a_row : Nat) (B : mzd_t) (b_row c_row : Nat) :
    Nat → Nat → mzd_t → mzd_t
  | _, 0, C => C
  | i, cnt + 1, C =>
    combineWeirdLoop A a_row B b_row c_row (i + 64) cnt
      (mzd_xor_bits (mzd_clear_bits C c_row i 64) c_row i 64
        (mzd_read_bits A a_row i 64 ^^^ mzd_read_bits B b_row i 64))

/-- `mzd_combine_weird(C, c_row, c_sb, A, a_row, a_sb, B, b_row, b_sb)`:
the start blocks are ignored by the source; after the full-word loop a
trailing slice of `A.ncols - i` bits is processed the same way. -/
def mzd_combine_weird (C : mzd_t) (c_row c_sb : Nat) (A : mzd_t) (a_row a_sb : Nat)
    (B : mzd_t) (b_row b_sb : Nat) : mzd_t :=
  let full := A.ncols / 64
  let i := 64 * full
  let C1 := combineWeirdLoop A a_row B b_row c_row 0 full C
  if A.ncols - i ≠ 0 then
    mzd_xor_bits (mzd_clear_bits C1 c_row i (C1.ncols - i)) c_row i (C1.ncols - i)
      (mzd_read_bits A a_row i (A.ncols - i) ^^^ mzd_read_bits B b_row i (B.ncols - i))
  else C1

/-- Word-copy loop of `mzd_combine_even`: `c[j] = a[j] ^ b[j]` for the
`wide` full words. -/
def combineEvenLoop (A : mzd_t) (a_row a_sb : Nat) (B : mzd_t) (b_row b_sb c_row c_sb : Nat) :
    Nat → Nat → mzd_t → mzd_t
  | _, 0, C => C
  | j, cnt + 1, C =>
    combineEvenLoop A a_row a_sb B b_row b_sb c_row c_sb (j + 1) cnt
      (setw C c_row (c_sb + j) (getw A a_row (a_sb + j) ^^^ getw B b_row (b_sb + j)))

/-- `mzd_combine_even(C, c_row, c_sb, A, a_row, a_sb, B, b_row, b_sb)`:
`wide = A.width - a_sb - 1` direct word XORs, then the last word is
updated as `c ^= (a ^ b ^ c) & LEFT_BITMASK(C.ncols % 64)`. -/
def mzd_combine_even (C : mzd_t) (c_row c_sb : Nat) (A : mzd_t) (a_row a_sb : Nat)
    (B : mzd_t) (b_row b_sb : Nat) : mzd_t :=
  let wide := Mwidth A - a_sb - 1
  let C1 := combineEvenLoop A a_row a_sb B b_row b_sb c_row c_sb 0 wide C
  setw C1 c_row (c_sb + wide)
    (getw C1 c_row (c_sb + wide) ^^^
      ((getw A a_row (a_sb + wide) ^^^ getw B b_row (b_sb + wide) ^^^
        getw C1 c_row (c_sb + wide)) &&& left_bitmask (C1.ncols % 64)))

theorem mzd_xor_bits_fields (M : mzd_t) (x y n v : Nat) :
    (mzd_xor_bits M x y n v).ncols = M.ncols ∧
    (mzd_xor_bits M x y n v).rows.length = M.rows.length ∧
    ∀ rr, ((mzd_xor_bits M x y n v).rows.getD rr []).length = (M.rows.getD rr []).length := by
  simp only [mzd_xor_bits]
  split
  · exact ⟨rfl, by rw [rows_length_setw, rows_length_setw],
      fun rr => by rw [rowlen_setw, rowlen_setw]⟩
  · exact ⟨rfl, by rw [rows_length_setw], fun rr => by rw [rowlen_setw]⟩

theorem mzd_clear_bits_fields (M : mzd_t) (x y n : Nat) :
    (mzd_clear_bits M x y n).ncols = M.ncols ∧
    (mzd_clear_bits M x y n).rows.length = M.rows.length ∧
    ∀ rr, ((mzd_clear_bits M x y n).rows.getD rr []).length = (M.rows.getD rr []).length := by
  simp only [mzd_clear_bits]
  split
  · exact ⟨rfl, by rw [rows_length_setw, rows_length_setw],
      fun rr => by rw [rowlen_setw, rowlen_setw]⟩
  · exact ⟨rfl, by rw [rows_length_setw], fun rr => by rw [rowlen_setw]⟩

theorem combineWeirdLoop_fields (A : mzd_t) (a_row : Nat) (B : mzd_t) (b_row c_row : Nat) :
    ∀ (cnt i : Nat) (C : mzd_t),
    (combineWeirdLoop A a_row B b_row c_row i cnt C).offset = C.offset ∧
    (combineWeirdLoop A a_row B b_row c_row i cnt C).ncols = C.ncols ∧
    (combineWeirdLoop A a_row B b_row c_row i cnt C).rows.length = C.rows.length ∧
    ∀ rr, ((combineWeirdLoop A a_row B b_row c_row i cnt C).rows.getD rr []).length
      = (C.rows.getD rr []).length := by
  intro cnt
  induction cnt with
  | zero => exact fun i C => ⟨rfl, rfl, rfl, fun rr => rfl⟩
  | succ cnt ih =>
    intro i C
    rw [combineWeirdLoop]
    refine ⟨?_, ?_, ?_, ?_⟩
    · rw [(ih (i + 64) _).1, mzd_xor_bits_offset, mzd_clear_bits_offset]
    · rw [(ih (i + 64) _).2.1, (mzd_xor_bits_fields _ _ _ _ _).1,
        (mzd_clear_bits_fields _ _ _ _).1]
    · rw [(ih (i + 64) _).2.2.1, (mzd_xor_bits_fields _ _ _ _ _).2.1,
        (mzd_clear_bits_fields _ _ _ _).2.1]
    · intro rr
      rw [(ih (i + 64) _).2.2.2 rr, (mzd_xor_bits_fields _ _ _ _ _).2.2 rr,
        (mzd_clear_bits_fields _ _ _ _).2.2 rr]

theorem combineEvenLoop_fields (A : mzd_t) (a_row a_sb : Nat) (B : mzd_t)
    (b_row b_sb c_row c_sb : Nat) : ∀ (cnt j : Nat) (C : mzd_t),
    (combineEvenLoop A a_row a_sb B b_row b_sb c_row c_sb j cnt C).offset = C.offset ∧
    (combineEvenLoop A a_row a_sb B b_row b_sb c_row c_sb j cnt C).ncols = C.ncols ∧
    (combineEvenLoop A a_row a_sb B b_row b_sb c_row c_sb j cnt C).rows.length
      = C.rows.length ∧
    ∀ rr, ((combineEvenLoop A a_row a_sb B b_row b_sb c_row c_sb j cnt C).rows.getD rr
      []).length = (C.rows.getD rr []).length := by
  intro cnt
  induction cnt with
  | zero => exact fun j C => ⟨rfl, rfl, rfl, fun rr => rfl⟩
  | succ cnt ih =>
    intro j C
    rw [combineEvenLoop]
    refine ⟨(ih (j + 1) _).1, (ih (j + 1) _).2.1, ?_, ?_⟩
    · rw [(ih (j + 1) _).2.2.1, rows_length_setw]
    · intro rr
      rw [(ih (j + 1) _).2.2.2 rr, rowlen_setw]

/-- A full-word `clear_bits`-then-`xor_bits` step at column offset 0
replaces storage word `t` by the truncation of the streamed value. -/
theorem combine_full_step_getw (C : mzd_t) (c_row t tmp : Nat) (hoC : C.offset = 0)
    (hc : c_row < C.rows.length) (ht : t < (C.rows.getD c_row []).length) (r' b' : Nat) :
    getw (mzd_xor_bits (mzd_clear_bits C c_row (64 * t) 64) c_row (64 * t) 64 tmp) r' b' =
      if r' = c_row ∧ b' = t then trunc tmp else getw C r' b' := by
  simp only [mzd_xor_bits]
  rw [mzd_clear_bits_offset, hoC]
  simp only [mzd_clear_bits]
  rw [hoC]
  have h1 : (64 * t + 0) % 64 = 0 := by omega
  have h2 : (64 * t + 0) / 64 = t := by omega
  rw [h1, h2, if_neg (by omega), if_neg (by omega)]
  have hmask : wnot (trunc ((m4ri_ffff >>> (64 - 64)) <<< 0)) = 0 := rfl
  rw [hmask, Nat.and_zero, getw_setw_self _ _ _ _ hc ht, Nat.shiftLeft_zero, Nat.zero_xor]
  by_cases hr' : r' = c_row
  · by_cases hb' : b' = t
    · have g1 : c_row < (setw C c_row t 0).rows.length := by
        rw [rows_length_setw]
        exact hc
      have g2 : t < ((setw C c_row t 0).rows.getD c_row []).length := by
        rw [rowlen_setw]
        exact ht
      rw [hr', hb', getw_setw_self _ _ _ _ g1 g2, if_pos ⟨rfl, rfl⟩]
    · rw [getw_setw_ne_word _ _ _ _ _ _ hb', getw_setw_ne_word _ _ _ _ _ _ hb',
        if_neg (by rintro ⟨-, hh⟩; exact hb' hh)]
  · rw [getw_setw_ne_row _ _ _ _ _ _ hr', getw_setw_ne_row _ _ _ _ _ _ hr',
      if_neg (by rintro ⟨hh, -⟩; exact hr' hh)]

/-- A trailing `clear_bits`-then-`xor_bits` step of `n < 64` bits at
column offset 0 clears the low `n` bits of storage word `t` and XORs the
truncated streamed value into it. -/
theorem combine_tail_step_getw (C : mzd_t) (c_row t n tmp : Nat) (hoC : C.offset = 0)
    (hn1 : 1 ≤ n) (hn64 : n < 64)
    (hc : c_row < C.rows.length) (ht : t < (C.rows.getD c_row []).length) (r' b' : Nat) :
    getw (mzd_xor_bits (mzd_clear_bits C c_row (64 * t) n) c_row (64 * t) n tmp) r' b' =
      if r' = c_row ∧ b' = t then
        (getw C c_row t &&& wnot (trunc (m4ri_ffff >>> (64 - n)))) ^^^ trunc tmp
      else getw C r' b' := by
  simp only [mzd_xor_bits]
  rw [mzd_clear_bits_offset, hoC]
  simp only [mzd_clear_bits]
  rw [hoC]
  have h1 : (64 * t + 0) % 64 = 0 := by omega
  have h2 : (64 * t + 0) / 64 = t := by omega
  rw [h1, h2, if_neg (by omega), if_neg (by omega), Nat.shiftLeft_zero,
    getw_setw_self _ _ _ _ hc ht, Nat.shiftLeft_zero]
  by_cases hr' : r' = c_row
  · by_cases hb' : b' = t
    · have g1 : c_row < (setw C c_row t
          (getw C c_row t &&& wnot (trunc (m4ri_ffff >>> (64 - n))))).rows.length := by
        rw [rows_length_setw]
        exact hc
      have g2 : t < ((setw C c_row t
          (getw C c_row t &&& wnot (trunc (m4ri_ffff >>> (64 - n))))).rows.getD
            c_row []).length := by
        rw [rowlen_setw]
        exact ht
      rw [hr', hb', getw_setw_self _ _ _ _ g1 g2, if_pos ⟨rfl, rfl⟩]
    · rw [getw_setw_ne_word _ _ _ _ _ _ hb', getw_setw_ne_word _ _ _ _ _ _ hb',
        if_neg (by rintro ⟨-, hh⟩; exact hb' hh)]
  · rw [getw_setw_ne_row _ _ _ _ _ _ hr', getw_setw_ne_row _ _ _ _ _ _ hr',
      if_neg (by rintro ⟨hh, -⟩; exact hr' hh)]

/-- At column offset 0, bit `p < n` of `mzd_read_bits` starting at a
word boundary is bit `p` of the corresponding storage word. -/
theorem read_bits_word0_testBit (M : mzd_t) (x t n p : Nat) (hoM : M.offset = 0)
    (hn1 : 1 ≤ n) (hn64 : n ≤ 64) (hp : p < n) :
    (mzd_read_bits M x (64 * t) n).testBit p = (getw M x t).testBit p := by
  simp only [mzd_read_bits]
  rw [hoM]
  have h1 : (64 * t + 0) % 64 = 0 := by omega
  have h2 : (64 * t + 0) / 64 = t := by omega
  rw [h1, h2, if_pos (by omega), Nat.testBit_shiftRight, trunc_testBit _ _ (by omega),
    Nat.testBit_shiftLeft]
  have e1 : 64 - (0 + n) = 64 - n := by omega
  rw [e1]
  have e2 : decide (64 - n ≤ 64 - n + p) = true := by simp
  rw [e2, Bool.true_and]
  have e3 : 64 - n + p - (64 - n) = p := by omega
  rw [e3]

/-- Word-level effect of the full-word loop of `mzd_combine_weird` at
column offset 0. -/
theorem combineWeirdLoop_getw (A : mzd_t) (a_row : Nat) (B : mzd_t) (b_row c_row : Nat) :
    ∀ (cnt t i : Nat), i = 64 * t → ∀ C : mzd_t, C.offset = 0 →
    c_row < C.rows.length →
    (∀ w, w < t + cnt → w < (C.rows.getD c_row []).length) →
    ∀ r' b',
    getw (combineWeirdLoop A a_row B b_row c_row i cnt C) r' b' =
      if r' = c_row ∧ t ≤ b' ∧ b' < t + cnt then
        trunc (mzd_read_bits A a_row (64 * b') 64 ^^^ mzd_read_bits B b_row (64 * b') 64)
      else getw C r' b' := by
  intro cnt
  induction cnt with
  | zero =>
    intro t i hi C hoC hc hw r' b'
    rw [combineWeirdLoop, if_neg (by rintro ⟨-, g1, g2⟩; omega)]
  | succ cnt ih =>
    intro t i hi C hoC hc hw r' b'
    subst hi
    rw [combineWeirdLoop]
    have hstep := combine_full_step_getw C c_row t
      (mzd_read_bits A a_row (64 * t) 64 ^^^ mzd_read_bits B b_row (64 * t) 64)
      hoC hc (hw t (by omega))
    set CX := mzd_xor_bits (mzd_clear_bits C c_row (64 * t) 64) c_row (64 * t) 64
      (mzd_read_bits A a_row (64 * t) 64 ^^^ mzd_read_bits B b_row (64 * t) 64) with hCXdef
    have hCXo : CX.offset = 0 := by
      rw [hCXdef, mzd_xor_bits_offset, mzd_clear_bits_offset, hoC]
    have hCXc : c_row < CX.rows.length := by
      rw [hCXdef, (mzd_xor_bits_fields _ _ _ _ _).2.1, (mzd_clear_bits_fields _ _ _ _).2.1]
      exact hc
    have hCXw : ∀ w, w < (t + 1) + cnt → w < (CX.rows.getD c_row []).length := by
      intro w hwlt
      rw [hCXdef, (mzd_xor_bits_fields _ _ _ _ _).2.2, (mzd_clear_bits_fields _ _ _ _).2.2]
      exact hw w (by omega)
    rw [ih (t + 1) (64 * t + 64) (by ring) CX hCXo hCXc hCXw r' b']
    by_cases hin : r' = c_row ∧ t + 1 ≤ b' ∧ b' < (t + 1) + cnt
    · rw [if_pos hin, if_pos ⟨hin.1, by omega, by omega⟩]
    · rw [if_neg hin, hstep]
      by_cases hcur : r' = c_row ∧ b' = t
      · rw [if_pos hcur, if_pos ⟨hcur.1, by omega, by omega⟩, hcur.2]
      · rw [if_neg hcur, if_neg]
        rintro ⟨g1, g2, g3⟩
        by_cases hbt : b' = t
        · exact hcur ⟨g1, hbt⟩
        · exact hin ⟨g1, by omega, by omega⟩

/-- Word-level effect of the word-copy loop of `mzd_combine_even`. -/
theorem combineEvenLoop_getw (A : mzd_t) (a_row a_sb : Nat) (B : mzd_t)
    (b_row b_sb c_row c_sb : Nat) : ∀ (cnt j : Nat) (C : mzd_t) (r' b' : Nat),
    getw (combineEvenLoop A a_row a_sb B b_row b_sb c_row c_sb j cnt C) r' b' =
      if r' = c_row ∧ c_sb + j ≤ b' ∧ b' < c_sb + j + cnt ∧ c_row < C.rows.length ∧
          b' < (C.rows.getD c_row []).length then
        getw A a_row (a_sb + (b' - c_sb)) ^^^ getw B b_row (b_sb + (b' - c_sb))
      else getw C r' b' := by
  intro cnt
  induction cnt with
  | zero =>
    intro j C r' b'
    rw [combineEvenLoop, if_neg (by rintro ⟨-, g1, g2, -⟩; omega)]
  | succ cnt ih =>
    intro j C r' b'
    rw [combineEvenLoop, ih, rows_length_setw, rowlen_setw]
    by_cases hin : r' = c_row ∧ c_sb + (j + 1) ≤ b' ∧ b' < c_sb + (j + 1) + cnt ∧
        c_row < C.rows.length ∧ b' < (C.rows.getD c_row []).length
    · rcases hin with ⟨h1, h2, h3, h4, h5⟩
      rw [if_pos ⟨h1, h2, h3, h4, h5⟩, if_pos ⟨h1, by omega, by omega, h4, h5⟩]
    · rw [if_neg hin]
      by_cases hout : r' = c_row ∧ c_sb + j ≤ b' ∧ b' < c_sb + j + (cnt + 1) ∧
          c_row < C.rows.length ∧ b' < (C.rows.getD c_row []).length
      · rcases hout with ⟨g1, g2, g3, g4, g5⟩
        have hbj : b' = c_sb + j := by
          by_contra hne2
          exact hin ⟨g1, by omega, by omega, g4, g5⟩
        rw [g1, hbj, getw_setw_self _ _ _ _ g4 (hbj ▸ g5),
          if_pos ⟨rfl, le_refl _, by omega, g4, hbj ▸ g5⟩, Nat.add_sub_cancel_left]
      · rw [if_neg hout]
        by_cases hrc : r' = c_row
        · by_cases hbj : b' = c_sb + j
          · rw [hrc, hbj, getw_setw, if_neg]
            rintro ⟨-, -, hv4, hv5⟩
            exact hout ⟨hrc, by omega, by omega, hv4, by omega⟩
          · rw [getw_setw_ne_word _ _ _ _ _ _ hbj]
        · rw [getw_setw_ne_row _ _ _ _ _ _ hrc]

/-- C7: with zero column offsets, equal `ncols` and start blocks 0, the
streamed variant `mzd_combine_weird` and the direct word-XOR variant
`mzd_combine_even` both store `A[a_row] XOR B[b_row]` into row `c_row`
of `C`, so the two entry points agree on every logical bit. -/
theorem C7_combine_equiv (C : mzd_t) (c_row : Nat) (A : mzd_t) (a_row : Nat)
    (B : mzd_t) (b_row : Nat) (hwfC : Mwf C) (hwfA : Mwf A) (hwfB : Mwf B)
    (hoC : C.offset = 0) (hoA : A.offset = 0) (hoB : B.offset = 0)
    (hnA : A.ncols = C.ncols) (hnB : B.ncols = C.ncols)
    (hc : c_row < C.nrows) (ha : a_row < A.nrows) (hb : b_row < B.nrows) :
    ∀ j, j < C.ncols →
      mzd_read_bit (mzd_combine_weird C c_row 0 A a_row 0 B b_row 0) c_row j =
        mzd_read_bit A a_row j ^^^ mzd_read_bit B b_row j ∧
      mzd_read_bit (mzd_combine_even C c_row 0 A a_row 0 B b_row 0) c_row j =
        mzd_read_bit A a_row j ^^^ mzd_read_bit B b_row j := by
  have hlenC : C.rows.length = C.nrows := hwfC.2.2.1
  have hncC : 0 < C.ncols := hwfC.2.1
  have hWdefC : Mwidth C = (C.ncols + C.offset + 63) / 64 := rfl
  have hWdefA : Mwidth A = (A.ncols + A.offset + 63) / 64 := rfl
  have hcc : c_row < C.rows.length := by omega
  have hoC0 : C.offset = 0 := hoC
  have hwlC : ∀ w, w < Mwidth C → w < (C.rows.getD c_row []).length := by
    intro w hw
    rw [rowlen_eq_width C hwfC c_row hc]
    exact hw
  have hwloop : ∀ w, w < 0 + A.ncols / 64 → w < (C.rows.getD c_row []).length := by
    intro w hw
    refine hwlC w ?_
    omega
  have hloop : ∀ r' b',
      getw (combineWeirdLoop A a_row B b_row c_row 0 (A.ncols / 64) C) r' b' =
        if r' = c_row ∧ 0 ≤ b' ∧ b' < 0 + A.ncols / 64 then
          trunc (mzd_read_bits A a_row (64 * b') 64 ^^^ mzd_read_bits B b_row (64 * b') 64)
        else getw C r' b' :=
    combineWeirdLoop_getw A a_row B b_row c_row (A.ncols / 64) 0 0 rfl C hoC hcc hwloop
  have hNo : (mzd_combine_weird C c_row 0 A a_row 0 B b_row 0).offset = 0 := by
    simp only [mzd_combine_weird]
    split
    · rw [mzd_xor_bits_offset, mzd_clear_bits_offset,
        (combineWeirdLoop_fields _ _ _ _ _ _ _ _).1, hoC]
    · rw [(combineWeirdLoop_fields _ _ _ _ _ _ _ _).1, hoC]
  have hNeo : (mzd_combine_even C c_row 0 A a_row 0 B b_row 0).offset = 0 := by
    simp only [mzd_combine_even]
    rw [setw_offset, (combineEvenLoop_fields _ _ _ _ _ _ _ _ _ _ _).1, hoC]
  have hMW : Mwidth A = Mwidth C := by
    rw [hWdefA, hWdefC, hnA, hoA, hoC]
  have heloop : ∀ r' b',
      getw (combineEvenLoop A a_row 0 B b_row 0 c_row 0 0 (Mwidth A - 0 - 1) C) r' b' =
        if r' = c_row ∧ 0 + 0 ≤ b' ∧ b' < 0 + 0 + (Mwidth A - 0 - 1) ∧
            c_row < C.rows.length ∧ b' < (C.rows.getD c_row []).length then
          getw A a_row (0 + (b' - 0)) ^^^ getw B b_row (0 + (b' - 0))
        else getw C r' b' :=
    fun r' b' => combineEvenLoop_getw A a_row 0 B b_row 0 c_row 0 (Mwidth A - 0 - 1) 0 C r' b'
  intro j hj
  constructor
  · unfold mzd_read_bit
    rw [hNo, hoA, hoB]
    simp only [Nat.add_zero]
    by_cases hrem0 : A.ncols - 64 * (A.ncols / 64) = 0
    · have hNg : getw (mzd_combine_weird C c_row 0 A a_row 0 B b_row 0) c_row (j / 64)
          = trunc (mzd_read_bits A a_row (64 * (j / 64)) 64 ^^^
              mzd_read_bits B b_row (64 * (j / 64)) 64) := by
        simp only [mzd_combine_weird]
        rw [if_neg (not_not_intro hrem0), hloop, if_pos ⟨rfl, by omega, by omega⟩]
      rw [hNg]
      refine nbit_xor_eq ?_
      rw [trunc_testBit _ _ (by omega), Nat.testBit_xor,
        read_bits_word0_testBit A a_row (j / 64) 64 (j % 64) hoA (by omega) (by omega)
          (by omega),
        read_bits_word0_testBit B b_row (j / 64) 64 (j % 64) hoB (by omega) (by omega)
          (by omega)]
    · by_cases hwj : j / 64 < A.ncols / 64
      · have hNg : getw (mzd_combine_weird C c_row 0 A a_row 0 B b_row 0) c_row (j / 64)
            = trunc (mzd_read_bits A a_row (64 * (j / 64)) 64 ^^^
                mzd_read_bits B b_row (64 * (j / 64)) 64) := by
          simp only [mzd_combine_weird]
          rw [if_pos hrem0]
          have hC1o : (combineWeirdLoop A a_row B b_row c_row 0 (A.ncols / 64) C).offset
              = 0 := by
            rw [(combineWeirdLoop_fields _ _ _ _ _ _ _ _).1, hoC]
          have hC1n : (combineWeirdLoop A a_row B b_row c_row 0 (A.ncols / 64) C).ncols
              = C.ncols := (combineWeirdLoop_fields _ _ _ _ _ _ _ _).2.1
          have hC1c : c_row <
              (combineWeirdLoop A a_row B b_row c_row 0 (A.ncols / 64) C).rows.length := by
            rw [(combineWeirdLoop_fields _ _ _ _ _ _ _ _).2.2.1]
            exact hcc
          have hC1w : A.ncols / 64 <
              ((combineWeirdLoop A a_row B b_row c_row 0 (A.ncols / 64) C).rows.getD
                c_row []).length := by
            rw [(combineWeirdLoop_fields _ _ _ _ _ _ _ _).2.2.2]
            exact hwlC _ (by omega)
          rw [hC1n, combine_tail_step_getw _ c_row (A.ncols / 64)
              (C.ncols - 64 * (A.ncols / 64)) _ hC1o (by omega) (by omega) hC1c hC1w
              c_row (j / 64),
            if_neg (by rintro ⟨-, hh⟩; omega), hloop, if_pos ⟨rfl, by omega, by omega⟩]
        rw [hNg]
        refine nbit_xor_eq ?_
        rw [trunc_testBit _ _ (by omega), Nat.testBit_xor,
          read_bits_word0_testBit A a_row (j / 64) 64 (j % 64) hoA (by omega) (by omega)
            (by omega),
          read_bits_word0_testBit B b_row (j / 64) 64 (j % 64) hoB (by omega) (by omega)
            (by omega)]
      · have hwj2 : j / 64 = A.ncols / 64 := by omega
        rw [hwj2]
        have hNg : getw (mzd_combine_weird C c_row 0 A a_row 0 B b_row 0) c_row
            (A.ncols / 64)
            = (getw C c_row (A.ncols / 64) &&&
                wnot (trunc (m4ri_ffff >>> (64 - (C.ncols - 64 * (A.ncols / 64)))))) ^^^
              trunc (mzd_read_bits A a_row (64 * (A.ncols / 64))
                  (A.ncols - 64 * (A.ncols / 64)) ^^^
                mzd_read_bits B b_row (64 * (A.ncols / 64))
                  (B.ncols - 64 * (A.ncols / 64))) := by
          simp only [mzd_combine_weird]
          rw [if_pos hrem0]
          have hC1o : (combineWeirdLoop A a_row B b_row c_row 0 (A.ncols / 64) C).offset
              = 0 := by
            rw [(combineWeirdLoop_fields _ _ _ _ _ _ _ _).1, hoC]
          have hC1n : (combineWeirdLoop A a_row B b_row c_row 0 (A.ncols / 64) C).ncols
              = C.ncols := (combineWeirdLoop_fields _ _ _ _ _ _ _ _).2.1
          have hC1c : c_row <
              (combineWeirdLoop A a_row B b_row c_row 0 (A.ncols / 64) C).rows.length := by
            rw [(combineWeirdLoop_fields _ _ _ _ _ _ _ _).2.2.1]
            exact hcc
          have hC1w : A.ncols / 64 <
              ((combineWeirdLoop A a_row B b_row c_row 0 (A.ncols / 64) C).rows.getD
                c_row []).length := by
            rw [(combineWeirdLoop_fields _ _ _ _ _ _ _ _).2.2.2]
            exact hwlC _ (by omega)
          rw [hC1n, combine_tail_step_getw _ c_row (A.ncols / 64)
              (C.ncols - 64 * (A.ncols / 64)) _ hC1o (by omega) (by omega) hC1c hC1w
              c_row (A.ncols / 64),
            if_pos ⟨rfl, rfl⟩, hloop, if_neg (by rintro ⟨-, -, hh⟩; omega)]
        rw [hNg]
        refine nbit_xor_eq ?_
        rw [Nat.testBit_xor, Nat.testBit_and, trunc_testBit _ _ (by omega),
          Nat.testBit_xor,
          read_bits_word0_testBit A a_row (A.ncols / 64) (A.ncols - 64 * (A.ncols / 64))
            (j % 64) hoA (by omega) (by omega) (by omega),
          read_bits_word0_testBit B b_row (A.ncols / 64) (B.ncols - 64 * (A.ncols / 64))
            (j % 64) hoB (by omega) (by omega) (by omega),
          wnot_testBit _ _ (by omega), trunc_testBit _ _ (by omega),
          Nat.testBit_shiftRight, ffff_testBit]
        have cd : 64 - (C.ncols - 64 * (A.ncols / 64)) + j % 64 < 64 := by omega
        cases h1 : (getw C c_row (A.ncols / 64)).testBit (j % 64) <;>
          cases h2 : (getw A a_row (A.ncols / 64)).testBit (j % 64) <;>
            cases h3 : (getw B b_row (A.ncols / 64)).testBit (j % 64) <;>
              simp [h1, h2, h3, cd]
  · unfold mzd_read_bit
    rw [hNeo, hoA, hoB]
    simp only [Nat.add_zero]
    by_cases hwj : j / 64 < Mwidth A - 0 - 1
    · have hne1 : j / 64 ≠ 0 + (Mwidth A - 0 - 1) := by omega
      have hNg : getw (mzd_combine_even C c_row 0 A a_row 0 B b_row 0) c_row (j / 64)
          = getw A a_row (0 + (j / 64 - 0)) ^^^ getw B b_row (0 + (j / 64 - 0)) := by
        simp only [mzd_combine_even]
        rw [getw_setw_ne_word _ _ _ _ _ _ hne1, heloop,
          if_pos ⟨rfl, by omega, by omega, hcc, hwlC _ (by omega)⟩]
      rw [hNg]
      have he0 : 0 + (j / 64 - 0) = j / 64 := by omega
      rw [he0]
      exact nbit_xor_eq (by rw [Nat.testBit_xor])
    · have hwj2 : j / 64 = 0 + (Mwidth A - 0 - 1) := by omega
      rw [hwj2]
      have hNg : getw (mzd_combine_even C c_row 0 A a_row 0 B b_row 0) c_row
          (0 + (Mwidth A - 0 - 1))
          = getw C c_row (0 + (Mwidth A - 0 - 1)) ^^^
            ((getw A a_row (0 + (Mwidth A - 0 - 1)) ^^^
              getw B b_row (0 + (Mwidth A - 0 - 1)) ^^^
              getw C c_row (0 + (Mwidth A - 0 - 1))) &&& left_bitmask (C.ncols % 64)) := by
        simp only [mzd_combine_even]
        have hC1n : (combineEvenLoop A a_row 0 B b_row 0 c_row 0 0 (Mwidth A - 0 - 1)
            C).ncols = C.ncols := (combineEvenLoop_fields _ _ _ _ _ _ _ _ _ _ _).2.1
        have hC1c : c_row < (combineEvenLoop A a_row 0 B b_row 0 c_row 0 0
            (Mwidth A - 0 - 1) C).rows.length := by
          rw [(combineEvenLoop_fields _ _ _ _ _ _ _ _ _ _ _).2.2.1]
          exact hcc
        have hC1w : 0 + (Mwidth A - 0 - 1) < ((combineEvenLoop A a_row 0 B b_row 0 c_row 0 0
            (Mwidth A - 0 - 1) C).rows.getD c_row []).length := by
          rw [(combineEvenLoop_fields _ _ _ _ _ _ _ _ _ _ _).2.2.2]
          exact hwlC _ (by omega)
        rw [hC1n, getw_setw_self _ _ _ _ hC1c hC1w, heloop,
          if_neg (by rintro ⟨-, -, hh, -⟩; omega)]
      rw [hNg]
      refine nbit_xor_eq ?_
      rw [Nat.testBit_xor, Nat.testBit_and, Nat.testBit_xor, Nat.testBit_xor,
        left_bitmask_testBit (C.ncols % 64) (j % 64) (by omega)]
      have cd : (64 - C.ncols % 64) % 64 + j % 64 < 64 := by omega
      cases h1 : (getw C c_row (0 + (Mwidth A - 0 - 1))).testBit (j % 64) <;>
        cases h2 : (getw A a_row (0 + (Mwidth A - 0 - 1))).testBit (j % 64) <;>
          cases h3 : (getw B b_row (0 + (Mwidth A - 0 - 1))).testBit (j % 64) <;>
            simp [h1, h2, h3, cd]

theorem C7_combine_equiv_witness :
    Mwf (⟨1, 100, 0, [[0, 0]]⟩ : mzd_t) ∧
    mzd_read_bit (mzd_combine_weird ⟨1, 100, 0, [[0, 0]]⟩ 0 0
        ⟨1, 100, 0, [[123456789, 42]]⟩ 0 0 ⟨1, 100, 0, [[987654321, 7]]⟩ 0 0) 0 5 =
      mzd_read_bit ⟨1, 100, 0, [[123456789, 42]]⟩ 0 5 ^^^
        mzd_read_bit ⟨1, 100, 0, [[987654321, 7]]⟩ 0 5 :=
  ⟨by decide,
    (C7_combine_equiv ⟨1, 100, 0, [[0, 0]]⟩ 0 ⟨1, 100, 0, [[123456789, 42]]⟩ 0
        ⟨1, 100, 0, [[987654321, 7]]⟩ 0 (by decide) (by decide) (by decide) (by decide)
        (by decide) (by decide) (by decide) (by decide) (by decide) (by decide) (by decide)
        5 (by decide)).1⟩

end M4ri
